import Mathlib

/-!
# consul-debug-read: metric extraction, value formatting and report rows

A shallow embedding of `lib/types/metrics.go` and `metrics/telemetry.go`.

Go strings are modelled as Lean `String`s (valid UTF-8 text, as produced by the
JSON decoder and the command line), Go `int` as `Int` (the code performs no
integer arithmetic, only comparisons and conversions to `float64`), Go
`float64` as `Float64` below, and the dynamically typed `interface{}` values as
`Value`.  The Go standard library (`regexp`, `strings`, `strconv`, `fmt`,
`sort`) is not part of the repository; the pieces the code calls are modelled
here from their documented behaviour.
-/

set_option linter.dupNamespace false

namespace ConsulDebug

/-! ## Go `float64` -/

/-- An IEEE-754 binary64 datum.  `finite neg mant exp` stands for
`(-1)^neg * mant * 2^exp`; a zero mantissa with `neg = true` is negative zero. -/
inductive Float64 where
  | finite (neg : Bool) (mant : Nat) (exp : Int)
  | inf (neg : Bool)
  | nan
  deriving DecidableEq, Repr

/-! ### Arithmetic -/

/-- Position of the highest set bit, by halving (`0` for `0` and `1`). -/
def ilog2Fuel : Nat → Nat → Nat
  | 0, _ => 0
  | fuel + 1, n => if n < 2 then 0 else ilog2Fuel fuel (n / 2) + 1

def ilog2 (n : Nat) : Nat := ilog2Fuel n n

/-- Numerator and denominator of `num / den / 2^e`, without fractions. -/
def scaleBy (num den : Nat) (e : Int) : Nat × Nat :=
  if 0 ≤ e then (num, den * 2 ^ e.toNat) else (num * 2 ^ (-e).toNat, den)

/-- Round-half-to-even of `n / d` to an integer. -/
def roundHalfEven (n d : Nat) : Nat :=
  let q := n / d
  let r := n % d
  if d < 2 * r ∨ (2 * r = d ∧ q % 2 = 1) then q + 1 else q

/-- The exponent of the binary64 nearest to `num / den > 0`: the one that puts the
mantissa in `[2^52, 2^53)`, but not below `-1074` (subnormal numbers). -/
def chooseExp (num den : Nat) : Int :=
  let e0 : Int := (ilog2 num : Int) - (ilog2 den : Int) - 52
  let s0 := scaleBy num den e0
  let e1 : Int := if s0.1 / s0.2 < 2 ^ 52 then e0 - 1 else e0
  max e1 (-1074)

/-- Assemble a rounded mantissa and its exponent: a mantissa rounded up to `2^53` moves
to the next exponent, and an exponent above `971` is an overflow. -/
def packFloat (neg : Bool) (m : Nat) (e : Int) : Float64 :=
  if m = 2 ^ 53 then
    (if 971 < e + 1 then Float64.inf neg else Float64.finite neg (2 ^ 52) (e + 1))
  else if 971 < e then Float64.inf neg
  else Float64.finite neg m e

/-- The binary64 nearest to `(-1)^neg * num / den` (ties to even), with gradual
underflow below `2^-1022` and overflow to infinity from `2^1024`. -/
def roundToFloat (neg : Bool) (num den : Nat) : Float64 :=
  if num = 0 then Float64.finite neg 0 0
  else
    let e := chooseExp num den
    let s := scaleBy num den e
    packFloat neg (roundHalfEven s.1 s.2) e

/-- Go `float64(i)` for an `int`. -/
def Float64.ofInt (i : Int) : Float64 :=
  roundToFloat (decide (i < 0)) i.natAbs 1

/-- Division `x / y` of IEEE-754. -/
def Float64.div : Float64 → Float64 → Float64
  | Float64.nan, _ => Float64.nan
  | _, Float64.nan => Float64.nan
  | Float64.inf _, Float64.inf _ => Float64.nan
  | Float64.inf n1, Float64.finite n2 _ _ => Float64.inf (xor n1 n2)
  | Float64.finite n1 _ _, Float64.inf n2 => Float64.finite (xor n1 n2) 0 0
  | Float64.finite n1 m1 e1, Float64.finite n2 m2 e2 =>
      if m2 = 0 then (if m1 = 0 then Float64.nan else Float64.inf (xor n1 n2))
      else roundToFloat (xor n1 n2) (m1 * 2 ^ (e1 - e2).toNat) (m2 * 2 ^ (e2 - e1).toNat)

/-- Multiplication `x * y` of IEEE-754. -/
def Float64.mul : Float64 → Float64 → Float64
  | Float64.nan, _ => Float64.nan
  | _, Float64.nan => Float64.nan
  | Float64.inf n1, Float64.inf n2 => Float64.inf (xor n1 n2)
  | Float64.inf n1, Float64.finite n2 m2 _ =>
      if m2 = 0 then Float64.nan else Float64.inf (xor n1 n2)
  | Float64.finite n1 m1 _, Float64.inf n2 =>
      if m1 = 0 then Float64.nan else Float64.inf (xor n1 n2)
  | Float64.finite n1 m1 e1, Float64.finite n2 m2 e2 =>
      roundToFloat (xor n1 n2) (m1 * m2 * 2 ^ (e1 + e2).toNat) (2 ^ (-(e1 + e2)).toNat)

/-- The mantissa with its sign, scaled to the exponent `e` (not above the datum's own). -/
def signedAt (neg : Bool) (m : Nat) (e1 e : Int) : Int :=
  (if neg then -(m : Int) else (m : Int)) * 2 ^ (e1 - e).toNat

/-- Go `x > y` on `float64`. -/
def Float64.gt : Float64 → Float64 → Bool
  | Float64.nan, _ => false
  | _, Float64.nan => false
  | Float64.inf n1, Float64.inf n2 => !n1 && n2
  | Float64.inf n1, Float64.finite _ _ _ => !n1
  | Float64.finite _ _ _, Float64.inf n2 => n2
  | Float64.finite n1 m1 e1, Float64.finite n2 m2 e2 =>
      decide (signedAt n2 m2 e2 (min e1 e2) < signedAt n1 m1 e1 (min e1 e2))

/-- Go `x >= y` on `float64`. -/
def Float64.ge : Float64 → Float64 → Bool
  | Float64.nan, _ => false
  | _, Float64.nan => false
  | Float64.inf n1, Float64.inf n2 => !n1 || n2
  | Float64.inf n1, Float64.finite _ _ _ => !n1
  | Float64.finite _ _ _, Float64.inf n2 => n2
  | Float64.finite n1 m1 e1, Float64.finite n2 m2 e2 =>
      decide (signedAt n2 m2 e2 (min e1 e2) ≤ signedAt n1 m1 e1 (min e1 e2))

/-! ## Go `interface{}` values and the decoded metric records -/

/-- The dynamic values the formatter may be handed (`interface{}`). -/
inductive Value where
  | int (i : Int)
  | float (f : Float64)
  | str (s : String)
  | bool (b : Bool)
  | nil
  deriving DecidableEq, Repr

/-- A label map `map[string]interface{}`; the list order stands for the order in
which Go happens to iterate the map. -/
abbrev Labels := List (String × Value)

structure Gauge where
  Name : String
  Value : Float64
  Labels : Labels
  deriving DecidableEq, Repr

structure Points where
  Name : String
  Points : Float64
  Labels : Labels
  deriving DecidableEq, Repr

structure Counters where
  Name : String
  Count : Int
  Rate : Float64
  Sum : Float64
  Min : Float64
  Max : Float64
  Mean : Float64
  Stddev : Float64
  Labels : Labels
  deriving DecidableEq, Repr

structure Samples where
  Name : String
  Count : Int
  Rate : Float64
  Sum : Float64
  Min : Float64
  Max : Float64
  Mean : Float64
  Stddev : Float64
  Labels : Labels
  deriving DecidableEq, Repr

structure Metric where
  Timestamp : String
  Gauges : List Gauge
  Points : List Points
  Counters : List Counters
  Samples : List Samples
  deriving DecidableEq, Repr

/-- One element of the slice returned by `ExtractMetricValueByName`: the Go map
with the four keys `name`, `value`, `labels`, `timestamp`. -/
structure Extracted where
  name : String
  value : Value
  labels : Labels
  timestamp : String
  deriving DecidableEq, Repr

/-! ## `strings.Contains` -/

/-- Does `sub` occur in `s` as a contiguous block (on character lists)? -/
def hasInfix : List Char → List Char → Bool
  | [], sub => sub.isEmpty
  | c :: cs, sub => sub.isPrefixOf (c :: cs) || hasInfix cs sub

/-- Go `strings.Contains(s, substr)`. -/
def stringsContains (s substr : String) : Bool :=
  hasInfix s.data substr.data

/-! ## Go `regexp` (a fragment of the RE2 syntax)

Literals, `.`, `^`, `$`, `|`, grouping with `(` `)`, the postfix operators
`*`, `+`, `?` (and their non-greedy forms), and a backslash before a
punctuation metacharacter.  Flags are those of `regexp.Compile`: `.` does not
match a line feed, `^` and `$` match only at the two ends of the text. -/

inductive Regex where
  | empty
  | lit (c : Char)
  | any
  | bol
  | eol
  | seq (a b : Regex)
  | alt (a b : Regex)
  | star (a : Regex)
  | plus (a : Regex)
  | quest (a : Regex)
  deriving DecidableEq, Repr

/-- The characters `regexp.QuoteMeta` escapes. -/
def isMeta (c : Char) : Bool :=
  c ∈ ['\\', '.', '+', '*', '?', '(', ')', '|', '[', ']', '{', '}', '^', '$']

/-- Whether the previous token was a repetition operator. -/
inductive RepState where
  | noRep
  | afterOp
  | afterLazy
  deriving DecidableEq, Repr

/-- One nesting level of the parser: finished alternatives and the items of the
concatenation being read, both most recent first. -/
structure Frame where
  alts : List Regex
  items : List Regex
  deriving DecidableEq, Repr

structure PState where
  cur : Frame
  outer : List Frame
  rep : RepState
  deriving DecidableEq, Repr

def concatOf : List Regex → Regex
  | [] => Regex.empty
  | r :: rs => Regex.seq r (concatOf rs)

def closeFrame (f : Frame) : Regex :=
  f.alts.foldl (fun acc r => Regex.alt r acc) (concatOf f.items.reverse)

def PState.push (st : PState) (r : Regex) : PState :=
  { st with cur := { st.cur with items := r :: st.cur.items }, rep := RepState.noRep }

/-- Apply a repetition operator to the last item read. -/
def PState.repeatLast (st : PState) (op : Regex → Regex) : Option PState :=
  match st.rep, st.cur.items with
  | RepState.noRep, r :: rs =>
      some { st with cur := { st.cur with items := op r :: rs }, rep := RepState.afterOp }
  | _, _ => none

/-- The parser of `regexp/syntax`, restricted to the fragment above: one pass
over the pattern with a stack.  `none` stands for a pattern `regexp.MustCompile`
rejects (it panics) or one that uses syntax outside the fragment. -/
def parseLoop : List Char → PState → Option Regex
  | [], st =>
      match st.outer with
      | [] => some (closeFrame st.cur)
      | _ :: _ => none
  | c :: rest, st =>
      if c = '\\' then
        match rest with
        | [] => none
        | d :: rest2 => if isMeta d then parseLoop rest2 (st.push (Regex.lit d)) else none
      else if c = '.' then parseLoop rest (st.push Regex.any)
      else if c = '^' then parseLoop rest (st.push Regex.bol)
      else if c = '$' then parseLoop rest (st.push Regex.eol)
      else if c = '*' then
        match st.repeatLast Regex.star with
        | some st2 => parseLoop rest st2
        | none => none
      else if c = '+' then
        match st.repeatLast Regex.plus with
        | some st2 => parseLoop rest st2
        | none => none
      else if c = '?' then
        match st.rep with
        | RepState.afterOp => parseLoop rest { st with rep := RepState.afterLazy }
        | _ =>
          match st.repeatLast Regex.quest with
          | some st2 => parseLoop rest st2
          | none => none
      else if c = '|' then
        parseLoop rest
          { st with cur := { alts := concatOf st.cur.items.reverse :: st.cur.alts, items := [] },
                    rep := RepState.noRep }
      else if c = '(' then
        match rest with
        | '?' :: _ => none
        | _ => parseLoop rest { cur := { alts := [], items := [] }, outer := st.cur :: st.outer,
                                rep := RepState.noRep }
      else if c = ')' then
        match st.outer with
        | [] => none
        | f :: fs =>
          parseLoop rest { cur := { f with items := closeFrame st.cur :: f.items }, outer := fs,
                           rep := RepState.noRep }
      else if c = '[' ∨ c = '{' then none
      else parseLoop rest (st.push (Regex.lit c))

/-- Go `regexp.MustCompile(pattern)`. -/
def regexpCompile (pattern : String) : Option Regex :=
  parseLoop pattern.data { cur := { alts := [], items := [] }, outer := [], rep := RepState.noRep }

/-- Zero or more rounds of `step`, each consuming at least one character, then
the continuation `k`.  The flag passed along says whether the current position
is the beginning of the text. -/
def starRun (step : (Bool → List Char → Bool) → Bool → List Char → Bool)
    (k : Bool → List Char → Bool) : Nat → Bool → List Char → Bool
  | 0, atStart, s => k atStart s
  | fuel + 1, atStart, s =>
      k atStart s ||
        step (fun st2 s2 => decide (s2.length < s.length) && starRun step k fuel st2 s2) atStart s

/-- A backtracking matcher: `r.run k atStart s` holds when `r` matches a prefix
of the remaining text `s` and the continuation `k` accepts what is left.  The
end of the text is the empty remainder. -/
def Regex.run : Regex → (Bool → List Char → Bool) → Bool → List Char → Bool
  | Regex.empty, k, atStart, s => k atStart s
  | Regex.lit c, k, _, s =>
      match s with
      | [] => false
      | d :: rest => decide (d = c) && k false rest
  | Regex.any, k, _, s =>
      match s with
      | [] => false
      | d :: rest => decide (d ≠ '\n') && k false rest
  | Regex.bol, k, atStart, s => atStart && k atStart s
  | Regex.eol, k, atStart, s => s.isEmpty && k atStart s
  | Regex.seq a b, k, atStart, s => a.run (fun st2 s2 => b.run k st2 s2) atStart s
  | Regex.alt a b, k, atStart, s => a.run k atStart s || b.run k atStart s
  | Regex.star a, k, atStart, s => starRun a.run k s.length atStart s
  | Regex.plus a, k, atStart, s =>
      a.run (fun st2 s2 => starRun a.run k s2.length st2 s2) atStart s
  | Regex.quest a, k, atStart, s => k atStart s || a.run k atStart s

/-- Try the expression at the current position and at every later one. -/
def Regex.searchFrom (r : Regex) : Bool → List Char → Bool
  | atStart, [] => r.run (fun _ _ => true) atStart []
  | atStart, c :: cs => r.run (fun _ _ => true) atStart (c :: cs) || r.searchFrom false cs

/-- Go `(*Regexp).MatchString`: some stretch of the text is matched. -/
def Regex.matchString (r : Regex) (s : String) : Bool :=
  r.searchFrom true s.data

/-! ## `Metric.ExtractMetricValueByName` -/

def gaugeMatch (m : Metric) (g : Gauge) : Extracted :=
  { name := g.Name, value := Value.float g.Value, labels := g.Labels, timestamp := m.Timestamp }

def pointMatch (m : Metric) (p : Points) : Extracted :=
  { name := p.Name, value := Value.float p.Points, labels := p.Labels, timestamp := m.Timestamp }

def counterMatch (m : Metric) (c : Counters) : Extracted :=
  { name := c.Name, value := Value.int c.Count, labels := c.Labels, timestamp := m.Timestamp }

def sampleMatch (m : Metric) (s : Samples) : Extracted :=
  { name := s.Name, value := Value.float s.Mean, labels := s.Labels, timestamp := m.Timestamp }

/-- The four loops of `ExtractMetricValueByName`, for a compiled expression. -/
def extractWith (regex : Regex) (m : Metric) : List Extracted :=
  ((m.Gauges.filter fun g => regex.matchString g.Name).map (gaugeMatch m)) ++
  ((m.Points.filter fun p => regex.matchString p.Name).map (pointMatch m)) ++
  ((m.Counters.filter fun c => regex.matchString c.Name).map (counterMatch m)) ++
  ((m.Samples.filter fun s => regex.matchString s.Name).map (sampleMatch m))

/-- Source function `Metric.ExtractMetricValueByName`; `none` when `regexp.MustCompile` does not
return an expression for `".*" + metricName`. -/
def Metric.ExtractMetricValueByName (m : Metric) (metricName : String) : Option (List Extracted) :=
  match regexpCompile (".*" ++ metricName) with
  | none => none
  | some regex => some (extractWith regex m)

/-! ## `fmt` and `strconv` -/

/-- Decimal digits of a natural number, most significant first (`"0"` for zero). -/
def natDigitsFuel : Nat → Nat → List Char → List Char
  | 0, _, acc => acc
  | fuel + 1, n, acc =>
      if n < 10 then Nat.digitChar n :: acc
      else natDigitsFuel fuel (n / 10) (Nat.digitChar (n % 10) :: acc)

def natDigits (n : Nat) : List Char := natDigitsFuel (n + 1) n []

/-- The last `k` decimal digits of `n`, with leading zeros. -/
def lastDigits : Nat → Nat → List Char
  | 0, _ => []
  | k + 1, n => lastDigits k (n / 10) ++ [Nat.digitChar (n % 10)]

/-- Go `%d` of an `int`. -/
def fmtInt (i : Int) : List Char :=
  if i < 0 then '-' :: natDigits i.natAbs else natDigits i.natAbs

/-- The integer nearest to `|x| * 10^prec` (ties to even) for a finite `x = m * 2^e`: the
digits `%.<prec>f` prints, without the decimal point. -/
def fixedDigits (prec m : Nat) (e : Int) : Nat :=
  let s := scaleBy (m * 10 ^ prec) 1 (-e)
  roundHalfEven s.1 s.2

/-- Go `%.<prec>f` of a `float64` (for `prec > 0`). -/
def fmtFixed (prec : Nat) : Float64 → List Char
  | Float64.nan => "NaN".data
  | Float64.inf false => "+Inf".data
  | Float64.inf true => "-Inf".data
  | Float64.finite neg m e =>
      let r := fixedDigits prec m e
      (if neg then ['-'] else []) ++ natDigits (r / 10 ^ prec) ++ '.' :: lastDigits prec r

/-- Number of zeros right after the decimal point of `num / den < 1`: the least `z` with
`num * 10^(z+1) ≥ den`. -/
def leadingZeros (num den : Nat) : Nat → Nat → Nat
  | 0, z => z
  | fuel + 1, z => if den ≤ num * 10 ^ (z + 1) then z else leadingZeros num den fuel (z + 1)

/-- Drop the zeros at the end of a decimal numeral `d * 10^k`. -/
def stripZeros : Nat → Nat → Int → Nat × Int
  | 0, d, k => (d, k)
  | fuel + 1, d, k => if d ≠ 0 ∧ d % 10 = 0 then stripZeros fuel (d / 10) (k + 1) else (d, k)

/-- Search for the decimal numeral with the fewest digits inside the rounding interval of
a positive binary64 `x = xn / den` whose lower and upper half-gaps are `gl / den` and
`gu / den`; `p` is the position of the decimal point of `x` and `incl` says whether the
ends of the interval belong to it.  The result `(d, k)` stands for `d * 10^k`. -/
def shortestFrom (xn den gl gu : Nat) (incl : Bool) (p : Int) : Nat → Nat → Nat × Int
  | 0, n => (xn * 10 ^ (n - p).toNat / (den * 10 ^ (p - n).toNat), p - n)
  | fuel + 1, n =>
      let k : Int := p - n
      let s := 10 ^ (-k).toNat
      let dn := den * 10 ^ k.toNat
      let lo := xn * s / dn
      let r := xn * s % dn
      let okdown := if incl then decide (r ≤ gl * s) else decide (r < gl * s)
      let okup := if incl then decide (dn - r ≤ gu * s) else decide (dn - r < gu * s)
      if r = 0 then (lo, k)
      else if okdown && okup then
        (if 2 * r < dn ∨ (2 * r = dn ∧ lo % 2 = 0) then (lo, k) else (lo + 1, k))
      else if okdown then (lo, k)
      else if okup then (lo + 1, k)
      else shortestFrom xn den gl gu incl p fuel (n + 1)

/-- The shortest decimal digits that read back as the positive binary64 `m * 2^e` (given in
normal form), as a numeral `d * 10^k` without trailing zeros. -/
def shortestDecimal (m : Nat) (e : Int) : Nat × Int :=
  let den := 2 ^ (2 - e).toNat
  let unit := 2 ^ (e - 2).toNat
  let xn := 4 * m * unit
  let gl := (if m = 2 ^ 52 ∧ -1074 < e then 1 else 2) * unit
  let gu := 2 * unit
  let p : Int :=
    if den ≤ xn then ((natDigits (xn / den)).length : Int)
    else -((leadingZeros xn den 400 0 : Nat) : Int)
  let r := shortestFrom xn den gl gu (decide (m % 2 = 0)) p 17 1
  stripZeros 400 r.1 r.2

/-- Digit number `i` (from the left, starting at zero) of the digit string, `'0'` outside it. -/
def digitAt (ds : List Char) (i : Int) : Char :=
  if i < 0 then '0' else ds.getD i.toNat '0'

/-- The layout of the `'g'` format for the digits of the decimal numeral `d * 10^k`: the
`%e` form when the decimal exponent is below `-4` or at least `6` (two exponent digits at
least), the `%f` form otherwise. -/
def fmtShortest (sign : List Char) (d : Nat) (k : Int) : List Char :=
  let ds := natDigits d
  let nd : Int := ds.length
  let dp : Int := nd + k
  let x := dp - 1
  if x < -4 ∨ 6 ≤ x then
    sign ++ ds.take 1 ++ (if 1 < ds.length then '.' :: ds.drop 1 else []) ++
      ['e', if x < 0 then '-' else '+'] ++
      (if x.natAbs < 10 then ['0'] else []) ++ natDigits x.natAbs
  else
    sign ++ (if 0 < dp then (List.range dp.toNat).map (fun (i : Nat) => digitAt ds (i : Int))
      else ['0']) ++
      (if 0 < nd - dp then
        '.' :: (List.range (nd - dp).toNat).map (fun (i : Nat) => digitAt ds (dp + (i : Int)))
       else [])

/-- Go `%v` of a `float64`: `strconv.FormatFloat(x, 'g', -1, 64)`, the shortest digits that
read back as the number. -/
def fmtG : Float64 → List Char
  | Float64.nan => "NaN".data
  | Float64.inf false => "+Inf".data
  | Float64.inf true => "-Inf".data
  | Float64.finite neg m e =>
      let sign := if neg then ['-'] else []
      match roundToFloat neg (m * 2 ^ e.toNat) (2 ^ (-e).toNat) with
      | Float64.finite _ m2 e2 =>
          if m2 = 0 then sign ++ ['0']
          else fmtShortest sign (shortestDecimal m2 e2).1 (shortestDecimal m2 e2).2
      | other => fmtFixed 0 other

/-- Value of a string of decimal digits. -/
def digitsValue (ds : List Char) : Nat :=
  ds.foldl (fun acc c => acc * 10 + (c.toNat - '0'.toNat)) 0

/-- A hexadecimal digit that is a letter, in either case. -/
def isHexLetter (c : Char) : Bool :=
  decide ('a' ≤ c.toLower) && decide (c.toLower ≤ 'f')

def hexDigitValue (c : Char) : Nat :=
  if c.isDigit then c.toNat - '0'.toNat else c.toLower.toNat - 'a'.toNat + 10

/-- Value of a string of hexadecimal digits. -/
def hexValue (ds : List Char) : Nat :=
  ds.foldl (fun acc c => acc * 16 + hexDigitValue c) 0

/-- The exponent as `readFloat` accumulates it: a digit is added only while the value is
below `10000`. -/
def expValue (ds : List Char) : Nat :=
  ds.foldl (fun e c => if e < 10000 then e * 10 + (c.toNat - '0'.toNat) else e) 0

/-- A digit loop of `readFloat`: the digits of the longest prefix made of digits
(hexadecimal ones when `hex`) and underscores, the underscores skipped, and what follows
that prefix. -/
def scanDigits (hex : Bool) : List Char → List Char × List Char
  | [] => ([], [])
  | c :: cs =>
      if c = '_' then scanDigits hex cs
      else if c.isDigit || (hex && isHexLetter c) then
        ((scanDigits hex cs).1.cons c, (scanDigits hex cs).2)
      else ([], c :: cs)

/-- The loop of Go `underscoreOK`; `saw` is the kind of the previous character: `'0'` a
digit (or the base prefix), `'_'` an underscore, `'!'` anything else, `'^'` the start. -/
def underscoreLoop (hex : Bool) : Char → List Char → Bool
  | saw, [] => decide (saw ≠ '_')
  | saw, c :: cs =>
      if c.isDigit || (hex && isHexLetter c) then underscoreLoop hex '0' cs
      else if c = '_' then (if saw ≠ '0' then false else underscoreLoop hex '_' cs)
      else if saw = '_' then false
      else underscoreLoop hex '!' cs

/-- Go `underscoreOK`: an underscore may stand only between two digits, or between a base
prefix and a digit. -/
def underscoreOK (s : List Char) : Bool :=
  let s1 := if s.head? = some '-' ∨ s.head? = some '+' then s.drop 1 else s
  match s1 with
  | '0' :: c :: rest =>
      if c.toLower = 'b' ∨ c.toLower = 'o' ∨ c.toLower = 'x' then
        underscoreLoop (decide (c.toLower = 'x')) '0' rest
      else underscoreLoop false '^' s1
  | _ => underscoreLoop false '^' s1

/-- The test of `readFloat` for a hexadecimal mantissa: `0x` or `0X` with at least one more
character after it. -/
def hexPrefix : List Char → Bool
  | '0' :: c :: _ :: _ => decide (c.toLower = 'x')
  | _ => false

/-- The special forms of `strconv.ParseFloat`: `inf` and `infinity` with an optional sign,
and `nan`, in any letter case. -/
def parseSpecial (s : List Char) : Option Float64 :=
  let low := s.map Char.toLower
  if low = "nan".data then some Float64.nan
  else if low = "inf".data ∨ low = "+inf".data ∨ low = "infinity".data ∨ low = "+infinity".data then
    some (Float64.inf false)
  else if low = "-inf".data ∨ low = "-infinity".data then some (Float64.inf true)
  else none

/-- The exponent of `readFloat`, read after the exponent letter: an optional sign and at
least one digit, up to the end of the text; `none` for anything else. -/
def readExponent (s3 : List Char) : Option Int :=
  let s4 := if s3.head? = some '-' ∨ s3.head? = some '+' then s3.drop 1 else s3
  let ep := scanDigits false s4
  if s4.head?.map Char.isDigit ≠ some true ∨ ep.2 ≠ [] then none
  else if s3.head? = some '-' then some (-(expValue ep.1 : Int))
  else some (expValue ep.1 : Int)

/-- The number `readFloat` and the conversion make of the text after the sign and the base
prefix: mantissa digits with at most one point, then the exponent, which a hexadecimal
mantissa requires; `0` when the text is not of that form. -/
def readNumber (neg hex : Bool) (s2 : List Char) : Float64 :=
  let ip := scanDigits hex s2
  let fp := if ip.2.head? = some '.' then scanDigits hex (ip.2.drop 1) else ([], ip.2)
  if ip.1 = [] ∧ fp.1 = [] then Float64.finite false 0 0
  else if fp.2 = [] then
    (if hex then Float64.finite false 0 0
     else roundToFloat neg (digitsValue (ip.1 ++ fp.1)) (10 ^ fp.1.length))
  else if fp.2.head?.map Char.toLower = some (if hex then 'p' else 'e') then
    match readExponent (fp.2.drop 1) with
    | none => Float64.finite false 0 0
    | some e =>
        if hex then
          let x : Int := e - 4 * (fp.1.length : Int)
          roundToFloat neg (hexValue (ip.1 ++ fp.1) * 2 ^ x.toNat) (2 ^ (-x).toNat)
        else
          let x : Int := e - (fp.1.length : Int)
          roundToFloat neg (digitsValue (ip.1 ++ fp.1) * 10 ^ x.toNat) (10 ^ (-x).toNat)
  else Float64.finite false 0 0

/-- The value `strconv.ParseFloat(s, 64)` returns, its error dropped.  A well-formed numeral
gives the nearest binary64 (an infinity when it is out of range): a decimal mantissa with
an optional exponent `e`, or a hexadecimal mantissa after `0x` with the binary exponent `p`
it requires; underscores are skipped by the digit loops and then checked by `underscoreOK`.
Anything else gives `0`. -/
def parseFloat (s : List Char) : Float64 :=
  match parseSpecial s with
  | some f => f
  | none =>
    let neg := decide (s.head? = some '-')
    let s1 := if s.head? = some '-' ∨ s.head? = some '+' then s.drop 1 else s
    let hex := hexPrefix s1
    if '_' ∈ s ∧ underscoreOK s = false then Float64.finite false 0 0
    else readNumber neg hex (if hex then s1.drop 2 else s1)

/-- Go `%v` of a dynamic value. -/
def fmtV : Value → List Char
  | Value.int i => fmtInt i
  | Value.float f => fmtG f
  | Value.str s => s.data
  | Value.bool b => if b then "true".data else "false".data
  | Value.nil => "<nil>".data

/-- Go `%v` of `reflect.TypeOf(v)`. -/
def typeName : Value → String
  | Value.int _ => "int"
  | Value.float _ => "float64"
  | Value.str _ => "string"
  | Value.bool _ => "bool"
  | Value.nil => "<nil>"

/-- How a Go call can fail: by returning an `error` or by panicking. -/
inductive GoError where
  | error (msg : String)
  | panic
  deriving DecidableEq, Repr

instance decEqExcept {ε α : Type} [DecidableEq ε] [DecidableEq α] : DecidableEq (Except ε α) :=
  fun a b =>
    match a, b with
    | Except.ok x, Except.ok y =>
        if h : x = y then isTrue (by rw [h]) else isFalse (fun h2 => h (Except.ok.inj h2))
    | Except.error x, Except.error y =>
        if h : x = y then isTrue (by rw [h]) else isFalse (fun h2 => h (Except.error.inj h2))
    | Except.ok _, Except.error _ => isFalse (fun h => Except.noConfusion h)
    | Except.error _, Except.ok _ => isFalse (fun h => Except.noConfusion h)

/-! ### `fmt.Errorf` with a format string and no operands -/

/-- Go `parsenum`: read a decimal number; after a number above `1e6` the scan gives up and
jumps to the end of the text.  Returns whether a number was read and the text left. -/
def parsenum : List Char → Nat → Bool → Bool × List Char
  | [], _, isnum => (isnum, [])
  | c :: cs, num, isnum =>
      if c.isDigit then
        (if 1000000 < num then (false, [])
         else parsenum cs (num * 10 + (c.toNat - '0'.toNat)) true)
      else (isnum, c :: cs)

/-- Go `argNumber` when there are no operands: skip an explicit index `[n]`.  Returns the
text left, whether a well-formed index was found, and whether any `[` was met (with no
operands every index is out of range). -/
def argNumber (s : List Char) : List Char × Bool × Bool :=
  match s with
  | '[' :: rest =>
      if s.length < 3 then (rest, false, true)
      else if rest.contains ']' then
        let inner := rest.takeWhile (fun c => c ≠ ']')
        let after := (rest.dropWhile (fun c => c ≠ ']')).drop 1
        let r := parsenum inner 0 false
        (after, r.1 && r.2.isEmpty && !inner.isEmpty, true)
      else (rest, false, true)
  | _ => (s, false, false)

/-- One verb of a format string processed without operands; `s` is the text after `%`.
Returns what is written and the text left. -/
def verbNoOperand (s : List Char) : List Char × List Char :=
  let s1 := s.dropWhile (fun c => c = '#' ∨ c = '0' ∨ c = '+' ∨ c = '-' ∨ c = ' ')
  let a1 := argNumber s1
  -- width
  let w : List Char × List Char × Bool × Bool :=
    match a1.1 with
    | '*' :: rest => ("%!(BADWIDTH)".data, rest, false, a1.2.2)
    | _ =>
      let r := parsenum a1.1 0 false
      ([], r.2, a1.2.1, a1.2.2 || (a1.2.1 && r.1))
  -- precision
  let p : List Char × List Char × Bool × Bool :=
    match w.2.1 with
    | '.' :: rest =>
      let a2 := argNumber rest
      match a2.1 with
      | '*' :: rest2 => (w.1 ++ "%!(BADPREC)".data, rest2, false, w.2.2.2 || w.2.2.1 || a2.2.2)
      | _ => (w.1, (parsenum a2.1 0 false).2, a2.2.1, w.2.2.2 || w.2.2.1 || a2.2.2)
    | _ => w
  let a3 := if p.2.2.1 then (p.2.1, true, false) else argNumber p.2.1
  let bad := p.2.2.2 || a3.2.2
  match a3.1 with
  | [] => (p.1 ++ "%!(NOVERB)".data, [])
  | c :: rest =>
      if c = '%' then (p.1 ++ ['%'], rest)
      else if bad then (p.1 ++ "%!".data ++ [c] ++ "(BADINDEX)".data, rest)
      else (p.1 ++ "%!".data ++ [c] ++ "(MISSING)".data, rest)

def errorfLoop : Nat → List Char → List Char
  | 0, _ => []
  | _, [] => []
  | fuel + 1, c :: cs =>
      if c = '%' then (verbNoOperand cs).1 ++ errorfLoop fuel (verbNoOperand cs).2
      else c :: errorfLoop fuel cs

/-- The message of `fmt.Errorf(format)` called with a format string alone. -/
def errorfNoOperands (format : String) : String :=
  String.mk (errorfLoop format.data.length format.data)

/-! ## `metrics/telemetry.go` -/

def telemetryURL : String := "https://developer.hashicorp.com/consul/docs/agent/telemetry"

structure AgentTelemetryMetric where
  Name : String
  Unit : String
  Type_ : String
  deriving DecidableEq, Repr

/-- What `GetTelemetryMetrics` hands back after its HTTP request: the columnized table
text and the parsed entries, or the error of the request. -/
abbrev TelemetryFetch := Except String (String × List AgentTelemetryMetric)

/-- The message built by `fmt.Errorf(fmt.Sprintf(...))` in both validators: the inner
`Sprintf` fills in the name and the URL, the outer `Errorf` reads the result as a format. -/
def validationMessage (name : String) : String :=
  errorfNoOperands ("[metrics-name-validation] '" ++ name ++
    "' not a valid telemetry metric name\n  visit: " ++ telemetryURL ++
    " for full list of consul telemetry metrics")

/-- The body of `ValidateMetricName` after the table is fetched, which is also the closure
`validateName` of `GetMetricValues` (there `shown` is the captured outer `name`). -/
def validateName (shown : String) (n info : String) : Except GoError Unit :=
  match regexpCompile "^consul\\.proxy\\..+$" with
  | none => Except.error GoError.panic
  | some reg =>
    if reg.matchString n then Except.ok ()
    else if stringsContains info n then Except.ok ()
    else Except.error (GoError.error (validationMessage shown))

/-- Source function `ValidateMetricName`, given the outcome of `GetTelemetryMetrics`. -/
def ValidateMetricName (fetch : TelemetryFetch) (name : String) : Except GoError Unit :=
  match fetch with
  | Except.error e => Except.error (GoError.error e)
  | Except.ok (latestMetrics, _) => validateName name name latestMetrics

/-! ## `lib/types/metrics.go` -/

/-- Source function `GetUnitAndType`. -/
def GetUnitAndType (name : String) : List AgentTelemetryMetric → String × String
  | [] => ("-", "-")
  | metric :: rest =>
      if metric.Name = name then (metric.Unit, metric.Type_)
      else if name = "*" then (metric.Unit, metric.Type_)
      else GetUnitAndType name rest

def kb : Int := 1024
def mb : Int := 1024 * kb
def gb : Int := 1024 * mb
def tb : Int := 1024 * gb

/-- Go `fmt.Sprintf("%.<prec>f<suffix>", x)`. -/
def sprintfFixed (prec : Nat) (x : Float64) (suffix : String) : String :=
  String.mk (fmtFixed prec x) ++ suffix

/-- Go `fmt.Sprintf("%d<suffix>", i)`. -/
def sprintfInt (i : Int) (suffix : String) : String :=
  String.mk (fmtInt i) ++ suffix

def ConvertIntBytes (bytes : Int) : String :=
  if bytes ≥ tb then sprintfFixed 2 ((Float64.ofInt bytes).div (Float64.ofInt tb)) " TB"
  else if bytes ≥ gb then sprintfFixed 2 ((Float64.ofInt bytes).div (Float64.ofInt gb)) " GB"
  else if bytes ≥ mb then sprintfFixed 2 ((Float64.ofInt bytes).div (Float64.ofInt mb)) " MB"
  else if bytes ≥ kb then sprintfFixed 2 ((Float64.ofInt bytes).div (Float64.ofInt kb)) " KB"
  else sprintfInt bytes " bytes"

def ConvertFloatBytes (bytes : Float64) : String :=
  if bytes.ge (Float64.ofInt tb) then sprintfFixed 2 (bytes.div (Float64.ofInt tb)) " TB"
  else if bytes.ge (Float64.ofInt gb) then sprintfFixed 2 (bytes.div (Float64.ofInt gb)) " GB"
  else if bytes.ge (Float64.ofInt mb) then sprintfFixed 2 (bytes.div (Float64.ofInt mb)) " MB"
  else if bytes.ge (Float64.ofInt kb) then sprintfFixed 2 (bytes.div (Float64.ofInt kb)) " KB"
  else sprintfFixed 4 bytes " bytes"

/-- Source function `ByteConverter.ConvertToReadableBytes`. -/
def ConvertToReadableBytes : Value → String
  | Value.int v => ConvertIntBytes v
  | Value.float v => ConvertFloatBytes v
  | _ => "Unsupported type"

/-- The error of the `default:` arm of every time converter. -/
def unsupportedType (timeValue : Value) : GoError :=
  GoError.error ("unsupported type: " ++ typeName timeValue)

def nsInMs : Int := 1000000
def nsInSecond : Int := 1000000000
def nsInHour : Int := 3600000000000

/-- Source function `NanosecondsConverter.Convert`. -/
def NanosecondsConverter.Convert : Value → Except GoError String
  | Value.int v =>
      if v ≥ nsInHour then
        Except.ok (sprintfFixed 2 ((Float64.ofInt v).div (Float64.ofInt nsInHour)) "h")
      else if v ≥ nsInSecond then
        Except.ok (sprintfFixed 2 ((Float64.ofInt v).div (Float64.ofInt nsInSecond)) "s")
      else if v ≥ nsInMs then
        Except.ok (sprintfFixed 2 ((Float64.ofInt v).div (Float64.ofInt nsInMs)) "ms")
      else Except.ok (sprintfInt v "ns")
  | Value.float v =>
      if v.ge (Float64.ofInt nsInHour) then
        Except.ok (sprintfFixed 2 (v.div (Float64.ofInt nsInHour)) "h")
      else if v.ge (Float64.ofInt nsInSecond) then
        Except.ok (sprintfFixed 2 (v.div (Float64.ofInt nsInSecond)) "s")
      else if v.ge (Float64.ofInt nsInMs) then
        Except.ok (sprintfFixed 4 (v.div (Float64.ofInt nsInMs)) "ms")
      else Except.ok (sprintfFixed 4 v "ns")
  | other => Except.error (unsupportedType other)

def msInSecond : Int := 1000
def msInHour : Int := 3600000

/-- Source function `MillisecondsConverter.Convert`. -/
def MillisecondsConverter.Convert : Value → Except GoError String
  | Value.int v =>
      if v ≥ msInHour then
        Except.ok (sprintfFixed 2 ((Float64.ofInt v).div (Float64.ofInt msInHour)) "h")
      else if v ≥ msInSecond then
        Except.ok (sprintfFixed 2 ((Float64.ofInt v).div (Float64.ofInt msInSecond)) "s")
      else Except.ok (sprintfFixed 4 (Float64.ofInt v) "ms")
  | Value.float v =>
      if v.ge (Float64.ofInt msInHour) then
        Except.ok (sprintfFixed 2 (v.div (Float64.ofInt msInHour)) "h")
      else if v.ge (Float64.ofInt msInSecond) then
        Except.ok (sprintfFixed 2 (v.div (Float64.ofInt msInSecond)) "s")
      else Except.ok (sprintfFixed 4 v "ms")
  | other => Except.error (unsupportedType other)

def secondsInHour : Int := 3600

/-- Source function `SecondsConverter.Convert`. -/
def SecondsConverter.Convert : Value → Except GoError String
  | Value.int v =>
      if v ≥ secondsInHour then
        Except.ok (sprintfFixed 2 ((Float64.ofInt v).div (Float64.ofInt secondsInHour)) "h")
      else Except.ok (sprintfFixed 2 (Float64.ofInt v) "s")
  | Value.float v =>
      if v.ge (Float64.ofInt secondsInHour) then
        Except.ok (sprintfFixed 2 (v.div (Float64.ofInt secondsInHour)) "h")
      else Except.ok (sprintfFixed 2 v "s")
  | other => Except.error (unsupportedType other)

/-- Source function `HoursConverter.Convert`. -/
def HoursConverter.Convert : Value → Except GoError String
  | Value.int v => Except.ok (sprintfFixed 2 (Float64.ofInt v) "h")
  | Value.float v => Except.ok (sprintfFixed 2 v "h")
  | other => Except.error (unsupportedType other)

/-- Source function `ConvertToReadableTime`: the `switch` has no default arm, so for any other unit the
converter stays nil and calling it panics. -/
def ConvertToReadableTime (value : Value) (units : String) : Except GoError String :=
  if units = "ns" then NanosecondsConverter.Convert value
  else if units = "ms" then MillisecondsConverter.Convert value
  else if units = "seconds" then SecondsConverter.Convert value
  else if units = "hours" then HoursConverter.Convert value
  else Except.error GoError.panic

/-! ### Rows and their order -/

/-- The field separator `0x1f`. -/
def sep : Char := Char.ofNat 0x1f

def headerRow : String :=
  String.mk ("Timestamp".data ++ sep :: "Metric".data ++ sep :: "Type".data ++ sep ::
    "Unit".data ++ sep :: "Value".data ++ sep :: "Labels".data ++ [sep])

/-- Go `fmt.Sprintf("%s\x1f%s\x1f%s\x1f%s\x1f%s\x1f%s\x1f", ...)`. -/
def mkRow (timestamp name metricType unit value labels : String) : String :=
  String.mk (timestamp.data ++ sep :: name.data ++ sep :: metricType.data ++ sep ::
    unit.data ++ sep :: value.data ++ sep :: labels.data ++ [sep])

/-- The `label` slice: one `{key: value}` text per label, in iteration order. -/
def labelTexts (labels : Labels) : List String :=
  labels.map fun kv => String.mk ('{' :: kv.1.data ++ ':' :: ' ' :: fmtV kv.2 ++ ['}'])

/-- Go `%s` of a `[]string`. -/
def fmtStrings (xs : List String) : String :=
  String.mk ('[' :: (String.intercalate " " xs).data ++ [']'])

/-- Go `strings.Split(s, "\x1f")`, on character lists. -/
def splitOn (d : Char) : List Char → List (List Char)
  | [] => [[]]
  | c :: cs =>
      if c = d then [] :: splitOn d cs
      else
        match splitOn d cs with
        | [] => [[c]]
        | h :: t => (c :: h) :: t

/-- Go `strings.TrimRight(s, "%")`. -/
def trimRightPercent (s : List Char) : List Char :=
  (s.reverse.dropWhile (fun c => c = '%')).reverse

/-- The number `ByValue.Less` reads in a row; `none` when the row has fewer than five
fields (the index expression `columns[4]` panics). -/
def rowKey (row : String) : Option Float64 :=
  ((splitOn sep row.data).get? 4).map fun col => parseFloat (trimRightPercent col)

/-- Source function `ByValue.Less` on the rows at the two indices. -/
def ByValue.Less (row_i row_j : String) : Option Bool :=
  match rowKey row_i, rowKey row_j with
  | some value_i, some value_j => some (value_i.gt value_j)
  | _, _ => none

/-- Inner loop of insertion sort: `x` moves left past the rows it is `Less` than; the
sorted prefix is given last row first. -/
def insertBack (x : String) : List String → Option (List String)
  | [] => some [x]
  | y :: ys =>
      match ByValue.Less x y with
      | none => none
      | some true => (insertBack x ys).map (fun l => y :: l)
      | some false => some (x :: y :: ys)

def sortLoop : List String → List String → Option (List String)
  | [], acc => some acc.reverse
  | x :: xs, acc =>
      match insertBack x acc with
      | none => none
      | some acc2 => sortLoop xs acc2

/-- Go `sort.Sort(ByValue(rows))`, as the insertion sort the library runs on short slices
(at most 12 elements); on longer slices the library promises the same order up to the
placement of rows that compare equal.  `none` when `Less` panics. -/
def sortByValue (rows : List String) : Option (List String) :=
  sortLoop rows []

/-! ### `Debug.GetMetricValues` -/

structure Metrics where
  Metrics : List Metric
  deriving DecidableEq, Repr

structure Debug where
  Metrics : Metrics
  deriving DecidableEq, Repr

/-- Lines 141-156: the text of a non-nil value for the declared unit. -/
def renderValue (unit : String) (mValue : Value) : Except GoError String :=
  match regexpCompile "^ns$|^ms$|^seconds$|^hours$", regexpCompile "bytes",
        regexpCompile "percentage" with
  | some timeReg, some bytesReg, some percentageReg =>
      if timeReg.matchString unit then ConvertToReadableTime mValue unit
      else if bytesReg.matchString unit then Except.ok (ConvertToReadableBytes mValue)
      else if percentageReg.matchString unit then
        let vFloat := parseFloat (fmtV mValue)
        let percent := vFloat.mul (Float64.ofInt 100)
        Except.ok (sprintfFixed 2 percent "%")
      else Except.ok (String.mk (fmtV mValue))
  | _, _, _ => Except.error GoError.panic

/-- Lines 132-162: the row appended for one extracted entry. -/
def rowFor (metricType unit : String) (info : Extracted) : Except GoError String :=
  if info.value ≠ Value.nil then
    match renderValue unit info.value with
    | Except.error e => Except.error e
    | Except.ok v =>
        Except.ok (mkRow info.timestamp info.name metricType unit v
          (fmtStrings (labelTexts info.labels)))
  else Except.ok (mkRow info.timestamp info.name metricType unit "<nil>" "-")

/-- The inner loop over the entries of one snapshot. -/
def appendRows (metricType unit : String) : List Extracted → List String → Except GoError (List String)
  | [], result => Except.ok result
  | info :: rest, result =>
      match rowFor metricType unit info with
      | Except.error e => Except.error e
      | Except.ok row => appendRows metricType unit rest (result ++ [row])

/-- The outer loop over the snapshots of the bundle. -/
def collectRows (name metricType unit : String) : List Metric → List String → Except GoError (List String)
  | [], result => Except.ok result
  | metric :: rest, result =>
      match metric.ExtractMetricValueByName name with
      | none => Except.error GoError.panic
      | some data =>
          match appendRows metricType unit data result with
          | Except.error e => Except.error e
          | Except.ok result2 => collectRows name metricType unit rest result2

/-- Source function `Debug.GetMetricValues` up to the call of `columnize.Format`: the slice `result`
handed to the renderer.  `fetch` is the outcome of `telemetry.GetTelemetryMetrics()`. -/
def GetMetricValuesRows (b : Debug) (fetch : TelemetryFetch) (name : String)
    (validate byValue : Bool) : Except GoError (List String) :=
  match fetch with
  | Except.error e => Except.error (GoError.error e)
  | Except.ok (stringInfo, telemetryInfo) =>
    match (if validate then validateName name name stringInfo else Except.ok ()) with
    | Except.error e => Except.error e
    | Except.ok _ =>
      let ut := GetUnitAndType name telemetryInfo
      match collectRows name ut.2 ut.1 b.Metrics.Metrics [headerRow] with
      | Except.error e => Except.error e
      | Except.ok result =>
        if byValue then
          match sortByValue (result.drop 1) with
          | none => Except.error GoError.panic
          | some sorted => Except.ok (result.take 1 ++ sorted)
        else Except.ok result

/-- Source function `Debug.GetMetricValues`; `columnize` stands for `columnize.Format` with the
delimiter `0x1f` and the glue `" "`. -/
def GetMetricValues (columnize : List String → Except String String) (b : Debug)
    (fetch : TelemetryFetch) (name : String) (validate byValue : Bool) : Except GoError String :=
  match GetMetricValuesRows b fetch name validate byValue with
  | Except.error e => Except.error e
  | Except.ok result =>
    match columnize result with
    | Except.error e => Except.error (GoError.error e)
    | Except.ok output => Except.ok output

/-! ## Vocabulary of the statements -/

/-- The unit `ConvertIntBytes` prints for the tier `k` (a value from `1024^k` up to, but
not reaching, `1024^(k+1)`). -/
def tierUnit : Nat → String
  | 0 => " bytes"
  | 1 => " KB"
  | 2 => " MB"
  | 3 => " GB"
  | _ => " TB"

/-- Text of a number of hundredths: `r / 100`, a point, and the two digits of `r % 100`. -/
def hundredthsText (r : Nat) : String :=
  String.mk (natDigits (r / 100) ++ '.' :: lastDigits 2 r)

/-- The unit letters at the end of a rendered duration: `ms`, `ns`, `s` or `h`. -/
def timeSuffix (s : String) : String :=
  match s.data.reverse with
  | 's' :: 'm' :: _ => "ms"
  | 's' :: 'n' :: _ => "ns"
  | 's' :: _ => "s"
  | 'h' :: _ => "h"
  | _ => ""

/-- The four exact duration units. -/
def isDurationUnit (u : String) : Prop := u = "ns" ∨ u = "ms" ∨ u = "seconds" ∨ u = "hours"

instance (u : String) : Decidable (isDurationUnit u) := by
  unfold isDurationUnit; infer_instance

/-- The exact value of a binary64 in the rational line extended by the two infinities
(`⊥` for a NaN, which has no place in the order). -/
def Float64.toExt : Float64 → WithBot (WithTop ℚ)
  | Float64.finite neg m e =>
      ((((if neg then -(m : ℚ) else (m : ℚ)) * (2 : ℚ) ^ e : ℚ) : WithTop ℚ) : WithBot (WithTop ℚ))
  | Float64.inf false => ((⊤ : WithTop ℚ) : WithBot (WithTop ℚ))
  | Float64.inf true => ⊥
  | Float64.nan => ⊥

/-- The value field of a row as a point of the extended rational line (`⊥` when the row
has no fifth field). -/
def keyExt (r : String) : WithBot (WithTop ℚ) :=
  match rowKey r with
  | some x => x.toExt
  | none => ⊥

/-- A row whose fifth field exists and does not read as a NaN. -/
def GoodRow (r : String) : Prop := ∃ x, rowKey r = some x ∧ x ≠ Float64.nan

/-- The order `ByValue` sorts into: the value read in the first row is `>=` the value
read in the second. -/
def valueGe (a b : String) : Prop :=
  ∃ x y, rowKey a = some x ∧ rowKey b = some y ∧ x.ge y = true

/-- The ten decimal digit characters. -/
def decimalChars : List Char := "0123456789".data

/-- The characters of a rendered number and of the unit suffixes: the digits, the signs,
the decimal point, the exponent letter, and the letters of `NaN`, `Inf`, `h`, `s`, `ms`, `ns`,
` bytes`, ` KB`, ` MB`, ` GB`, ` TB` and `%`. -/
def valueChars : List Char := "0123456789+-.eNaInf hmsbytKMGTB%".data

/-- A binary64 datum in the one form a decoded number has: zero as `0 * 2^0`, a normal
number with its mantissa in `[2^52, 2^53)`, a subnormal one with the exponent `-1074`. -/
def Float64.IsCanonical : Float64 → Prop
  | Float64.finite _ m e =>
      (m = 0 ∧ e = 0) ∨ (2 ^ 52 ≤ m ∧ m < 2 ^ 53 ∧ -1074 ≤ e ∧ e ≤ 971) ∨
        (0 < m ∧ m < 2 ^ 52 ∧ e = -1074)
  | _ => True

instance : (x : Float64) → Decidable x.IsCanonical
  | Float64.finite _ m e =>
      inferInstanceAs (Decidable ((m = 0 ∧ e = 0) ∨
        (2 ^ 52 ≤ m ∧ m < 2 ^ 53 ∧ -1074 ≤ e ∧ e ≤ 971) ∨ (0 < m ∧ m < 2 ^ 52 ∧ e = -1074)))
  | Float64.inf _ => inferInstanceAs (Decidable True)
  | Float64.nan => inferInstanceAs (Decidable True)

/-- The canonical form of a datum: its value rounded to binary64, zero written `0 * 2^0`. -/
def Float64.canon : Float64 → Float64
  | Float64.finite neg m e =>
      match roundToFloat neg (m * 2 ^ e.toNat) (2 ^ (-e).toNat) with
      | Float64.finite n m2 e2 =>
          if m2 = 0 then Float64.finite n 0 0 else Float64.finite n m2 e2
      | other => other
  | x => x

/-- A snapshot whose timestamp and metric names are free of the separator and whose
floating-point values are numbers, not NaN. -/
def Metric.Plain (m : Metric) : Prop :=
  (∀ c ∈ m.Timestamp.data, c ≠ sep) ∧
  (∀ g ∈ m.Gauges, (∀ c ∈ g.Name.data, c ≠ sep) ∧ g.Value ≠ Float64.nan) ∧
  (∀ p ∈ m.Points, (∀ c ∈ p.Name.data, c ≠ sep) ∧ p.Points ≠ Float64.nan) ∧
  (∀ k ∈ m.Counters, ∀ c ∈ k.Name.data, c ≠ sep) ∧
  (∀ s ∈ m.Samples, (∀ c ∈ s.Name.data, c ≠ sep) ∧ s.Mean ≠ Float64.nan)

instance (m : Metric) : Decidable m.Plain := by
  unfold Metric.Plain; infer_instance

/-- A fetched telemetry table whose unit and type texts are free of the separator. -/
def plainTable : TelemetryFetch → Prop
  | Except.ok (_, table) =>
      ∀ t ∈ table, (∀ c ∈ t.Unit.data, c ≠ sep) ∧ (∀ c ∈ t.Type_.data, c ≠ sep)
  | Except.error _ => True

instance : (fetch : TelemetryFetch) → Decidable (plainTable fetch)
  | Except.ok (_, table) =>
      inferInstanceAs (Decidable (∀ t ∈ table,
        (∀ c ∈ t.Unit.data, c ≠ sep) ∧ (∀ c ∈ t.Type_.data, c ≠ sep)))
  | Except.error _ => inferInstanceAs (Decidable True)

/-! ## Sample data -/

/-- Snapshot used to illustrate extraction with the pattern `mem`. -/
def memSnapshot : Metric :=
  { Timestamp := "2023-10-05 18:00:00 +0000 UTC"
    Gauges := [{ Name := "consul.runtime.alloc_bytes", Value := Float64.finite false 1 20, Labels := [] },
               { Name := "consul.memberlist.health.score", Value := Float64.finite false 0 0, Labels := [] }]
    Points := []
    Counters := [{ Name := "consul.memberlist.udp.sent", Count := 7, Rate := Float64.finite false 0 0,
                   Sum := Float64.finite false 0 0, Min := Float64.finite false 0 0,
                   Max := Float64.finite false 0 0, Mean := Float64.finite false 0 0,
                   Stddev := Float64.finite false 0 0, Labels := [] }]
    Samples := [] }

/-- What the pattern `mem` extracts from `memSnapshot`. -/
def memExtracted : List Extracted :=
  [ { name := "consul.memberlist.health.score", value := Value.float (Float64.finite false 0 0),
      labels := [], timestamp := "2023-10-05 18:00:00 +0000 UTC" },
    { name := "consul.memberlist.udp.sent", value := Value.int 7,
      labels := [], timestamp := "2023-10-05 18:00:00 +0000 UTC" } ]

/-- Snapshot whose only gauge is named `mem_alloc`. -/
def underscoreSnapshot : Metric :=
  { Timestamp := "2023-10-05 18:00:00 +0000 UTC"
    Gauges := [{ Name := "mem_alloc", Value := Float64.finite false 1 20, Labels := [] }]
    Points := [], Counters := [], Samples := [] }

/-- A sample of the saturation metric with the given mean. -/
def saturationSample (mean : Float64) : Samples :=
  { Name := "consul.raft.thread.main.saturation", Count := 1, Rate := mean, Sum := mean,
    Min := mean, Max := mean, Mean := mean, Stddev := Float64.finite false 0 0,
    Labels := [("thread", Value.str "main")] }

/-- Three snapshots whose saturation means are the binary64 numbers 0.05, 0.9 and 0.12. -/
def saturationDebug : Debug :=
  { Metrics := { Metrics :=
      [ { Timestamp := "t1", Gauges := [], Points := [], Counters := [],
          Samples := [saturationSample (Float64.finite false 7205759403792794 (-57))] },
        { Timestamp := "t2", Gauges := [], Points := [], Counters := [],
          Samples := [saturationSample (Float64.finite false 8106479329266893 (-53))] },
        { Timestamp := "t3", Gauges := [], Points := [], Counters := [],
          Samples := [saturationSample (Float64.finite false 8646911284551352 (-56))] } ] } }

/-- A fetched telemetry table that declares the saturation metric a percentage. -/
def saturationFetch : TelemetryFetch :=
  Except.ok ("", [{ Name := "consul.raft.thread.main.saturation", Unit := "percentage",
                    Type_ := "sample" }])

/-- The row of `saturationDebug` for the snapshot `ts` with the rendered value `v`. -/
def saturationRow (ts v : String) : String :=
  mkRow ts "consul.raft.thread.main.saturation" "sample" "percentage" v "[{thread: main}]"

/-- Two snapshots of the GC pause gauge: one second, then two seconds, in nanoseconds. -/
def pauseDebug : Debug :=
  { Metrics := { Metrics :=
      [ { Timestamp := "t1",
          Gauges := [{ Name := "consul.runtime.total_gc_pause_ns",
                       Value := Float64.finite false 1000000000 0, Labels := [] }],
          Points := [], Counters := [], Samples := [] },
        { Timestamp := "t2",
          Gauges := [{ Name := "consul.runtime.total_gc_pause_ns",
                       Value := Float64.finite false 2000000000 0, Labels := [] }],
          Points := [], Counters := [], Samples := [] } ] } }

/-- A fetched telemetry table that declares the GC pause gauge in nanoseconds. -/
def pauseFetch : TelemetryFetch :=
  Except.ok ("", [{ Name := "consul.runtime.total_gc_pause_ns", Unit := "ns", Type_ := "gauge" }])

/-- Two snapshots with all four metric shapes, stored in an order that differs from the
order of extraction, and one metric the pattern `mem` does not match. -/
def orderDebug : Debug :=
  { Metrics := { Metrics :=
      [ { Timestamp := "t1"
          Gauges := [{ Name := "mem.g2", Value := Float64.finite false 3 (-1), Labels := [] },
                     { Name := "cpu.g", Value := Float64.finite false 1 0, Labels := [] },
                     { Name := "mem.g1", Value := Float64.finite false 1 1, Labels := [] }]
          Points := []
          Counters := [{ Name := "mem.c", Count := 7, Rate := Float64.finite false 0 0,
                         Sum := Float64.finite false 0 0, Min := Float64.finite false 0 0,
                         Max := Float64.finite false 0 0, Mean := Float64.finite false 0 0,
                         Stddev := Float64.finite false 0 0, Labels := [] }]
          Samples := [] },
        { Timestamp := "t2"
          Gauges := []
          Points := [{ Name := "mem.p", Points := Float64.finite false 5 0, Labels := [] }]
          Counters := []
          Samples := [{ Name := "mem.s", Count := 2, Rate := Float64.finite false 0 0,
                        Sum := Float64.finite false 0 0, Min := Float64.finite false 0 0,
                        Max := Float64.finite false 0 0, Mean := Float64.finite false 1 (-2),
                        Stddev := Float64.finite false 0 0, Labels := [] }] } ] } }

/-- The rows `orderDebug` yields for the pattern `mem` with an empty telemetry table. -/
def orderRows : List String :=
  [ headerRow,
    mkRow "t1" "mem.g2" "-" "-" "1.5" "[]",
    mkRow "t1" "mem.g1" "-" "-" "2" "[]",
    mkRow "t1" "mem.c" "-" "-" "7" "[]",
    mkRow "t2" "mem.p" "-" "-" "5" "[]",
    mkRow "t2" "mem.s" "-" "-" "0.25" "[]" ]

/-- Three snapshots of the gauge `g` with the values 1, 5 and 2; the timestamp of the second
one holds four separators and ends in `NaN`, so the fifth field of its row reads `NaN`. -/
def nanKeyDebug : Debug :=
  { Metrics := { Metrics :=
      [ { Timestamp := "t1",
          Gauges := [{ Name := "g", Value := Float64.finite false 1 0, Labels := [] }],
          Points := [], Counters := [], Samples := [] },
        { Timestamp := "a\x1fb\x1fc\x1fd\x1fNaN",
          Gauges := [{ Name := "g", Value := Float64.finite false 5 0, Labels := [] }],
          Points := [], Counters := [], Samples := [] },
        { Timestamp := "t3",
          Gauges := [{ Name := "g", Value := Float64.finite false 2 0, Labels := [] }],
          Points := [], Counters := [], Samples := [] } ] } }

/-- The rows `nanKeyDebug` yields for the pattern `g` with an empty telemetry table. -/
def nanKeyRows : List String :=
  [ mkRow "t1" "g" "-" "-" "1" "[]",
    mkRow "a\x1fb\x1fc\x1fd\x1fNaN" "g" "-" "-" "5" "[]",
    mkRow "t3" "g" "-" "-" "2" "[]" ]

/-- An extracted entry whose value is absent. -/
def nilEntry : Extracted :=
  { name := "consul.runtime.total_gc_pause_ns", value := Value.nil, labels := [],
    timestamp := "t1" }

set_option maxRecDepth 100000
set_option exponentiation.threshold 2048

/-! # Properties

## Pattern matching and extraction -/

theorem hasInfix_iff (s sub : List Char) : hasInfix s sub = true ↔ sub <:+: s := by
  induction s with
  | nil =>
    simp [hasInfix, List.isEmpty_iff]
  | cons c cs ih =>
    simp only [hasInfix, Bool.or_eq_true, ih, List.isPrefixOf_iff_prefix, List.infix_cons_iff]

theorem stringsContains_iff (s sub : String) :
    stringsContains s sub = true ↔ sub.data <:+: s.data :=
  hasInfix_iff _ _

theorem parseLoop_literals (l : List Char) (hl : ∀ c ∈ l, isMeta c = false) (st : PState) :
    parseLoop l st =
      match st.outer with
      | [] => some (closeFrame { st.cur with items := (l.map Regex.lit).reverse ++ st.cur.items })
      | _ :: _ => none := by
  induction l generalizing st with
  | nil => simp [parseLoop]
  | cons c l ih =>
    have hc : isMeta c = false := hl c (List.mem_cons_self _ _)
    simp only [isMeta, List.mem_cons, List.mem_singleton, decide_eq_false_iff_not, not_or,
      List.not_mem_nil, or_false] at hc
    obtain ⟨h1, h2, h3, h4, h5, h6, h7, h8, h9, h10, h11, h12, h13, h14⟩ := hc
    rw [parseLoop.eq_def]
    simp only [h1, h2, h3, h4, h5, h6, h7, h8, h9, h11, h13, h14, if_false, or_self]
    rw [ih (fun d hd => hl d (List.mem_cons_of_mem _ hd))]
    simp [PState.push, parseLoop]

theorem regexpCompile_dotStar_literals (p : String) (hp : ∀ c ∈ p.data, isMeta c = false) :
    regexpCompile (".*" ++ p) =
      some (concatOf (Regex.star Regex.any :: p.data.map Regex.lit)) := by
  have h : (".*" ++ p).data = '.' :: '*' :: p.data := rfl
  unfold regexpCompile
  rw [h, parseLoop.eq_def]
  simp only [Char.reduceEq, if_false, if_true, ↓reduceIte]
  rw [parseLoop.eq_def]
  simp only [Char.reduceEq, if_false, if_true, ↓reduceIte, PState.push, PState.repeatLast]
  rw [parseLoop_literals p.data hp]
  simp [closeFrame]

theorem run_literals (l : List Char) (k : Bool → List Char → Bool) (atStart : Bool)
    (s : List Char) :
    (concatOf (l.map Regex.lit)).run k atStart s = true ↔
      ∃ rest, s = l ++ rest ∧ k (atStart && l.isEmpty) rest = true := by
  induction l generalizing atStart s with
  | nil => simp [concatOf, Regex.run]
  | cons a l ih =>
    simp only [List.map_cons, concatOf, Regex.run]
    cases s with
    | nil => simp
    | cons d rest =>
      simp only [Bool.and_eq_true, decide_eq_true_eq, ih, List.cons_append, List.cons.injEq,
        Bool.false_and, List.isEmpty_cons, Bool.and_false]
      constructor
      · rintro ⟨rfl, r, rfl, hk⟩
        exact ⟨r, ⟨rfl, rfl⟩, hk⟩
      · rintro ⟨r, ⟨rfl, rfl⟩, hk⟩
        exact ⟨rfl, r, rfl, hk⟩

theorem starRun_of_continuation (step : (Bool → List Char → Bool) → Bool → List Char → Bool)
    (k : Bool → List Char → Bool) (fuel : Nat) (atStart : Bool) (s : List Char)
    (h : k atStart s = true) : starRun step k fuel atStart s = true := by
  cases fuel <;> simp [starRun, h]

theorem starRun_any_suffix (k : Bool → List Char → Bool) (fuel : Nat) (atStart : Bool)
    (s : List Char) (h : starRun Regex.any.run k fuel atStart s = true) :
    ∃ pre rest st, s = pre ++ rest ∧ k st rest = true := by
  induction fuel generalizing atStart s with
  | zero => exact ⟨[], s, atStart, rfl, by simpa [starRun] using h⟩
  | succ n ih =>
    simp only [starRun, Bool.or_eq_true] at h
    rcases h with h | h
    · exact ⟨[], s, atStart, rfl, h⟩
    · cases s with
      | nil => simp [Regex.run] at h
      | cons d rest =>
        simp only [Regex.run, Bool.and_eq_true] at h
        obtain ⟨pre, r, st, hr, hk⟩ := ih false rest h.2.2
        exact ⟨d :: pre, r, st, by simp [hr], hk⟩

theorem searchFrom_iff (r : Regex) (atStart : Bool) (s : List Char) :
    r.searchFrom atStart s = true ↔
      ∃ pre rest, s = pre ++ rest ∧ r.run (fun _ _ => true) (atStart && pre.isEmpty) rest = true := by
  induction s generalizing atStart with
  | nil =>
    simp only [Regex.searchFrom]
    constructor
    · intro h
      exact ⟨[], [], rfl, by simpa using h⟩
    · rintro ⟨pre, rest, hs, h⟩
      obtain ⟨rfl, rfl⟩ := List.append_eq_nil.mp hs.symm
      simpa using h
  | cons c cs ih =>
    simp only [Regex.searchFrom, Bool.or_eq_true, ih]
    constructor
    · rintro (h | ⟨pre, rest, hs, h⟩)
      · exact ⟨[], c :: cs, rfl, by simpa using h⟩
      · exact ⟨c :: pre, rest, by simp [hs], by simpa using h⟩
    · rintro ⟨pre, rest, hs, h⟩
      cases pre with
      | nil =>
        left
        simp only [List.nil_append] at hs
        rw [hs]
        simpa using h
      | cons x pre =>
        right
        simp only [List.cons_append, List.cons.injEq] at hs
        exact ⟨pre, rest, hs.2, by simpa using h⟩

theorem matchString_dotStar_literals (l : List Char) (s : String) :
    (concatOf (Regex.star Regex.any :: l.map Regex.lit)).matchString s = true ↔ l <:+: s.data := by
  simp only [Regex.matchString, searchFrom_iff, concatOf, Regex.run]
  constructor
  · rintro ⟨pre, rest, hs, h⟩
    obtain ⟨p2, r2, st, hr, hk⟩ := starRun_any_suffix _ _ _ _ h
    obtain ⟨post, hpost, -⟩ := (run_literals l _ st r2).mp hk
    refine ⟨pre ++ p2, post, ?_⟩
    rw [hs, hr, hpost]
    simp
  · rintro ⟨pre, post, hs⟩
    refine ⟨pre, l ++ post, by rw [← hs]; simp, ?_⟩
    apply starRun_of_continuation
    exact (run_literals l _ _ _).mpr ⟨post, rfl, rfl⟩

theorem extractWith_literals (m : Metric) (p : String) :
    extractWith (concatOf (Regex.star Regex.any :: p.data.map Regex.lit)) m =
      ((m.Gauges.filter fun g => stringsContains g.Name p).map (gaugeMatch m)) ++
      ((m.Points.filter fun x => stringsContains x.Name p).map (pointMatch m)) ++
      ((m.Counters.filter fun c => stringsContains c.Name p).map (counterMatch m)) ++
      ((m.Samples.filter fun s => stringsContains s.Name p).map (sampleMatch m)) := by
  have key : ∀ name : String,
      (concatOf (Regex.star Regex.any :: p.data.map Regex.lit)).matchString name
        = stringsContains name p := by
    intro name
    rw [Bool.eq_iff_iff, matchString_dotStar_literals, stringsContains_iff]
  simp only [extractWith, key]

/-- C1: for a pattern made only of literal characters, `ExtractMetricValueByName`
returns one entry for each gauge, point, counter and sample whose `Name` contains the
pattern as a substring (in that order) and no entry for any other metric. -/
theorem extract_literal_pattern_is_substring_filter (m : Metric) (p : String)
    (hp : ∀ c ∈ p.data, isMeta c = false) :
    m.ExtractMetricValueByName p = some
      (((m.Gauges.filter fun g => stringsContains g.Name p).map (gaugeMatch m)) ++
       ((m.Points.filter fun x => stringsContains x.Name p).map (pointMatch m)) ++
       ((m.Counters.filter fun c => stringsContains c.Name p).map (counterMatch m)) ++
       ((m.Samples.filter fun s => stringsContains s.Name p).map (sampleMatch m))) ∧
    ∀ name : String, stringsContains name p = true ↔ p.data <:+: name.data := by
  refine ⟨?_, fun name => stringsContains_iff name p⟩
  unfold Metric.ExtractMetricValueByName
  rw [regexpCompile_dotStar_literals p hp]
  simp only [extractWith_literals]

theorem extract_literal_pattern_is_substring_filter_witness :
    (∀ c ∈ ("mem" : String).data, isMeta c = false) ∧
    memSnapshot.ExtractMetricValueByName "mem" = some memExtracted := by
  have hp : ∀ c ∈ ("mem" : String).data, isMeta c = false := by decide
  refine ⟨hp, ?_⟩
  rw [(extract_literal_pattern_is_substring_filter memSnapshot "mem" hp).1]
  decide

/-- C2 fails as stated: with the pattern `mem.alloc` the extractor returns the gauge
named `mem_alloc`, whose name does not contain the pattern as a literal substring. -/
theorem extract_dot_pattern_returns_non_substring :
    underscoreSnapshot.ExtractMetricValueByName "mem.alloc" = some
      [ { name := "mem_alloc", value := Value.float (Float64.finite false 1 20),
          labels := [], timestamp := "2023-10-05 18:00:00 +0000 UTC" } ] ∧
    stringsContains "mem_alloc" "mem.alloc" = false := by
  constructor
  · decide
  · decide

/-- C2 (amended): for a pattern without regular-expression metacharacters, every entry
returned by `ExtractMetricValueByName` has a `Name` containing the pattern as a literal
substring. -/
theorem extract_literal_pattern_entries_contain (m : Metric) (p : String)
    (hp : ∀ c ∈ p.data, isMeta c = false) (r : List Extracted)
    (hr : m.ExtractMetricValueByName p = some r) :
    ∀ e ∈ r, p.data <:+: e.name.data := by
  unfold Metric.ExtractMetricValueByName at hr
  rw [regexpCompile_dotStar_literals p hp] at hr
  simp only [extractWith_literals, Option.some.injEq] at hr
  subst hr
  intro e he
  simp only [List.mem_append, List.mem_map, List.mem_filter] at he
  rcases he with ((⟨g, ⟨-, hg⟩, rfl⟩ | ⟨g, ⟨-, hg⟩, rfl⟩) | ⟨g, ⟨-, hg⟩, rfl⟩) | ⟨g, ⟨-, hg⟩, rfl⟩ <;>
    exact (stringsContains_iff _ _).mp hg

theorem extract_literal_pattern_entries_contain_witness :
    (∀ c ∈ ("mem" : String).data, isMeta c = false) ∧
    memSnapshot.ExtractMetricValueByName "mem" = some memExtracted ∧
    ∀ e ∈ memExtracted, ("mem" : String).data <:+: e.name.data :=
  ⟨by decide, by decide,
    extract_literal_pattern_entries_contain memSnapshot "mem" (by decide) memExtracted (by decide)⟩

/-! ## Rounding to binary64 and fixed-point digits -/

theorem ilog2Fuel_spec (fuel n : Nat) (hn : n ≠ 0) (hf : n ≤ fuel) :
    2 ^ ilog2Fuel fuel n ≤ n ∧ n < 2 ^ (ilog2Fuel fuel n + 1) := by
  induction fuel generalizing n with
  | zero => omega
  | succ f ih =>
    unfold ilog2Fuel
    by_cases h2 : n < 2
    · simp only [h2, if_true]
      omega
    · simp only [h2, if_false]
      have hpos : n / 2 ≠ 0 := by omega
      have hle : n / 2 ≤ f := by omega
      obtain ⟨h1, h3⟩ := ih (n / 2) hpos hle
      constructor
      · rw [pow_succ]; omega
      · rw [pow_succ]; omega

theorem ilog2_spec (n : Nat) (hn : n ≠ 0) : 2 ^ ilog2 n ≤ n ∧ n < 2 ^ (ilog2 n + 1) :=
  ilog2Fuel_spec n n hn (le_refl n)

theorem scaleBy_snd_pos (num den : Nat) (e : Int) (hd : 0 < den) : 0 < (scaleBy num den e).2 := by
  unfold scaleBy
  split
  · positivity
  · exact hd

theorem scaleBy_val (num den : Nat) (e : Int) (hd : 0 < den) :
    ((scaleBy num den e).1 : ℚ) / ((scaleBy num den e).2 : ℚ) = (num : ℚ) / den / (2 : ℚ) ^ e := by
  have hd' : (den : ℚ) ≠ 0 := by exact_mod_cast hd.ne'
  unfold scaleBy
  split
  · rename_i h
    have he : e = ((e.toNat : Nat) : Int) := (Int.toNat_of_nonneg h).symm
    conv_rhs => rw [he]
    simp only [Nat.cast_mul, Nat.cast_pow, Nat.cast_ofNat, zpow_natCast]
    rw [div_div]
  · rename_i h
    have he : e = -((((-e).toNat : Nat)) : Int) := by
      rw [Int.toNat_of_nonneg (by omega)]; ring
    conv_rhs => rw [he]
    simp only [Nat.cast_mul, Nat.cast_pow, Nat.cast_ofNat, zpow_neg, zpow_natCast]
    field_simp

theorem nat_le_div_iff_rat (a n d : Nat) (hd : 0 < d) :
    a ≤ n / d ↔ (a : ℚ) ≤ (n : ℚ) / d := by
  have hd' : (0 : ℚ) < d := by exact_mod_cast hd
  rw [Nat.le_div_iff_mul_le hd, le_div_iff₀ hd']
  exact_mod_cast Iff.rfl

theorem chooseExp_ge (num den : Nat) : -1074 ≤ chooseExp num den := by
  unfold chooseExp
  exact le_max_right _ _

/-- Unless the exponent was clamped to `-1074`, the scaled value is at least `2^52`. -/
theorem chooseExp_normal (num den : Nat) (hn : num ≠ 0) (hd : 0 < den) :
    chooseExp num den = -1074 ∨
      (2 : ℚ) ^ (52 : ℕ) ≤ (num : ℚ) / den / (2 : ℚ) ^ (chooseExp num den) := by
  obtain ⟨hn1, -⟩ := ilog2_spec num hn
  obtain ⟨-, hd2⟩ := ilog2_spec den hd.ne'
  have hdq : (0 : ℚ) < den := by exact_mod_cast hd
  have hn1q : (2 : ℚ) ^ (ilog2 num : ℤ) ≤ num := by
    rw [zpow_natCast]; exact_mod_cast hn1
  have hd2q : (den : ℚ) < (2 : ℚ) ^ ((ilog2 den : ℤ) + 1) := by
    have : ((ilog2 den : ℤ) + 1) = ((ilog2 den + 1 : ℕ) : ℤ) := by push_cast; ring
    rw [this, zpow_natCast]; exact_mod_cast hd2
  -- the value is at least `2^(ln - ld - 1)`
  have hv : (2 : ℚ) ^ ((ilog2 num : ℤ) - (ilog2 den : ℤ) - 1) ≤ (num : ℚ) / den := by
    rw [le_div_iff₀ hdq]
    calc (2 : ℚ) ^ ((ilog2 num : ℤ) - (ilog2 den : ℤ) - 1) * den
        ≤ (2 : ℚ) ^ ((ilog2 num : ℤ) - (ilog2 den : ℤ) - 1) * (2 : ℚ) ^ ((ilog2 den : ℤ) + 1) := by
          apply mul_le_mul_of_nonneg_left hd2q.le
          positivity
      _ = (2 : ℚ) ^ (ilog2 num : ℤ) := by
          rw [← zpow_add₀ (by norm_num : (2 : ℚ) ≠ 0)]
          congr 1; ring
      _ ≤ num := hn1q
  set e0 : ℤ := (ilog2 num : ℤ) - (ilog2 den : ℤ) - 52 with he0
  have hx0 : (2 : ℚ) ^ (51 : ℕ) ≤ (num : ℚ) / den / (2 : ℚ) ^ e0 := by
    rw [le_div_iff₀ (by positivity)]
    calc (2 : ℚ) ^ (51 : ℕ) * (2 : ℚ) ^ e0 = (2 : ℚ) ^ ((ilog2 num : ℤ) - (ilog2 den : ℤ) - 1) := by
          rw [← zpow_natCast, ← zpow_add₀ (by norm_num : (2 : ℚ) ≠ 0)]
          congr 1; rw [he0]; push_cast; ring
      _ ≤ (num : ℚ) / den := hv
  have hmax : ∀ e1 : ℤ, (2 : ℚ) ^ (52 : ℕ) ≤ (num : ℚ) / den / (2 : ℚ) ^ e1 →
      max e1 (-1074) = -1074 ∨ (2 : ℚ) ^ (52 : ℕ) ≤ (num : ℚ) / den / (2 : ℚ) ^ (max e1 (-1074)) := by
    intro e1 h
    rcases le_total e1 (-1074) with h1 | h1
    · left; exact max_eq_right h1
    · right; rw [max_eq_left h1]; exact h
  unfold chooseExp
  simp only []
  rw [← he0]
  by_cases hlt : (scaleBy num den e0).1 / (scaleBy num den e0).2 < 2 ^ 52
  · simp only [hlt, if_true]
    apply hmax
    have h2 : (2 : ℚ) ^ (e0 - 1) = (2 : ℚ) ^ e0 / 2 := by
      rw [zpow_sub₀ (by norm_num : (2 : ℚ) ≠ 0), zpow_one]
    rw [h2]
    have hpos : (0 : ℚ) < (2 : ℚ) ^ e0 := by positivity
    rw [le_div_iff₀ (by positivity)]
    rw [le_div_iff₀ hpos] at hx0
    have : (2 : ℚ) ^ (52 : ℕ) = 2 * (2 : ℚ) ^ (51 : ℕ) := by norm_num
    nlinarith
  · simp only [hlt, if_false]
    apply hmax
    have h := (nat_le_div_iff_rat (2 ^ 52) _ _ (scaleBy_snd_pos num den e0 hd)).mp (not_lt.mp hlt)
    rw [scaleBy_val num den e0 hd] at h
    exact_mod_cast h

theorem roundHalfEven_of_dvd (q d : Nat) (hd : 0 < d) : roundHalfEven (q * d) d = q := by
  unfold roundHalfEven
  simp only [Nat.mul_mod_left, Nat.mul_div_cancel _ hd, Nat.mul_zero]
  have h1 : ¬ d < 0 := by omega
  have h2 : ¬ (0 = d ∧ q % 2 = 1) := by omega
  simp [h1, h2]

/-- A value `A * 2^B` that fits a binary64 mantissa and exponent is rounded to itself. -/
theorem roundToFloat_exact (neg : Bool) (num den A : Nat) (B : Int) (hd : 0 < den)
    (hA : A ≠ 0) (hA53 : A < 2 ^ 53) (hB1 : -1074 ≤ B) (hB2 : B ≤ 971)
    (hv : (num : ℚ) / den = (A : ℚ) * (2 : ℚ) ^ B) :
    ∃ m e, roundToFloat neg num den = Float64.finite neg m e ∧
      (m : ℚ) * (2 : ℚ) ^ e = (A : ℚ) * (2 : ℚ) ^ B := by
  have hdq : (0 : ℚ) < den := by exact_mod_cast hd
  have hAq : (0 : ℚ) < A := by exact_mod_cast Nat.pos_of_ne_zero hA
  have hn : num ≠ 0 := by
    rintro rfl
    simp only [Nat.cast_zero, zero_div] at hv
    have : (0 : ℚ) < (A : ℚ) * (2 : ℚ) ^ B := by positivity
    linarith
  have he : chooseExp num den ≤ B := by
    rcases chooseExp_normal num den hn hd with h | h
    · rw [h]; exact hB1
    · rw [hv, le_div_iff₀ (by positivity)] at h
      have hA' : (A : ℚ) < (2 : ℚ) ^ (53 : ℕ) := by exact_mod_cast hA53
      have h3 : (2 : ℚ) ^ (52 : ℕ) * (2 : ℚ) ^ chooseExp num den < (2 : ℚ) ^ (53 : ℕ) * (2 : ℚ) ^ B :=
        lt_of_le_of_lt h (mul_lt_mul_of_pos_right hA' (by positivity))
      rw [← zpow_natCast, ← zpow_natCast, ← zpow_add₀ (by norm_num : (2 : ℚ) ≠ 0),
        ← zpow_add₀ (by norm_num : (2 : ℚ) ≠ 0)] at h3
      have h4 := (zpow_lt_zpow_iff_right₀ (by norm_num : (1 : ℚ) < 2)).mp h3
      push_cast at h4
      omega
  set e := chooseExp num den with hedef
  obtain ⟨t, ht⟩ : ∃ t : ℕ, B = e + t := ⟨(B - e).toNat, by rw [Int.toNat_of_nonneg (by omega)]; ring⟩
  have hsd := scaleBy_snd_pos num den e hd
  have hsq : ((scaleBy num den e).1 : ℚ) / ((scaleBy num den e).2 : ℚ) = ((A * 2 ^ t : ℕ) : ℚ) := by
    rw [scaleBy_val num den e hd, hv, ht, zpow_add₀ (by norm_num : (2 : ℚ) ≠ 0), zpow_natCast]
    push_cast
    field_simp
    ring
  have hs1 : (scaleBy num den e).1 = A * 2 ^ t * (scaleBy num den e).2 := by
    have hsdq : ((scaleBy num den e).2 : ℚ) ≠ 0 := by exact_mod_cast hsd.ne'
    rw [div_eq_iff hsdq] at hsq
    exact_mod_cast hsq
  have hround : roundHalfEven (scaleBy num den e).1 (scaleBy num den e).2 = A * 2 ^ t := by
    rw [hs1]; exact roundHalfEven_of_dvd _ _ hsd
  have hval : ((A * 2 ^ t : ℕ) : ℚ) * (2 : ℚ) ^ e = (A : ℚ) * (2 : ℚ) ^ B := by
    rw [ht, zpow_add₀ (by norm_num : (2 : ℚ) ≠ 0), zpow_natCast]
    push_cast; ring
  unfold roundToFloat
  simp only [hn, if_false]
  rw [← hedef, hround]
  unfold packFloat
  by_cases hm : A * 2 ^ t = 2 ^ 53
  · have ht1 : 1 ≤ t := by
      rcases Nat.eq_zero_or_pos t with h0 | h0
      · rw [h0] at hm; simp at hm; omega
      · exact h0
    have h971 : ¬ (971 < e + 1) := by omega
    simp only [hm, if_true, h971, if_false]
    refine ⟨2 ^ 52, e + 1, rfl, ?_⟩
    rw [← hval, hm, zpow_add₀ (by norm_num : (2 : ℚ) ≠ 0)]
    push_cast
    ring
  · have h971 : ¬ (971 < e) := by omega
    simp only [hm, if_false, h971]
    exact ⟨A * 2 ^ t, e, rfl, hval⟩

theorem roundHalfEven_mul_left (c n d : Nat) (hc : 0 < c) :
    roundHalfEven (c * n) (c * d) = roundHalfEven n d := by
  unfold roundHalfEven
  simp only [Nat.mul_div_mul_left _ _ hc, Nat.mul_mod_mul_left]
  have h1 : (c * d < 2 * (c * (n % d))) ↔ (d < 2 * (n % d)) := by
    rw [show 2 * (c * (n % d)) = c * (2 * (n % d)) by ring]
    exact Nat.mul_lt_mul_left hc
  have h2 : (2 * (c * (n % d)) = c * d) ↔ (2 * (n % d) = d) := by
    rw [show 2 * (c * (n % d)) = c * (2 * (n % d)) by ring]
    exact Nat.mul_right_inj hc.ne'
  simp only [h1, h2]

theorem roundHalfEven_congr (n1 d1 n2 d2 : Nat) (h1 : 0 < d1) (h2 : 0 < d2)
    (h : (n1 : ℚ) / d1 = (n2 : ℚ) / d2) : roundHalfEven n1 d1 = roundHalfEven n2 d2 := by
  have hq1 : (d1 : ℚ) ≠ 0 := by exact_mod_cast h1.ne'
  have hq2 : (d2 : ℚ) ≠ 0 := by exact_mod_cast h2.ne'
  have hx : n1 * d2 = n2 * d1 := by
    rw [div_eq_div_iff hq1 hq2] at h
    exact_mod_cast h
  calc roundHalfEven n1 d1 = roundHalfEven (d2 * n1) (d2 * d1) := (roundHalfEven_mul_left d2 n1 d1 h2).symm
    _ = roundHalfEven (d1 * n2) (d1 * d2) := by
        rw [show d2 * n1 = d1 * n2 by rw [Nat.mul_comm, hx, Nat.mul_comm], Nat.mul_comm d2 d1]
    _ = roundHalfEven n2 d2 := roundHalfEven_mul_left d1 n2 d2 h1

/-- The digits `%.<prec>f` prints for the binary64 `m * 2^e` are those of its exact value
times `10^prec`, rounded half to even. -/
theorem fixedDigits_of_val (prec m : Nat) (e : Int) (n d : Nat) (hd : 0 < d)
    (h : (m : ℚ) * (2 : ℚ) ^ e = (n : ℚ) / d) :
    fixedDigits prec m e = roundHalfEven (n * 10 ^ prec) d := by
  unfold fixedDigits
  apply roundHalfEven_congr _ _ _ _ (scaleBy_snd_pos _ _ _ Nat.one_pos) hd
  rw [scaleBy_val _ _ _ Nat.one_pos, zpow_neg]
  push_cast
  rw [div_one, div_inv_eq_mul, mul_right_comm, h]
  ring

theorem natAbs_cast_rat (v : Int) (h : 0 ≤ v) : ((v.natAbs : ℕ) : ℚ) = (v : ℚ) := by
  obtain ⟨n, rfl⟩ := Int.eq_ofNat_of_zero_le h
  simp

theorem ofInt_exact (v : Int) (h1 : 1 ≤ v) (h2 : v < 2 ^ 53) :
    ∃ m e, Float64.ofInt v = Float64.finite false m e ∧ (m : ℚ) * (2 : ℚ) ^ e = (v : ℚ) := by
  have hneg : decide (v < 0) = false := by simp; omega
  have hA : v.natAbs ≠ 0 := by omega
  have hA2 : v.natAbs < 2 ^ 53 := by omega
  have hcast : ((v.natAbs : ℕ) : ℚ) = (v : ℚ) := natAbs_cast_rat v (by omega)
  obtain ⟨m, e, hm, hval⟩ := roundToFloat_exact false v.natAbs 1 v.natAbs 0 Nat.one_pos hA hA2
    (by norm_num) (by norm_num) (by simp)
  refine ⟨m, e, ?_, ?_⟩
  · unfold Float64.ofInt; rw [hneg]; exact hm
  · rw [hval, zpow_zero, mul_one, hcast]

theorem div_finite_ratio (m1 m2 : Nat) (e1 e2 : Int) (hm2 : m2 ≠ 0) :
    ((m1 * 2 ^ (e1 - e2).toNat : ℕ) : ℚ) / ((m2 * 2 ^ (e2 - e1).toNat : ℕ) : ℚ) =
      ((m1 : ℚ) * (2 : ℚ) ^ e1) / ((m2 : ℚ) * (2 : ℚ) ^ e2) := by
  have h2 : (2 : ℚ) ≠ 0 := by norm_num
  have hm2q : (m2 : ℚ) ≠ 0 := by exact_mod_cast hm2
  rcases le_total e2 e1 with h | h
  · obtain ⟨t, ht⟩ : ∃ t : ℕ, e1 = e2 + t := ⟨(e1 - e2).toNat, by rw [Int.toNat_of_nonneg (by omega)]; ring⟩
    have ha : (e1 - e2).toNat = t := by omega
    have hb : (e2 - e1).toNat = 0 := by omega
    rw [ha, hb, ht, zpow_add₀ h2, zpow_natCast]
    push_cast
    field_simp
    ring
  · obtain ⟨t, ht⟩ : ∃ t : ℕ, e2 = e1 + t := ⟨(e2 - e1).toNat, by rw [Int.toNat_of_nonneg (by omega)]; ring⟩
    have ha : (e1 - e2).toNat = 0 := by omega
    have hb : (e2 - e1).toNat = t := by omega
    rw [ha, hb, ht, zpow_add₀ h2, zpow_natCast]
    push_cast
    field_simp
    ring

/-- Dividing an integer below `2^53` by a power of two up to `2^52` is exact. -/
theorem div_ofInt_pow2_exact (v : Int) (j : Nat) (h1 : 1 ≤ v) (h2 : v < 2 ^ 53) (hj : j ≤ 52) :
    ∃ m e, (Float64.ofInt v).div (Float64.ofInt (2 ^ j)) = Float64.finite false m e ∧
      (m : ℚ) * (2 : ℚ) ^ e = (v : ℚ) / (2 : ℚ) ^ j := by
  obtain ⟨m1, e1, hx, hxv⟩ := ofInt_exact v h1 h2
  have hp1 : (1 : Int) ≤ 2 ^ j := by
    have : (0 : Int) < 2 ^ j := by positivity
    omega
  have hp2 : (2 : Int) ^ j < 2 ^ 53 := by
    apply pow_lt_pow_right₀ (by norm_num) (by omega)
  obtain ⟨m2, e2, hy, hyv⟩ := ofInt_exact (2 ^ j) hp1 hp2
  have hm2 : m2 ≠ 0 := by
    rintro rfl
    simp only [Nat.cast_zero, zero_mul] at hyv
    have : (0 : ℚ) < (((2 : ℤ) ^ j : ℤ) : ℚ) := by positivity
    linarith
  have hvn : ((v.natAbs : ℕ) : ℚ) = (v : ℚ) := natAbs_cast_rat v (by omega)
  have hratio : ((m1 * 2 ^ (e1 - e2).toNat : ℕ) : ℚ) / ((m2 * 2 ^ (e2 - e1).toNat : ℕ) : ℚ)
      = ((v.natAbs : ℕ) : ℚ) * (2 : ℚ) ^ (-(j : ℤ)) := by
    rw [div_finite_ratio m1 m2 e1 e2 hm2, hxv, hyv, hvn, zpow_neg, zpow_natCast]
    push_cast
    rw [div_eq_mul_inv]
  have hdpos : 0 < m2 * 2 ^ (e2 - e1).toNat := Nat.mul_pos (Nat.pos_of_ne_zero hm2) (by positivity)
  obtain ⟨m, e, hm, hval⟩ := roundToFloat_exact false _ _ v.natAbs (-(j : ℤ)) hdpos
    (by omega) (by omega) (by omega) (by omega) hratio
  refine ⟨m, e, ?_, ?_⟩
  · rw [hx, hy]
    simp only [Float64.div, hm2, if_false, Bool.xor_false]
    exact hm
  · rw [hval, hvn, zpow_neg, zpow_natCast, div_eq_mul_inv]

/-! ## Byte sizes -/

theorem sprintfFixed_two_div_pow2 (v : Int) (j : Nat) (h1 : 1 ≤ v) (h2 : v < 2 ^ 53) (hj : j ≤ 52)
    (suffix : String) :
    sprintfFixed 2 ((Float64.ofInt v).div (Float64.ofInt (2 ^ j))) suffix =
      hundredthsText (roundHalfEven (v.toNat * 100) (2 ^ j)) ++ suffix := by
  obtain ⟨m, e, hm, hval⟩ := div_ofInt_pow2_exact v j h1 h2 hj
  have hvn : ((v.toNat : ℕ) : ℚ) = (v : ℚ) := by
    obtain ⟨n, rfl⟩ := Int.eq_ofNat_of_zero_le (by omega : 0 ≤ v)
    simp
  have hfd : fixedDigits 2 m e = roundHalfEven (v.toNat * 10 ^ 2) (2 ^ j) := by
    apply fixedDigits_of_val 2 m e v.toNat (2 ^ j) (by positivity)
    rw [hval, hvn]
    push_cast
    rfl
  unfold sprintfFixed
  rw [hm]
  simp only [fmtFixed, hfd, hundredthsText]
  simp

theorem roundHalfEven_bounds (n d lo hi : Nat) (hd : 0 < d) (hlo : lo * d ≤ n) (hhi : n < hi * d) :
    lo ≤ roundHalfEven n d ∧ roundHalfEven n d ≤ hi := by
  have hq1 : lo ≤ n / d := (Nat.le_div_iff_mul_le hd).mpr hlo
  have hq2 : n / d < hi := (Nat.div_lt_iff_lt_mul hd).mpr hhi
  unfold roundHalfEven
  simp only []
  split <;> omega

theorem kb_eq : kb = 2 ^ 10 := by norm_num [kb]
theorem mb_eq : mb = 2 ^ 20 := by norm_num [mb, kb]
theorem gb_eq : gb = 2 ^ 30 := by norm_num [gb, mb, kb]
theorem tb_eq : tb = 2 ^ 40 := by norm_num [tb, gb, mb, kb]

theorem fmtInt_nonneg (v : Int) (h : 0 ≤ v) : fmtInt v = natDigits v.toNat := by
  unfold fmtInt
  have h1 : ¬ v < 0 := by omega
  have h2 : v.natAbs = v.toNat := by omega
  simp only [h1, if_false, h2]

/-- C3 (amended): for `1024^k ≤ v < 1024^(k+1)` with `k ≤ 4`, `ConvertToReadableBytes` (through
`ConvertIntBytes`) prints the
unit of tier `k`; in tier 0 the number printed is `v` itself, and in the tiers 1 to 4 it is
`v / 1024^k` rounded half-to-even to hundredths, which lies between `1.00` and `1024.00`
inclusive. -/
theorem convertIntBytes_tier (v : Int) (k : Nat) (hk : k ≤ 4) (hlo : 1024 ^ k ≤ v)
    (hhi : v < 1024 ^ (k + 1)) :
    (k = 0 → ConvertToReadableBytes (Value.int v) = String.mk (natDigits v.toNat) ++ tierUnit 0) ∧
    (1 ≤ k →
      ConvertToReadableBytes (Value.int v) =
        hundredthsText (roundHalfEven (v.toNat * 100) (1024 ^ k)) ++ tierUnit k ∧
      100 ≤ roundHalfEven (v.toNat * 100) (1024 ^ k) ∧
      roundHalfEven (v.toNat * 100) (1024 ^ k) ≤ 102400) := by
  simp only [ConvertToReadableBytes]
  have hbounds : 1 ≤ k → 100 ≤ roundHalfEven (v.toNat * 100) (1024 ^ k) ∧
      roundHalfEven (v.toNat * 100) (1024 ^ k) ≤ 102400 := by
    intro _
    have hv0 : 0 ≤ v := le_trans (by positivity) hlo
    obtain ⟨n, rfl⟩ := Int.eq_ofNat_of_zero_le hv0
    have h1 : 1024 ^ k ≤ n := by exact_mod_cast hlo
    have h2 : n < 1024 ^ (k + 1) := by exact_mod_cast hhi
    simp only [Int.toNat_ofNat]
    apply roundHalfEven_bounds _ _ _ _ (by positivity)
    · nlinarith
    · rw [pow_succ] at h2
      nlinarith
  refine ⟨?_, fun h => ⟨?_, hbounds h⟩⟩
  · rintro rfl
    simp only [pow_zero, zero_add, pow_one] at hlo hhi
    unfold ConvertIntBytes
    rw [tb_eq, gb_eq, mb_eq, kb_eq]
    have h1 : ¬ v ≥ 2 ^ 40 := by norm_num; omega
    have h2 : ¬ v ≥ 2 ^ 30 := by norm_num; omega
    have h3 : ¬ v ≥ 2 ^ 20 := by norm_num; omega
    have h4 : ¬ v ≥ 2 ^ 10 := by norm_num; omega
    simp only [h1, h2, h3, h4, if_false, sprintfInt, fmtInt_nonneg v (by omega), tierUnit]
  · have hv53 : v < 2 ^ 53 := by
      have : (1024 : Int) ^ (k + 1) ≤ 1024 ^ 5 := pow_le_pow_right₀ (by norm_num) (by omega)
      have h5 : (1024 : Int) ^ 5 < 2 ^ 53 := by norm_num
      omega
    have hv1 : 1 ≤ v := le_trans (one_le_pow₀ (by norm_num)) hlo
    unfold ConvertIntBytes
    rw [tb_eq, gb_eq, mb_eq, kb_eq]
    interval_cases k
    · have h1 : ¬ v ≥ 2 ^ 40 := by norm_num at hhi ⊢; omega
      have h2 : ¬ v ≥ 2 ^ 30 := by norm_num at hhi ⊢; omega
      have h3 : ¬ v ≥ 2 ^ 20 := by norm_num at hhi ⊢; omega
      have h4 : v ≥ 2 ^ 10 := by norm_num at hlo ⊢; omega
      simp only [h1, h2, h3, h4, if_false, if_true]
      rw [sprintfFixed_two_div_pow2 v 10 hv1 hv53 (by norm_num)]
      norm_num [tierUnit]
    · have h1 : ¬ v ≥ 2 ^ 40 := by norm_num at hhi ⊢; omega
      have h2 : ¬ v ≥ 2 ^ 30 := by norm_num at hhi ⊢; omega
      have h3 : v ≥ 2 ^ 20 := by norm_num at hlo ⊢; omega
      simp only [h1, h2, h3, if_false, if_true]
      rw [sprintfFixed_two_div_pow2 v 20 hv1 hv53 (by norm_num)]
      norm_num [tierUnit]
    · have h1 : ¬ v ≥ 2 ^ 40 := by norm_num at hhi ⊢; omega
      have h2 : v ≥ 2 ^ 30 := by norm_num at hlo ⊢; omega
      simp only [h1, h2, if_false, if_true]
      rw [sprintfFixed_two_div_pow2 v 30 hv1 hv53 (by norm_num)]
      norm_num [tierUnit]
    · have h1 : v ≥ 2 ^ 40 := by norm_num at hlo ⊢; omega
      simp only [h1, if_true]
      rw [sprintfFixed_two_div_pow2 v 40 hv1 hv53 (by norm_num)]
      norm_num [tierUnit]

theorem convertIntBytes_tier_witness :
    ((1024 : Int) ^ 1 ≤ 1536 ∧ (1536 : Int) < 1024 ^ (1 + 1)) ∧
    ConvertToReadableBytes (Value.int 1536) = "1.50 KB" ∧
    hundredthsText (roundHalfEven ((1536 : Int).toNat * 100) (1024 ^ 1)) ++ tierUnit 1 = "1.50 KB" :=
  ⟨by norm_num,
   ((convertIntBytes_tier 1536 1 (by norm_num) (by norm_num) (by norm_num)).2 (le_refl 1)).1.trans
     (by decide),
   by decide⟩

/-- C3 fails as stated: `1048575` lies in tier 1 (`1024 ≤ v < 1024^2`) and is printed as
`1024.00 KB`, so the number printed is not below 1024. -/
theorem convertIntBytes_prints_1024 :
    (1024 : Int) ^ 1 ≤ 1048575 ∧ (1048575 : Int) < 1024 ^ (1 + 1) ∧
    ConvertToReadableBytes (Value.int 1048575) = "1024.00 KB" := by
  refine ⟨by norm_num, by norm_num, by decide⟩

/-! ## Durations -/

theorem digitChar_isDigit (n : Nat) : (Nat.digitChar (n % 10)).isDigit = true := by
  have h : n % 10 < 10 := Nat.mod_lt _ (by norm_num)
  generalize n % 10 = d at h
  interval_cases d <;> decide

theorem isDigit_not_letter (c : Char) (h : c.isDigit = true) : c ≠ 'm' ∧ c ≠ 'n' := by
  constructor <;> rintro rfl <;> simp [Char.isDigit] at h

/-- Every `%.<p>f` rendering with `p ≥ 1` ends in a character other than `m` and `n`. -/
theorem fmtFixed_last (p : Nat) (x : Float64) :
    ∃ init c, fmtFixed (p + 1) x = init ++ [c] ∧ c ≠ 'm' ∧ c ≠ 'n' := by
  cases x with
  | nan => exact ⟨['N', 'a'], 'N', rfl, by decide, by decide⟩
  | inf neg =>
    cases neg
    · exact ⟨['+', 'I', 'n'], 'f', rfl, by decide, by decide⟩
    · exact ⟨['-', 'I', 'n'], 'f', rfl, by decide, by decide⟩
  | finite neg m e =>
    obtain ⟨h1, h2⟩ := isDigit_not_letter _ (digitChar_isDigit (fixedDigits (p + 1) m e))
    refine ⟨(if neg then ['-'] else []) ++ natDigits (fixedDigits (p + 1) m e / 10 ^ (p + 1)) ++
      '.' :: lastDigits p (fixedDigits (p + 1) m e / 10), _, ?_, h1, h2⟩
    simp [fmtFixed, lastDigits]

theorem timeSuffix_fixed_h (p : Nat) (x : Float64) : timeSuffix (sprintfFixed p x "h") = "h" := by
  simp [timeSuffix, sprintfFixed]

theorem timeSuffix_fixed_s (p : Nat) (x : Float64) :
    timeSuffix (sprintfFixed (p + 1) x "s") = "s" := by
  obtain ⟨init, c, h, h1, h2⟩ := fmtFixed_last p x
  simp only [timeSuffix, sprintfFixed, h]
  simp only [String.data_append, List.reverse_append, List.reverse_cons, List.reverse_nil,
    List.nil_append, List.singleton_append, List.cons_append]
  split <;> simp_all

theorem timeSuffix_fixed_ms (p : Nat) (x : Float64) : timeSuffix (sprintfFixed p x "ms") = "ms" := by
  simp [timeSuffix, sprintfFixed]

theorem timeSuffix_int_ns (v : Int) : timeSuffix (sprintfInt v "ns") = "ns" := by
  simp [timeSuffix, sprintfInt]

/-- C4: for an integer value, `ConvertToReadableTime` picks the output unit by the
thresholds: for `ns`, hours from `3.6e12`, seconds from `1e9`, milliseconds from `1e6`,
nanoseconds below; for `ms`, hours from `3.6e6`, seconds from `1e3`, milliseconds below;
for `seconds`, hours from `3600`, seconds below; for `hours`, always hours.  With the unit
`ns`, `1500000000` renders `1.50s` and `500` renders `500ns`. -/
theorem convertToReadableTime_int_tiers (v : Int) :
    (ConvertToReadableTime (Value.int v) "ns").map timeSuffix =
      Except.ok (if v ≥ 3600000000000 then "h" else if v ≥ 1000000000 then "s"
        else if v ≥ 1000000 then "ms" else "ns") ∧
    (ConvertToReadableTime (Value.int v) "ms").map timeSuffix =
      Except.ok (if v ≥ 3600000 then "h" else if v ≥ 1000 then "s" else "ms") ∧
    (ConvertToReadableTime (Value.int v) "seconds").map timeSuffix =
      Except.ok (if v ≥ 3600 then "h" else "s") ∧
    (ConvertToReadableTime (Value.int v) "hours").map timeSuffix = Except.ok "h" ∧
    ConvertToReadableTime (Value.int 1500000000) "ns" = Except.ok "1.50s" ∧
    ConvertToReadableTime (Value.int 500) "ns" = Except.ok "500ns" := by
  refine ⟨?_, ?_, ?_, ?_, by decide, by decide⟩
  · have hu : ConvertToReadableTime (Value.int v) "ns" = NanosecondsConverter.Convert (Value.int v) := by
      simp [ConvertToReadableTime]
    rw [hu]
    simp only [NanosecondsConverter.Convert, nsInHour, nsInSecond, nsInMs]
    split_ifs <;>
      simp only [Except.map, timeSuffix_fixed_h, timeSuffix_fixed_s, timeSuffix_fixed_ms,
        timeSuffix_int_ns]
  · have hu : ConvertToReadableTime (Value.int v) "ms" = MillisecondsConverter.Convert (Value.int v) := by
      simp [ConvertToReadableTime]
    rw [hu]
    simp only [MillisecondsConverter.Convert, msInHour, msInSecond]
    split_ifs <;>
      simp only [Except.map, timeSuffix_fixed_h, timeSuffix_fixed_s, timeSuffix_fixed_ms]
  · have hu : ConvertToReadableTime (Value.int v) "seconds" = SecondsConverter.Convert (Value.int v) := by
      simp [ConvertToReadableTime]
    rw [hu]
    simp only [SecondsConverter.Convert, secondsInHour]
    split_ifs <;>
      simp only [Except.map, timeSuffix_fixed_h, timeSuffix_fixed_s]
  · have hu : ConvertToReadableTime (Value.int v) "hours" = HoursConverter.Convert (Value.int v) := by
      simp [ConvertToReadableTime]
    rw [hu]
    simp only [HoursConverter.Convert, Except.map, timeSuffix_fixed_h]

/-- C5: in the millisecond tier of the nanosecond converter a floating-point value is
printed with four decimal places, although that tier is not the smallest-unit fallback
(the integer branch prints the same tier with two). -/
theorem nanoseconds_float_ms_tier_has_four_decimals :
    ConvertToReadableTime (Value.float (Float64.finite false 1500000 0)) "ns" =
      Except.ok "1.5000ms" ∧
    ConvertToReadableTime (Value.int 1500000) "ns" = Except.ok "1.50ms" := by
  constructor <;> decide

/-! ## Dispatch on the unit -/

theorem concatOf_cons (r : Regex) (rs : List Regex) : concatOf (r :: rs) = Regex.seq r (concatOf rs) := rfl

theorem run_seq (a b : Regex) (k : Bool → List Char → Bool) (st : Bool) (s : List Char) :
    (Regex.seq a b).run k st s = a.run (fun st2 s2 => b.run k st2 s2) st s := rfl

theorem run_lit_cons (c d : Char) (k : Bool → List Char → Bool) (st : Bool) (rest : List Char) :
    (Regex.lit c).run k st (d :: rest) = (decide (d = c) && k false rest) := rfl

theorem run_lit_nil (c : Char) (k : Bool → List Char → Bool) (st : Bool) :
    (Regex.lit c).run k st [] = false := rfl

theorem concatOf_append_run (l : List Char) (R : List Regex) (k : Bool → List Char → Bool)
    (atStart : Bool) (s : List Char) :
    (concatOf (l.map Regex.lit ++ R)).run k atStart s = true ↔
      ∃ rest, s = l ++ rest ∧ (concatOf R).run k (atStart && l.isEmpty) rest = true := by
  induction l generalizing atStart s with
  | nil => simp
  | cons a l ih =>
    rw [List.map_cons, List.cons_append, concatOf_cons, run_seq]
    cases s with
    | nil => simp [run_lit_nil]
    | cons d rest =>
      rw [run_lit_cons]
      simp only [Bool.and_eq_true, decide_eq_true_eq, ih, List.cons_append, List.cons.injEq,
        Bool.false_and, List.isEmpty_cons, Bool.and_false]
      constructor
      · rintro ⟨rfl, r, rfl, hk⟩
        exact ⟨r, ⟨rfl, rfl⟩, hk⟩
      · rintro ⟨r, ⟨rfl, rfl⟩, hk⟩
        exact ⟨rfl, r, rfl, hk⟩

theorem searchFrom_alt (a b : Regex) (atStart : Bool) (s : List Char) :
    (Regex.alt a b).searchFrom atStart s = (a.searchFrom atStart s || b.searchFrom atStart s) := by
  induction s generalizing atStart with
  | nil => rfl
  | cons c cs ih =>
    simp only [Regex.searchFrom, Regex.run, ih]
    cases a.run (fun _ _ => true) atStart (c :: cs) <;>
    cases b.run (fun _ _ => true) atStart (c :: cs) <;>
    cases a.searchFrom false cs <;> cases b.searchFrom false cs <;> rfl

/-- An expression `^literal$` matches exactly the text `literal`. -/
theorem matchString_anchored (l : List Char) (u : String) :
    (concatOf (Regex.bol :: (l.map Regex.lit ++ [Regex.eol]))).matchString u = true ↔ u.data = l := by
  simp only [Regex.matchString, searchFrom_iff, concatOf_cons, run_seq, Regex.run, Bool.and_eq_true,
    concatOf_append_run, List.isEmpty_iff]
  constructor
  · rintro ⟨pre, rest, hu, hpre, rest2, hrest, hnil, -⟩
    rw [hu, hpre.2, hrest, hnil]
    simp
  · intro hu
    refine ⟨[], l, by simp [hu], by simp, [], by simp, ?_⟩
    simp [concatOf, Regex.run]

/-- An expression made of literal characters matches the texts that contain them. -/
theorem matchString_literals (l : List Char) (u : String) :
    (concatOf (l.map Regex.lit)).matchString u = true ↔ l <:+: u.data := by
  simp only [Regex.matchString, searchFrom_iff, run_literals]
  constructor
  · rintro ⟨pre, rest, hu, rest2, hrest, -⟩
    exact ⟨pre, rest2, by rw [hu, hrest]; simp⟩
  · rintro ⟨pre, post, hu⟩
    exact ⟨pre, l ++ post, by rw [← hu]; simp, post, rfl, by simp⟩

theorem timeReg_compile :
    regexpCompile "^ns$|^ms$|^seconds$|^hours$" = some
      (Regex.alt (concatOf (Regex.bol :: ("ns".data.map Regex.lit ++ [Regex.eol])))
        (Regex.alt (concatOf (Regex.bol :: ("ms".data.map Regex.lit ++ [Regex.eol])))
          (Regex.alt (concatOf (Regex.bol :: ("seconds".data.map Regex.lit ++ [Regex.eol])))
            (concatOf (Regex.bol :: ("hours".data.map Regex.lit ++ [Regex.eol])))))) := by
  decide

theorem bytesReg_compile : regexpCompile "bytes" = some (concatOf ("bytes".data.map Regex.lit)) := by
  decide

theorem percentageReg_compile :
    regexpCompile "percentage" = some (concatOf ("percentage".data.map Regex.lit)) := by
  decide

theorem string_eq_of_data (u : String) (l : List Char) : u.data = l ↔ u = String.mk l := by
  constructor
  · intro h; rw [← h]
  · intro h; rw [h]

/-- The dispatch of lines 141-156 in terms of the unit text: the exact duration units go
to `ConvertToReadableTime`, then units containing `bytes`, then units containing
`percentage`, then everything else. -/
theorem renderValue_eq (unit : String) (v : Value) :
    renderValue unit v =
      if isDurationUnit unit then ConvertToReadableTime v unit
      else if stringsContains unit "bytes" then Except.ok (ConvertToReadableBytes v)
      else if stringsContains unit "percentage" then
        Except.ok (sprintfFixed 2 ((parseFloat (fmtV v)).mul (Float64.ofInt 100)) "%")
      else Except.ok (String.mk (fmtV v)) := by
  have ht : ∀ r, regexpCompile "^ns$|^ms$|^seconds$|^hours$" = some r →
      (r.matchString unit = true ↔ isDurationUnit unit) := by
    intro r hr
    rw [timeReg_compile] at hr
    injection hr with hr
    subst hr
    simp only [Regex.matchString, searchFrom_alt, Bool.or_eq_true]
    have h := fun l => matchString_anchored l unit
    simp only [Regex.matchString] at h
    simp only [h, string_eq_of_data, isDurationUnit]
  have hb : (concatOf ("bytes".data.map Regex.lit)).matchString unit = stringsContains unit "bytes" := by
    rw [Bool.eq_iff_iff, matchString_literals, stringsContains_iff]
  have hp : (concatOf ("percentage".data.map Regex.lit)).matchString unit
      = stringsContains unit "percentage" := by
    rw [Bool.eq_iff_iff, matchString_literals, stringsContains_iff]
  unfold renderValue
  rw [bytesReg_compile, percentageReg_compile]
  have ht2 := ht _ timeReg_compile
  rw [timeReg_compile]
  simp only [hb, hp]
  by_cases hd : isDurationUnit unit
  · simp only [hd, if_true, ht2.mpr hd]
  · have : ¬ ((Regex.alt (concatOf (Regex.bol :: ("ns".data.map Regex.lit ++ [Regex.eol])))
        (Regex.alt (concatOf (Regex.bol :: ("ms".data.map Regex.lit ++ [Regex.eol])))
          (Regex.alt (concatOf (Regex.bol :: ("seconds".data.map Regex.lit ++ [Regex.eol])))
            (concatOf (Regex.bol :: ("hours".data.map Regex.lit ++ [Regex.eol])))))).matchString unit = true) :=
      fun h => hd (ht2.mp h)
    simp only [hd, if_false, this, Bool.false_eq_true]

theorem convertToReadableTime_unsupported (unit : String) (v : Value)
    (hi : ∀ i, v ≠ Value.int i) (hf : ∀ f, v ≠ Value.float f) (hd : isDurationUnit unit) :
    ConvertToReadableTime v unit = Except.error (unsupportedType v) := by
  cases v with
  | int i => exact absurd rfl (hi i)
  | float f => exact absurd rfl (hf f)
  | str s =>
    rcases hd with rfl | rfl | rfl | rfl <;> rfl
  | bool b =>
    rcases hd with rfl | rfl | rfl | rfl <;> rfl
  | nil =>
    rcases hd with rfl | rfl | rfl | rfl <;> rfl

/-- C6 fails as stated: a value that is neither an integer nor a floating-point number is
rendered without any error when the unit is not a duration unit. -/
theorem renderValue_non_numeric_without_error :
    renderValue "bytes" (Value.str "abc") = Except.ok "Unsupported type" ∧
    renderValue "percentage" (Value.str "abc") = Except.ok "0.00%" ∧
    renderValue "-" (Value.str "abc") = Except.ok "abc" := by
  refine ⟨by decide, by decide, by decide⟩

/-- C6 (amended): for a value that is neither an integer nor a floating-point number, the
four duration units fail with the error `unsupported type: <type>`; a unit containing
`bytes` yields the text `Unsupported type` and no error; no other unit yields an error. -/
theorem renderValue_non_numeric (unit : String) (v : Value)
    (hi : ∀ i, v ≠ Value.int i) (hf : ∀ f, v ≠ Value.float f) :
    (isDurationUnit unit →
      renderValue unit v = Except.error (GoError.error ("unsupported type: " ++ typeName v))) ∧
    (¬ isDurationUnit unit → stringsContains unit "bytes" = true →
      renderValue unit v = Except.ok "Unsupported type") ∧
    (¬ isDurationUnit unit → ∃ s, renderValue unit v = Except.ok s) := by
  refine ⟨?_, ?_, ?_⟩
  · intro hd
    rw [renderValue_eq, if_pos hd, convertToReadableTime_unsupported unit v hi hf hd]
    rfl
  · intro hd hb
    rw [renderValue_eq, if_neg hd, if_pos hb]
    cases v with
    | int i => exact absurd rfl (hi i)
    | float f => exact absurd rfl (hf f)
    | str s => rfl
    | bool b => rfl
    | nil => rfl
  · intro hd
    rw [renderValue_eq, if_neg hd]
    split_ifs <;> exact ⟨_, rfl⟩

theorem renderValue_non_numeric_witness :
    (∀ i, Value.str "abc" ≠ Value.int i) ∧ (∀ f, Value.str "abc" ≠ Value.float f) ∧
    isDurationUnit "ns" ∧
    renderValue "ns" (Value.str "abc") =
      Except.error (GoError.error ("unsupported type: " ++ typeName (Value.str "abc"))) :=
  ⟨fun _ h => Value.noConfusion h, fun _ h => Value.noConfusion h, Or.inl rfl,
    (renderValue_non_numeric "ns" (Value.str "abc") (fun _ h => Value.noConfusion h)
      (fun _ h => Value.noConfusion h)).1 (Or.inl rfl)⟩

/-! ## Name validation -/

theorem proxyReg_compile :
    regexpCompile "^consul\\.proxy\\..+$" = some
      (concatOf (Regex.bol :: ("consul.proxy.".data.map Regex.lit ++
        [Regex.plus Regex.any, Regex.eol]))) := by
  decide

theorem run_any_cons (d : Char) (k : Bool → List Char → Bool) (st : Bool) (rest : List Char) :
    Regex.any.run k st (d :: rest) = (decide (d ≠ '\n') && k false rest) := rfl

theorem run_any_nil (k : Bool → List Char → Bool) (st : Bool) :
    Regex.any.run k st [] = false := rfl

/-- Any run of `.` followed by the end of the text accepts exactly the texts without a
line feed. -/
theorem starRun_any_to_end (K : Bool → List Char → Bool)
    (hK : ∀ st s, K st s = true ↔ s = []) (fuel : Nat) (st : Bool) (s : List Char)
    (hf : s.length ≤ fuel) :
    starRun Regex.any.run K fuel st s = true ↔ ∀ c ∈ s, c ≠ '\n' := by
  induction fuel generalizing st s with
  | zero =>
    have hs : s = [] := List.length_eq_zero.mp (Nat.le_zero.mp hf)
    subst hs
    simp [starRun, hK]
  | succ n ih =>
    cases s with
    | nil => simp [starRun, hK]
    | cons c cs =>
      have hlen : cs.length ≤ n := by simpa using hf
      have hKc : K st (c :: cs) = false := by
        rw [Bool.eq_false_iff]
        intro h
        exact List.cons_ne_nil _ _ ((hK _ _).mp h)
      simp only [starRun, hKc, Bool.false_or, run_any_cons, Bool.and_eq_true, decide_eq_true_eq,
        ih false cs hlen, List.length_cons, Nat.lt_succ_self, List.mem_cons, forall_eq_or_imp,
        true_and]

theorem run_bol (k : Bool → List Char → Bool) (st : Bool) (s : List Char) :
    Regex.bol.run k st s = (st && k st s) := rfl

theorem run_plus (a : Regex) (k : Bool → List Char → Bool) (st : Bool) (s : List Char) :
    (Regex.plus a).run k st s =
      a.run (fun st2 s2 => starRun a.run k s2.length st2 s2) st s := rfl

theorem run_eol_end (st : Bool) (s : List Char) :
    (Regex.seq Regex.eol Regex.empty).run (fun _ _ => true) st s = true ↔ s = [] := by
  simp [Regex.run, List.isEmpty_iff]

/-- An expression `^literal.+$` matches the texts made of the literal followed by at least
one character, none of them a line feed. -/
theorem matchString_prefix_plus (l : List Char) (u : String) :
    (concatOf (Regex.bol :: (l.map Regex.lit ++
        [Regex.plus Regex.any, Regex.eol]))).matchString u = true ↔
      ∃ rest, u.data = l ++ rest ∧ rest ≠ [] ∧ ∀ c ∈ rest, c ≠ '\n' := by
  have hK : ∀ (st : Bool) (s : List Char),
      (fun st2 s2 => (Regex.seq Regex.eol Regex.empty).run (fun _ _ => true) st2 s2) st s = true
        ↔ s = [] := fun st s => run_eol_end st s
  simp only [Regex.matchString, searchFrom_iff, concatOf_cons, run_seq, run_bol, Bool.and_eq_true,
    concatOf_append_run, run_plus]
  constructor
  · rintro ⟨pre, rest, hu, hpre, rest2, hrest, hrun⟩
    have hpre' : pre = [] := by simpa using hpre
    cases rest2 with
    | nil => simp [run_any_nil] at hrun
    | cons c cs =>
      rw [run_any_cons] at hrun
      simp only [Bool.and_eq_true, decide_eq_true_eq] at hrun
      refine ⟨c :: cs, by rw [hu, hpre', hrest]; simp, List.cons_ne_nil _ _, ?_⟩
      have h2 := (starRun_any_to_end _ hK cs.length false cs (le_refl _)).mp hrun.2
      intro x hx
      rcases List.mem_cons.mp hx with rfl | hx
      · exact hrun.1
      · exact h2 x hx
  · rintro ⟨rest, hu, hne, hall⟩
    refine ⟨[], u.data, rfl, by simp, rest, hu, ?_⟩
    cases rest with
    | nil => exact absurd rfl hne
    | cons c cs =>
      rw [run_any_cons]
      simp only [Bool.and_eq_true, decide_eq_true_eq]
      refine ⟨hall c (List.mem_cons_self _ _), ?_⟩
      exact (starRun_any_to_end _ hK cs.length false cs (le_refl _)).mpr
        (fun x hx => hall x (List.mem_cons_of_mem _ hx))

/-- A name made of `consul.proxy.` and at least one more character, without a line feed,
is accepted whatever the reference text. -/
theorem validateName_proxy (shown n info : String)
    (h : ∃ rest, n.data = "consul.proxy.".data ++ rest ∧ rest ≠ [] ∧ ∀ c ∈ rest, c ≠ '\n') :
    validateName shown n info = Except.ok () := by
  unfold validateName
  rw [proxyReg_compile]
  simp only []
  rw [if_pos ((matchString_prefix_plus _ n).mpr h)]

/-- Any other name is looked up in the reference text. -/
theorem validateName_other (shown n info : String)
    (h : ¬ ∃ rest, n.data = "consul.proxy.".data ++ rest ∧ rest ≠ [] ∧ ∀ c ∈ rest, c ≠ '\n') :
    validateName shown n info =
      if stringsContains info n then Except.ok ()
      else Except.error (GoError.error (validationMessage shown)) := by
  unfold validateName
  rw [proxyReg_compile]
  simp only []
  have h2 : ¬ ((concatOf (Regex.bol :: ("consul.proxy.".data.map Regex.lit ++
      [Regex.plus Regex.any, Regex.eol]))).matchString n = true) :=
    fun hm => h ((matchString_prefix_plus _ n).mp hm)
  rw [if_neg h2]

/-- C7 fails as stated: the name `consul.proxy.` itself starts with `consul.proxy.` and is
rejected when the reference text does not contain it. -/
theorem validate_bare_proxy_prefix_rejected :
    validateName "consul.proxy." "consul.proxy." "" =
      Except.error (GoError.error (validationMessage "consul.proxy.")) ∧
    ValidateMetricName (Except.ok ("", [])) "consul.proxy." =
      Except.error (GoError.error (validationMessage "consul.proxy.")) := by
  constructor <;> decide

/-- C7 (amended): a name made of `consul.proxy.` followed by at least one character, none
of them a line feed, is accepted by `validateName` and by `ValidateMetricName` (once the
table is fetched) for every reference text, the empty one included. -/
theorem validate_proxy_name_accepted (rest : List Char) (hne : rest ≠ [])
    (hnl : ∀ c ∈ rest, c ≠ '\n') (info : String) (table : List AgentTelemetryMetric) :
    validateName (String.mk ("consul.proxy.".data ++ rest))
      (String.mk ("consul.proxy.".data ++ rest)) info = Except.ok () ∧
    ValidateMetricName (Except.ok (info, table)) (String.mk ("consul.proxy.".data ++ rest)) =
      Except.ok () := by
  have h := validateName_proxy (String.mk ("consul.proxy.".data ++ rest))
    (String.mk ("consul.proxy.".data ++ rest)) info ⟨rest, rfl, hne, hnl⟩
  exact ⟨h, h⟩

theorem validate_proxy_name_accepted_witness :
    ("web".data ≠ []) ∧ (∀ c ∈ "web".data, c ≠ '\n') ∧
    validateName "consul.proxy.web" "consul.proxy.web" "" = Except.ok () ∧
    ValidateMetricName (Except.ok ("", [])) "consul.proxy.web" = Except.ok () :=
  ⟨by decide, by decide,
    validate_proxy_name_accepted "web".data (by decide) (by decide) "" []⟩

/-- For a name that does not start with `consul.proxy.`, validation succeeds exactly when
the reference text contains the name. -/
theorem validateName_ok_iff_contains (n info : String)
    (h : ¬ "consul.proxy.".data <+: n.data) :
    validateName n n info = Except.ok () ↔ n.data <:+: info.data := by
  have h2 : ¬ ∃ rest, n.data = "consul.proxy.".data ++ rest ∧ rest ≠ [] ∧ ∀ c ∈ rest, c ≠ '\n' := by
    rintro ⟨rest, hr, -, -⟩
    exact h ⟨rest, hr.symm⟩
  rw [validateName_other n n info h2, ← stringsContains_iff]
  split_ifs with hc
  · simp [hc]
  · simp [hc]

/-- C8: the message is built by `fmt.Errorf(fmt.Sprintf(...))`, so the outer call reads the
name as a format string; for the name `cpu%d`, absent from the reference text, the error
message shows `cpu%!d(MISSING)` and does not contain the name. -/
theorem validation_message_mangles_percent :
    validateName "cpu%d" "cpu%d" "" = Except.error (GoError.error
      ("[metrics-name-validation] 'cpu%!d(MISSING)' not a valid telemetry metric name\n" ++
       "  visit: https://developer.hashicorp.com/consul/docs/agent/telemetry" ++
       " for full list of consul telemetry metrics")) ∧
    stringsContains (validationMessage "cpu%d") "cpu%d" = false ∧
    stringsContains (validationMessage "cpu%d") telemetryURL = true := by
  refine ⟨by decide, by decide, by decide⟩

/-! ## Sorting by value -/

theorem signedAt_cast (neg : Bool) (m : Nat) (e1 e : Int) (h : e ≤ e1) :
    ((signedAt neg m e1 e : ℤ) : ℚ) =
      ((if neg then -(m : ℚ) else (m : ℚ)) * (2 : ℚ) ^ e1) / (2 : ℚ) ^ e := by
  obtain ⟨t, ht⟩ : ∃ t : ℕ, e1 = e + t := ⟨(e1 - e).toNat, by rw [Int.toNat_of_nonneg (by omega)]; ring⟩
  have ht2 : (e1 - e).toNat = t := by omega
  unfold signedAt
  rw [ht2, ht, zpow_add₀ (by norm_num : (2 : ℚ) ≠ 0), zpow_natCast]
  have hpos : (2 : ℚ) ^ e ≠ 0 := by positivity
  cases neg <;> simp <;> field_simp <;> ring

theorem finite_lt_iff (n1 n2 : Bool) (m1 m2 : Nat) (e1 e2 : Int) :
    signedAt n2 m2 e2 (min e1 e2) < signedAt n1 m1 e1 (min e1 e2) ↔
      (if n2 then -(m2 : ℚ) else (m2 : ℚ)) * (2 : ℚ) ^ e2 <
        (if n1 then -(m1 : ℚ) else (m1 : ℚ)) * (2 : ℚ) ^ e1 := by
  have hpos : (0 : ℚ) < (2 : ℚ) ^ (min e1 e2) := by positivity
  rw [← Int.cast_lt (R := ℚ), signedAt_cast _ _ _ _ (min_le_right e1 e2),
    signedAt_cast _ _ _ _ (min_le_left e1 e2), div_lt_div_iff_of_pos_right hpos]

theorem finite_le_iff (n1 n2 : Bool) (m1 m2 : Nat) (e1 e2 : Int) :
    signedAt n2 m2 e2 (min e1 e2) ≤ signedAt n1 m1 e1 (min e1 e2) ↔
      (if n2 then -(m2 : ℚ) else (m2 : ℚ)) * (2 : ℚ) ^ e2 ≤
        (if n1 then -(m1 : ℚ) else (m1 : ℚ)) * (2 : ℚ) ^ e1 := by
  have hpos : (0 : ℚ) < (2 : ℚ) ^ (min e1 e2) := by positivity
  rw [← Int.cast_le (R := ℚ), signedAt_cast _ _ _ _ (min_le_right e1 e2),
    signedAt_cast _ _ _ _ (min_le_left e1 e2), div_le_div_iff_of_pos_right hpos]

/-- Go's `>` on two numbers that are not NaN is the strict order of their values. -/
theorem Float64.gt_iff (x y : Float64) (hx : x ≠ Float64.nan) (hy : y ≠ Float64.nan) :
    x.gt y = true ↔ y.toExt < x.toExt := by
  cases x with
  | nan => exact absurd rfl hx
  | inf n1 =>
    cases y with
    | nan => exact absurd rfl hy
    | inf n2 => cases n1 <;> cases n2 <;> simp [Float64.gt, Float64.toExt]
    | finite n2 m2 e2 =>
      cases n1
      · simp only [Float64.gt, Float64.toExt, Bool.not_false, true_iff]
        exact WithBot.coe_lt_coe.mpr (WithTop.coe_lt_top _)
      · simp [Float64.gt, Float64.toExt]
  | finite n1 m1 e1 =>
    cases y with
    | nan => exact absurd rfl hy
    | inf n2 =>
      cases n2
      · simp only [Float64.gt, Float64.toExt, Bool.false_eq_true, false_iff, not_lt]
        exact WithBot.coe_le_coe.mpr le_top
      · simp only [Float64.gt, Float64.toExt, true_iff]
        exact WithBot.bot_lt_coe _
    | finite n2 m2 e2 =>
      simp only [Float64.gt, Float64.toExt, decide_eq_true_eq, finite_lt_iff,
        WithBot.coe_lt_coe, WithTop.coe_lt_coe]

/-- Go's `>=` on two numbers that are not NaN is the order of their values. -/
theorem Float64.ge_iff (x y : Float64) (hx : x ≠ Float64.nan) (hy : y ≠ Float64.nan) :
    x.ge y = true ↔ y.toExt ≤ x.toExt := by
  cases x with
  | nan => exact absurd rfl hx
  | inf n1 =>
    cases y with
    | nan => exact absurd rfl hy
    | inf n2 => cases n1 <;> cases n2 <;> simp [Float64.ge, Float64.toExt]
    | finite n2 m2 e2 =>
      cases n1
      · simp only [Float64.ge, Float64.toExt, Bool.not_false, true_iff]
        exact WithBot.coe_le_coe.mpr le_top
      · simp [Float64.ge, Float64.toExt]
  | finite n1 m1 e1 =>
    cases y with
    | nan => exact absurd rfl hy
    | inf n2 =>
      cases n2
      · simp only [Float64.ge, Float64.toExt, Bool.false_eq_true, false_iff, not_le]
        exact WithBot.coe_lt_coe.mpr (WithTop.coe_lt_top _)
      · simp only [Float64.ge, Float64.toExt, true_iff]
        exact bot_le
    | finite n2 m2 e2 =>
      simp only [Float64.ge, Float64.toExt, decide_eq_true_eq, finite_le_iff,
        WithBot.coe_le_coe, WithTop.coe_le_coe]

theorem less_of_good (a b : String) (ha : GoodRow a) (hb : GoodRow b) :
    ByValue.Less a b = some (decide (keyExt b < keyExt a)) := by
  obtain ⟨x, hx, hxn⟩ := ha
  obtain ⟨y, hy, hyn⟩ := hb
  simp only [ByValue.Less, keyExt, hx, hy]
  congr 1
  rw [Bool.eq_iff_iff, Float64.gt_iff x y hxn hyn]
  simp

theorem valueGe_of_keyExt (a b : String) (ha : GoodRow a) (hb : GoodRow b)
    (h : keyExt b ≤ keyExt a) : valueGe a b := by
  obtain ⟨x, hx, hxn⟩ := ha
  obtain ⟨y, hy, hyn⟩ := hb
  refine ⟨x, y, hx, hy, ?_⟩
  rw [Float64.ge_iff x y hxn hyn]
  simpa [keyExt, hx, hy] using h

theorem insertBack_spec (x : String) (acc : List String) (hx : GoodRow x)
    (hacc : ∀ r ∈ acc, GoodRow r) (hs : acc.Pairwise (fun a b => keyExt a ≤ keyExt b)) :
    ∃ l, insertBack x acc = some l ∧ l.Perm (x :: acc) ∧
      l.Pairwise (fun a b => keyExt a ≤ keyExt b) := by
  induction acc with
  | nil => exact ⟨[x], rfl, List.Perm.refl _, List.pairwise_singleton _ _⟩
  | cons y ys ih =>
    have hy : GoodRow y := hacc y (List.mem_cons_self _ _)
    have hys : ∀ r ∈ ys, GoodRow r := fun r hr => hacc r (List.mem_cons_of_mem _ hr)
    obtain ⟨hy_le, hs'⟩ := List.pairwise_cons.mp hs
    unfold insertBack
    rw [less_of_good x y hx hy]
    by_cases hlt : keyExt y < keyExt x
    · obtain ⟨l, hl, hperm, hsorted⟩ := ih hys hs'
      simp only [hlt, decide_True, hl, Option.map_some']
      refine ⟨y :: l, rfl, ?_, ?_⟩
      · exact (List.Perm.cons y hperm).trans (List.Perm.swap x y ys)
      · refine List.pairwise_cons.mpr ⟨?_, hsorted⟩
        intro z hz
        rcases List.mem_cons.mp (hperm.subset hz) with rfl | hz
        · exact hlt.le
        · exact hy_le z hz
    · simp only [hlt, decide_False]
      refine ⟨x :: y :: ys, rfl, List.Perm.refl _, ?_⟩
      refine List.pairwise_cons.mpr ⟨?_, hs⟩
      intro z hz
      have hxy : keyExt x ≤ keyExt y := not_lt.mp hlt
      rcases List.mem_cons.mp hz with rfl | hz
      · exact hxy
      · exact le_trans hxy (hy_le z hz)

theorem sortLoop_spec (xs acc : List String) (hxs : ∀ r ∈ xs, GoodRow r)
    (hacc : ∀ r ∈ acc, GoodRow r) (hs : acc.Pairwise (fun a b => keyExt a ≤ keyExt b)) :
    ∃ out, sortLoop xs acc = some out ∧ out.Perm (acc.reverse ++ xs) ∧
      out.Pairwise (fun a b => keyExt b ≤ keyExt a) := by
  induction xs generalizing acc with
  | nil =>
    refine ⟨acc.reverse, rfl, by simp, ?_⟩
    exact List.pairwise_reverse.mpr hs
  | cons x xs ih =>
    obtain ⟨l, hl, hperm, hsorted⟩ := insertBack_spec x acc
      (hxs x (List.mem_cons_self _ _)) hacc hs
    have hl_good : ∀ r ∈ l, GoodRow r := by
      intro r hr
      rcases List.mem_cons.mp (hperm.subset hr) with rfl | hr
      · exact hxs _ (List.mem_cons_self _ _)
      · exact hacc r hr
    obtain ⟨out, hout, hp, hso⟩ := ih l (fun r hr => hxs r (List.mem_cons_of_mem _ hr)) hl_good hsorted
    refine ⟨out, ?_, ?_, hso⟩
    · simp only [sortLoop, hl, hout]
    · refine hp.trans ?_
      have h1 : l.reverse.Perm (x :: acc) := (List.reverse_perm l).trans hperm
      have h2 : (x :: acc).Perm (acc.reverse ++ [x]) := by
        refine (List.perm_append_singleton x acc).symm.trans ?_
        exact List.Perm.append_right _ (List.reverse_perm acc).symm
      have h3 : (l.reverse ++ xs).Perm ((acc.reverse ++ [x]) ++ xs) :=
        List.Perm.append_right _ (h1.trans h2)
      simpa using h3

/-- On rows whose value field exists and is not a NaN, the sort returns a permutation in
which every earlier row has a value `>=` that of every later row. -/
theorem sortByValue_spec (rows : List String) (h : ∀ r ∈ rows, GoodRow r) :
    ∃ sorted, sortByValue rows = some sorted ∧ sorted.Perm rows ∧ sorted.Pairwise valueGe := by
  obtain ⟨out, hout, hperm, hsorted⟩ := sortLoop_spec rows [] h (by simp) List.Pairwise.nil
  refine ⟨out, hout, by simpa using hperm, ?_⟩
  have hgood : ∀ r ∈ out, GoodRow r := fun r hr => h r (by simpa using hperm.subset hr)
  exact hsorted.imp_of_mem (fun {a b} ha hb hab => valueGe_of_keyExt a b (hgood a ha) (hgood b hb) hab)

/-! ## Rows of the report -/

theorem splitOn_cons (d c : Char) (cs : List Char) :
    splitOn d (c :: cs) =
      if c = d then [] :: splitOn d cs
      else
        match splitOn d cs with
        | [] => [[c]]
        | h :: t => (c :: h) :: t := rfl

theorem splitOn_length_pos (d : Char) (s : List Char) : 1 ≤ (splitOn d s).length := by
  cases s with
  | nil => simp [splitOn]
  | cons c cs =>
    rw [splitOn_cons]
    split
    · simp
    · split <;> simp

theorem splitOn_cons_length (d c : Char) (cs : List Char) :
    (splitOn d (c :: cs)).length =
      if c = d then (splitOn d cs).length + 1 else (splitOn d cs).length := by
  rw [splitOn_cons]
  split
  · simp
  · have hpos := splitOn_length_pos d cs
    cases hsp : splitOn d cs with
    | nil => rw [hsp] at hpos; simp at hpos
    | cons h t => simp

theorem splitOn_append_sep_length (d : Char) (a rest : List Char) :
    (splitOn d rest).length + 1 ≤ (splitOn d (a ++ d :: rest)).length := by
  induction a with
  | nil => simp [splitOn_cons_length]
  | cons c cs ih =>
    rw [List.cons_append, splitOn_cons_length]
    split <;> omega

/-- Every row written with the six-field format has a fifth field. -/
theorem rowKey_mkRow (timestamp name metricType unit value labels : String) :
    ∃ x, rowKey (mkRow timestamp name metricType unit value labels) = some x := by
  have h5 : 5 ≤ (splitOn sep (mkRow timestamp name metricType unit value labels).data).length := by
    simp only [mkRow]
    have h1 := splitOn_append_sep_length sep timestamp.data (name.data ++ sep :: metricType.data ++
      sep :: unit.data ++ sep :: value.data ++ sep :: labels.data ++ [sep])
    have h2 := splitOn_append_sep_length sep name.data (metricType.data ++
      sep :: unit.data ++ sep :: value.data ++ sep :: labels.data ++ [sep])
    have h3 := splitOn_append_sep_length sep metricType.data
      (unit.data ++ sep :: value.data ++ sep :: labels.data ++ [sep])
    have h4 := splitOn_append_sep_length sep unit.data (value.data ++ sep :: labels.data ++ [sep])
    have h5 := splitOn_length_pos sep (value.data ++ sep :: labels.data ++ [sep])
    simp only [List.append_assoc, List.cons_append] at h1 h2 h3 h4 h5 ⊢
    omega
  unfold rowKey
  cases hget : (splitOn sep (mkRow timestamp name metricType unit value labels).data).get? 4 with
  | none =>
    rw [List.get?_eq_none] at hget
    omega
  | some col => exact ⟨_, rfl⟩

theorem rowFor_isRow (metricType unit : String) (info : Extracted) (row : String)
    (h : rowFor metricType unit info = Except.ok row) : ∃ x, rowKey row = some x := by
  unfold rowFor at h
  split at h
  · split at h
    · exact absurd h (by simp)
    · injection h with h
      rw [← h]
      exact rowKey_mkRow _ _ _ _ _ _
  · injection h with h
    rw [← h]
    exact rowKey_mkRow _ _ _ _ _ _

theorem appendRows_spec (metricType unit : String) (data : List Extracted) (acc result : List String)
    (h : appendRows metricType unit data acc = Except.ok result) :
    ∃ new, result = acc ++ new ∧ ∀ r ∈ new, ∃ x, rowKey r = some x := by
  induction data generalizing acc with
  | nil =>
    simp only [appendRows] at h
    injection h with h
    exact ⟨[], by simp [h], by simp⟩
  | cons info rest ih =>
    simp only [appendRows] at h
    cases hrow : rowFor metricType unit info with
    | error e => rw [hrow] at h; exact absurd h (by simp)
    | ok row =>
      rw [hrow] at h
      obtain ⟨new, hnew, hall⟩ := ih (acc ++ [row]) h
      refine ⟨row :: new, by simp [hnew], ?_⟩
      intro r hr
      rcases List.mem_cons.mp hr with rfl | hr
      · exact rowFor_isRow _ _ _ _ hrow
      · exact hall r hr

theorem collectRows_spec (name metricType unit : String) (ms : List Metric)
    (acc result : List String)
    (h : collectRows name metricType unit ms acc = Except.ok result) :
    ∃ new, result = acc ++ new ∧ ∀ r ∈ new, ∃ x, rowKey r = some x := by
  induction ms generalizing acc with
  | nil =>
    simp only [collectRows] at h
    injection h with h
    exact ⟨[], by simp [h], by simp⟩
  | cons m rest ih =>
    simp only [collectRows] at h
    cases hex : m.ExtractMetricValueByName name with
    | none => rw [hex] at h; exact absurd h (by simp)
    | some data =>
      rw [hex] at h
      simp only [] at h
      cases happ : appendRows metricType unit data acc with
      | error e => rw [happ] at h; exact absurd h (by simp)
      | ok result2 =>
        rw [happ] at h
        obtain ⟨new1, hnew1, hall1⟩ := appendRows_spec _ _ _ _ _ happ
        obtain ⟨new2, hnew2, hall2⟩ := ih result2 h
        refine ⟨new1 ++ new2, by rw [hnew2, hnew1]; simp, ?_⟩
        intro r hr
        rcases List.mem_append.mp hr with hr | hr
        · exact hall1 r hr
        · exact hall2 r hr

/-- C10: for a duration unit the value field carries a unit suffix, `ByValue.Less` reads
every such field as `0`, and the sort leaves the rows as they were: a gauge of one second
followed by one of two seconds is reported lowest first although the flag is set. -/
theorem sort_by_value_ignores_duration_values :
    GetMetricValuesRows pauseDebug pauseFetch "consul.runtime.total_gc_pause_ns" false true =
      Except.ok [headerRow,
        mkRow "t1" "consul.runtime.total_gc_pause_ns" "gauge" "ns" "1.00s" "[]",
        mkRow "t2" "consul.runtime.total_gc_pause_ns" "gauge" "ns" "2.00s" "[]"] ∧
    rowKey (mkRow "t1" "consul.runtime.total_gc_pause_ns" "gauge" "ns" "1.00s" "[]") =
      some (Float64.finite false 0 0) ∧
    rowKey (mkRow "t2" "consul.runtime.total_gc_pause_ns" "gauge" "ns" "2.00s" "[]") =
      some (Float64.finite false 0 0) ∧
    (Float64.finite false 2000000000 0).gt (Float64.finite false 1000000000 0) = true := by
  refine ⟨by decide, by decide, by decide, by decide⟩

/-! ## Unit and type lookup -/

/-- What `GetUnitAndType` returns when no entry carries the queried name: the first entry
for the queried name `*`, the placeholders otherwise. -/
theorem getUnitAndType_unmatched (name : String) (table : List AgentTelemetryMetric)
    (h : ∀ e ∈ table, e.Name ≠ name) :
    GetUnitAndType name table =
      if name = "*" then (table.head?.map (fun e => (e.Unit, e.Type_))).getD ("-", "-")
      else ("-", "-") := by
  induction table with
  | nil => simp [GetUnitAndType]
  | cons e rest ih =>
    have he : e.Name ≠ name := h e (List.mem_cons_self _ _)
    have hrest := ih (fun x hx => h x (List.mem_cons_of_mem _ hx))
    unfold GetUnitAndType
    by_cases hs : name = "*"
    · simp [he, hs]
    · simp only [he, if_false, hs]
      rw [hrest]
      simp only [hs, if_false]

/-- C11 fails as stated: the table holds an entry named `*`, the queried name `foo` equals
no entry's name, and `GetUnitAndType` returns the placeholders, not the unit and type of
the `*` entry. -/
theorem getUnitAndType_ignores_star_entry :
    GetUnitAndType "foo" [{ Name := "*", Unit := "ms", Type_ := "gauge" }] = ("-", "-") := by
  decide

/-- C11 (amended): for a queried name that equals no entry's name, `GetUnitAndType`
returns `("-", "-")` whether or not the table holds an entry named `*`; only when the
queried name itself is `*` does it return the unit and type of the first table entry. -/
theorem getUnitAndType_star_is_on_the_query (name : String) (table : List AgentTelemetryMetric)
    (h : ∀ e ∈ table, e.Name ≠ name) :
    (name ≠ "*" → GetUnitAndType name table = ("-", "-")) ∧
    (name = "*" → ∀ e rest, table = e :: rest → GetUnitAndType name table = (e.Unit, e.Type_)) ∧
    (table = [] → GetUnitAndType name table = ("-", "-")) := by
  have key := getUnitAndType_unmatched name table h
  refine ⟨?_, ?_, ?_⟩
  · intro hs
    rw [key, if_neg hs]
  · intro hs e rest ht
    rw [key, if_pos hs, ht]
    rfl
  · intro ht
    rw [ht]
    rfl

theorem getUnitAndType_star_is_on_the_query_witness :
    (∀ e ∈ [({ Name := "consul.raft.apply", Unit := "ms", Type_ := "timer" } : AgentTelemetryMetric)],
      e.Name ≠ "*") ∧
    GetUnitAndType "*" [{ Name := "consul.raft.apply", Unit := "ms", Type_ := "timer" }] =
      ("ms", "timer") :=
  ⟨by decide,
    (getUnitAndType_star_is_on_the_query "*"
      [{ Name := "consul.raft.apply", Unit := "ms", Type_ := "timer" }] (by decide)).2.1 rfl _ _ rfl⟩

/-- C12: for a queried name other than `*`, `GetUnitAndType` returns the unit and type of
the first table entry whose name equals the queried name, and `("-", "-")` when there is
none. -/
theorem getUnitAndType_exact_match (name : String) (table : List AgentTelemetryMetric)
    (h : name ≠ "*") :
    GetUnitAndType name table =
      match table.find? (fun e => decide (e.Name = name)) with
      | some e => (e.Unit, e.Type_)
      | none => ("-", "-") := by
  induction table with
  | nil => rfl
  | cons e rest ih =>
    unfold GetUnitAndType
    by_cases he : e.Name = name
    · simp [he, List.find?]
    · simp only [he, if_false, h, List.find?, decide_False]
      exact ih

theorem getUnitAndType_exact_match_witness :
    ("consul.raft.apply" : String) ≠ "*" ∧
    GetUnitAndType "consul.raft.apply"
      [{ Name := "consul.raft.commitTime", Unit := "ms", Type_ := "timer" },
       { Name := "consul.raft.apply", Unit := "raft transactions / interval", Type_ := "counter" },
       { Name := "consul.raft.apply", Unit := "other", Type_ := "gauge" }] =
      ("raft transactions / interval", "counter") ∧
    GetUnitAndType "consul.raft.applied" [{ Name := "consul.raft.apply", Unit := "x", Type_ := "y" }] =
      ("-", "-") :=
  ⟨by decide,
    (getUnitAndType_exact_match "consul.raft.apply" _ (by decide)).trans (by decide),
    by decide⟩

/-! ## Extracted entries and the order of the rows -/

theorem extract_eq_some (m : Metric) (p : String) (r : List Extracted)
    (hr : m.ExtractMetricValueByName p = some r) :
    ∃ regex, regexpCompile (".*" ++ p) = some regex ∧ r = extractWith regex m := by
  unfold Metric.ExtractMetricValueByName at hr
  cases hc : regexpCompile (".*" ++ p) with
  | none => rw [hc] at hr; exact absurd hr (by simp)
  | some regex =>
    rw [hc] at hr
    simp only [Option.some.injEq] at hr
    exact ⟨regex, rfl, hr.symm⟩

theorem mem_extractWith (regex : Regex) (m : Metric) (e : Extracted) (he : e ∈ extractWith regex m) :
    (∃ g ∈ m.Gauges, regex.matchString g.Name = true ∧ e = gaugeMatch m g) ∨
    (∃ x ∈ m.Points, regex.matchString x.Name = true ∧ e = pointMatch m x) ∨
    (∃ c ∈ m.Counters, regex.matchString c.Name = true ∧ e = counterMatch m c) ∨
    (∃ s ∈ m.Samples, regex.matchString s.Name = true ∧ e = sampleMatch m s) := by
  simp only [extractWith, List.mem_append, List.mem_map, List.mem_filter] at he
  rcases he with ((⟨g, ⟨hg, hm⟩, rfl⟩ | ⟨g, ⟨hg, hm⟩, rfl⟩) | ⟨g, ⟨hg, hm⟩, rfl⟩) | ⟨g, ⟨hg, hm⟩, rfl⟩
  · exact Or.inl ⟨g, hg, hm, rfl⟩
  · exact Or.inr (Or.inl ⟨g, hg, hm, rfl⟩)
  · exact Or.inr (Or.inr (Or.inl ⟨g, hg, hm, rfl⟩))
  · exact Or.inr (Or.inr (Or.inr ⟨g, hg, hm, rfl⟩))

/-- C13: every entry returned by `ExtractMetricValueByName` comes from a gauge, a point, a
counter or a sample of the snapshot; it carries that metric's own name and labels, and as
its value the gauge's `Value`, the point's `Points`, the counter's `Count` or the sample's
`Mean`. -/
theorem extract_entry_fields (m : Metric) (p : String) (r : List Extracted)
    (hr : m.ExtractMetricValueByName p = some r) :
    ∀ e ∈ r,
      (∃ g ∈ m.Gauges, e.name = g.Name ∧ e.labels = g.Labels ∧ e.value = Value.float g.Value) ∨
      (∃ x ∈ m.Points, e.name = x.Name ∧ e.labels = x.Labels ∧ e.value = Value.float x.Points) ∨
      (∃ c ∈ m.Counters, e.name = c.Name ∧ e.labels = c.Labels ∧ e.value = Value.int c.Count) ∨
      (∃ s ∈ m.Samples, e.name = s.Name ∧ e.labels = s.Labels ∧ e.value = Value.float s.Mean) := by
  obtain ⟨regex, -, rfl⟩ := extract_eq_some m p r hr
  intro e he
  rcases mem_extractWith regex m e he with ⟨g, hg, -, rfl⟩ | ⟨g, hg, -, rfl⟩ | ⟨g, hg, -, rfl⟩ |
    ⟨g, hg, -, rfl⟩
  · exact Or.inl ⟨g, hg, rfl, rfl, rfl⟩
  · exact Or.inr (Or.inl ⟨g, hg, rfl, rfl, rfl⟩)
  · exact Or.inr (Or.inr (Or.inl ⟨g, hg, rfl, rfl, rfl⟩))
  · exact Or.inr (Or.inr (Or.inr ⟨g, hg, rfl, rfl, rfl⟩))

theorem extract_entry_fields_witness :
    memSnapshot.ExtractMetricValueByName "mem" = some memExtracted ∧
    ∀ e ∈ memExtracted,
      (∃ g ∈ memSnapshot.Gauges,
        e.name = g.Name ∧ e.labels = g.Labels ∧ e.value = Value.float g.Value) ∨
      (∃ x ∈ memSnapshot.Points,
        e.name = x.Name ∧ e.labels = x.Labels ∧ e.value = Value.float x.Points) ∨
      (∃ c ∈ memSnapshot.Counters,
        e.name = c.Name ∧ e.labels = c.Labels ∧ e.value = Value.int c.Count) ∨
      (∃ s ∈ memSnapshot.Samples,
        e.name = s.Name ∧ e.labels = s.Labels ∧ e.value = Value.float s.Mean) :=
  ⟨by decide, extract_entry_fields memSnapshot "mem" memExtracted (by decide)⟩

theorem splitOn_no_sep (d : Char) (a rest : List Char) (h : ∀ c ∈ a, c ≠ d) :
    splitOn d (a ++ d :: rest) = a :: splitOn d rest := by
  induction a with
  | nil => simp [splitOn_cons]
  | cons c cs ih =>
    have hc : c ≠ d := h c (List.mem_cons_self _ _)
    rw [List.cons_append, splitOn_cons, if_neg hc, ih (fun x hx => h x (List.mem_cons_of_mem _ hx))]

theorem splitOn_last (d : Char) (a : List Char) (h : ∀ c ∈ a, c ≠ d) :
    splitOn d (a ++ [d]) = [a, []] := by
  rw [splitOn_no_sep d a [] h]
  rfl

/-- The fields of a row whose six texts are free of the separator. -/
theorem splitOn_mkRow (timestamp name metricType unit value labels : String)
    (h1 : ∀ c ∈ timestamp.data, c ≠ sep) (h2 : ∀ c ∈ name.data, c ≠ sep)
    (h3 : ∀ c ∈ metricType.data, c ≠ sep) (h4 : ∀ c ∈ unit.data, c ≠ sep)
    (h5 : ∀ c ∈ value.data, c ≠ sep) (h6 : ∀ c ∈ labels.data, c ≠ sep) :
    splitOn sep (mkRow timestamp name metricType unit value labels).data =
      [timestamp.data, name.data, metricType.data, unit.data, value.data, labels.data, []] := by
  simp only [mkRow, List.append_assoc, List.cons_append]
  rw [splitOn_no_sep sep _ _ h1, splitOn_no_sep sep _ _ h2, splitOn_no_sep sep _ _ h3,
    splitOn_no_sep sep _ _ h4, splitOn_no_sep sep _ _ h5, splitOn_last sep _ h6]

theorem rowFor_eq_mkRow (metricType unit : String) (info : Extracted) (row : String)
    (h : rowFor metricType unit info = Except.ok row) :
    ∃ v l, row = mkRow info.timestamp info.name metricType unit v l := by
  unfold rowFor at h
  split at h
  · split at h
    · exact absurd h (by simp)
    · injection h with h
      exact ⟨_, _, h.symm⟩
  · injection h with h
    exact ⟨_, _, h.symm⟩

/-- C14: every entry returned by `ExtractMetricValueByName` carries the `Timestamp` of the
snapshot it was extracted from, and the row `GetMetricValues` builds for it is written
with that timestamp as its first field. -/
theorem extract_entry_timestamp (m : Metric) (p : String) (r : List Extracted)
    (hr : m.ExtractMetricValueByName p = some r) :
    ∀ e ∈ r, e.timestamp = m.Timestamp ∧
      ∀ metricType unit row, rowFor metricType unit e = Except.ok row →
        (∃ v l, row = mkRow m.Timestamp e.name metricType unit v l) ∧
        ((∀ c ∈ m.Timestamp.data, c ≠ sep) →
          (splitOn sep row.data).head? = some m.Timestamp.data) := by
  obtain ⟨regex, -, rfl⟩ := extract_eq_some m p r hr
  intro e he
  have hts : e.timestamp = m.Timestamp := by
    rcases mem_extractWith regex m e he with ⟨g, -, -, rfl⟩ | ⟨g, -, -, rfl⟩ | ⟨g, -, -, rfl⟩ |
      ⟨g, -, -, rfl⟩ <;> rfl
  refine ⟨hts, ?_⟩
  intro metricType unit row hrow
  obtain ⟨v, l, hv⟩ := rowFor_eq_mkRow metricType unit e row hrow
  rw [hts] at hv
  refine ⟨⟨v, l, hv⟩, ?_⟩
  intro hsep
  rw [hv]
  simp only [mkRow, List.append_assoc, List.cons_append]
  rw [splitOn_no_sep sep _ _ hsep]
  rfl

theorem extract_entry_timestamp_witness :
    memSnapshot.ExtractMetricValueByName "mem" = some memExtracted ∧
    ∀ e ∈ memExtracted, e.timestamp = memSnapshot.Timestamp ∧
      ∀ metricType unit row, rowFor metricType unit e = Except.ok row →
        (∃ v l, row = mkRow memSnapshot.Timestamp e.name metricType unit v l) ∧
        ((∀ c ∈ memSnapshot.Timestamp.data, c ≠ sep) →
          (splitOn sep row.data).head? = some memSnapshot.Timestamp.data) :=
  ⟨by decide, extract_entry_timestamp memSnapshot "mem" memExtracted (by decide)⟩

theorem appendRows_forall₂ (metricType unit : String) (data : List Extracted)
    (acc result : List String) (h : appendRows metricType unit data acc = Except.ok result) :
    ∃ blk, result = acc ++ blk ∧
      List.Forall₂ (fun info row => rowFor metricType unit info = Except.ok row) data blk := by
  induction data generalizing acc with
  | nil =>
    simp only [appendRows] at h
    injection h with h
    exact ⟨[], by simp [h], List.Forall₂.nil⟩
  | cons info rest ih =>
    simp only [appendRows] at h
    cases hrow : rowFor metricType unit info with
    | error e => rw [hrow] at h; exact absurd h (by simp)
    | ok row =>
      rw [hrow] at h
      obtain ⟨blk, hblk, hall⟩ := ih (acc ++ [row]) h
      exact ⟨row :: blk, by simp [hblk], List.Forall₂.cons hrow hall⟩

theorem collectRows_forall₂ (name metricType unit : String) (ms : List Metric)
    (acc result : List String)
    (h : collectRows name metricType unit ms acc = Except.ok result) :
    ∃ blocks : List (List String), result = acc ++ blocks.flatten ∧
      List.Forall₂ (fun m blk => ∃ regex, regexpCompile (".*" ++ name) = some regex ∧
        List.Forall₂ (fun info row => rowFor metricType unit info = Except.ok row)
          (extractWith regex m) blk) ms blocks := by
  induction ms generalizing acc with
  | nil =>
    simp only [collectRows] at h
    injection h with h
    exact ⟨[], by simp [h], List.Forall₂.nil⟩
  | cons m rest ih =>
    simp only [collectRows] at h
    cases hex : m.ExtractMetricValueByName name with
    | none => rw [hex] at h; exact absurd h (by simp)
    | some data =>
      rw [hex] at h
      simp only [] at h
      cases happ : appendRows metricType unit data acc with
      | error e => rw [happ] at h; exact absurd h (by simp)
      | ok result2 =>
        rw [happ] at h
        obtain ⟨blk, hblk, hall⟩ := appendRows_forall₂ _ _ _ _ _ happ
        obtain ⟨blocks, hblocks, hall2⟩ := ih result2 h
        obtain ⟨regex, hc, hdata⟩ := extract_eq_some m name data hex
        refine ⟨blk :: blocks, by rw [hblocks, hblk]; simp, List.Forall₂.cons ⟨regex, hc, ?_⟩ hall2⟩
        rw [← hdata]
        exact hall

/-- C15: with the sort-by-value flag unset, the rows handed to the renderer are the header
followed by one block of rows per snapshot, the blocks in the order of the series; the
block of a snapshot holds one row per extracted entry, in the order of the entries:
matching gauges, then points, then counters, then samples, each in stored order. -/
theorem getMetricValues_rows_in_series_order (b : Debug) (fetch : TelemetryFetch) (name : String)
    (validate : Bool) (rows : List String)
    (h : GetMetricValuesRows b fetch name validate false = Except.ok rows) :
    (∃ stringInfo table, ∃ blocks : List (List String),
      fetch = Except.ok (stringInfo, table) ∧
      rows = headerRow :: blocks.flatten ∧
      List.Forall₂ (fun m blk => ∃ regex, regexpCompile (".*" ++ name) = some regex ∧
        List.Forall₂ (fun info row =>
            rowFor (GetUnitAndType name table).2 (GetUnitAndType name table).1 info = Except.ok row)
          (extractWith regex m) blk) b.Metrics.Metrics blocks) ∧
    (∀ regex m, extractWith regex m =
      ((m.Gauges.filter fun g => regex.matchString g.Name).map (gaugeMatch m)) ++
      ((m.Points.filter fun x => regex.matchString x.Name).map (pointMatch m)) ++
      ((m.Counters.filter fun c => regex.matchString c.Name).map (counterMatch m)) ++
      ((m.Samples.filter fun s => regex.matchString s.Name).map (sampleMatch m))) := by
  refine ⟨?_, fun _ _ => rfl⟩
  unfold GetMetricValuesRows at h
  cases fetch with
  | error e => exact absurd h (by simp)
  | ok p =>
    obtain ⟨stringInfo, telemetryInfo⟩ := p
    simp only [] at h
    cases hv : (if validate = true then validateName name name stringInfo else Except.ok ()) with
    | error e => rw [hv] at h; exact absurd h (by simp)
    | ok u =>
      rw [hv] at h
      simp only [] at h
      cases hc : collectRows name (GetUnitAndType name telemetryInfo).2
          (GetUnitAndType name telemetryInfo).1 b.Metrics.Metrics [headerRow] with
      | error e => rw [hc] at h; exact absurd h (by simp)
      | ok result =>
        rw [hc] at h
        simp only [Bool.false_eq_true, if_false, Except.ok.injEq] at h
        subst h
        obtain ⟨blocks, hblocks, hall⟩ := collectRows_forall₂ _ _ _ _ _ _ hc
        exact ⟨stringInfo, telemetryInfo, blocks, rfl, by simpa using hblocks, hall⟩

theorem getMetricValues_rows_in_series_order_witness :
    GetMetricValuesRows orderDebug (Except.ok ("", [])) "mem" false false = Except.ok orderRows ∧
    ((∃ stringInfo table, ∃ blocks : List (List String),
      (Except.ok ("", []) : TelemetryFetch) = Except.ok (stringInfo, table) ∧
      orderRows = headerRow :: blocks.flatten ∧
      List.Forall₂ (fun m blk => ∃ regex, regexpCompile (".*" ++ "mem") = some regex ∧
        List.Forall₂ (fun info row =>
            rowFor (GetUnitAndType "mem" table).2 (GetUnitAndType "mem" table).1 info = Except.ok row)
          (extractWith regex m) blk) orderDebug.Metrics.Metrics blocks) ∧
    (∀ regex m, extractWith regex m =
      ((m.Gauges.filter fun g => regex.matchString g.Name).map (gaugeMatch m)) ++
      ((m.Points.filter fun x => regex.matchString x.Name).map (pointMatch m)) ++
      ((m.Counters.filter fun c => regex.matchString c.Name).map (counterMatch m)) ++
      ((m.Samples.filter fun s => regex.matchString s.Name).map (sampleMatch m)))) :=
  ⟨by decide,
    getMetricValues_rows_in_series_order orderDebug (Except.ok ("", [])) "mem" false orderRows
      (by decide)⟩

theorem collectRows_no_match (name metricType unit : String) (ms : List Metric)
    (acc : List String) (h : ∀ m ∈ ms, m.ExtractMetricValueByName name = some []) :
    collectRows name metricType unit ms acc = Except.ok acc := by
  induction ms with
  | nil => rfl
  | cons m rest ih =>
    simp only [collectRows, h m (List.mem_cons_self _ _), appendRows]
    exact ih (fun x hx => h x (List.mem_cons_of_mem _ hx))

/-- A compiled pattern that matches none of the names of a snapshot extracts nothing. -/
theorem extract_nil_of_no_match (m : Metric) (name : String) (regex : Regex)
    (hc : regexpCompile (".*" ++ name) = some regex)
    (hg : ∀ g ∈ m.Gauges, regex.matchString g.Name = false)
    (hp : ∀ x ∈ m.Points, regex.matchString x.Name = false)
    (hcn : ∀ c ∈ m.Counters, regex.matchString c.Name = false)
    (hs : ∀ s ∈ m.Samples, regex.matchString s.Name = false) :
    m.ExtractMetricValueByName name = some [] := by
  unfold Metric.ExtractMetricValueByName
  rw [hc]
  simp only [extractWith]
  have h1 : m.Gauges.filter (fun g => regex.matchString g.Name) = [] :=
    List.filter_eq_nil_iff.mpr (fun g hg' => by simp [hg g hg'])
  have h2 : m.Points.filter (fun g => regex.matchString g.Name) = [] :=
    List.filter_eq_nil_iff.mpr (fun g hg' => by simp [hp g hg'])
  have h3 : m.Counters.filter (fun g => regex.matchString g.Name) = [] :=
    List.filter_eq_nil_iff.mpr (fun g hg' => by simp [hcn g hg'])
  have h4 : m.Samples.filter (fun g => regex.matchString g.Name) = [] :=
    List.filter_eq_nil_iff.mpr (fun g hg' => by simp [hs g hg'])
  rw [h1, h2, h3, h4]
  rfl

/-- C16: when the telemetry table was fetched, validation passed or was skipped, and the
extractor finds no entry in any snapshot, the row list is the header row alone, with or
without the sort-by-value flag, and `GetMetricValues` returns what the renderer makes of
it, without an error of its own. -/
theorem getMetricValues_no_match_header_only (columnize : List String → Except String String)
    (b : Debug) (stringInfo : String) (table : List AgentTelemetryMetric) (name : String)
    (validate byValue : Bool)
    (hval : validate = false ∨ validateName name name stringInfo = Except.ok ())
    (hnone : ∀ m ∈ b.Metrics.Metrics, m.ExtractMetricValueByName name = some []) :
    GetMetricValuesRows b (Except.ok (stringInfo, table)) name validate byValue =
      Except.ok [headerRow] ∧
    headerRow = "Timestamp\x1fMetric\x1fType\x1fUnit\x1fValue\x1fLabels\x1f" ∧
    ∀ output, columnize [headerRow] = Except.ok output →
      GetMetricValues columnize b (Except.ok (stringInfo, table)) name validate byValue =
        Except.ok output := by
  have hrows : GetMetricValuesRows b (Except.ok (stringInfo, table)) name validate byValue =
      Except.ok [headerRow] := by
    unfold GetMetricValuesRows
    have hv : (if validate = true then validateName name name stringInfo else Except.ok ())
        = Except.ok () := by
      rcases hval with h | h
      · simp [h]
      · simp [h]
    simp only [hv, collectRows_no_match _ _ _ _ _ hnone]
    cases byValue <;> rfl
  refine ⟨hrows, by decide, ?_⟩
  intro output hout
  unfold GetMetricValues
  rw [hrows]
  simp only [hout]

theorem getMetricValues_no_match_header_only_witness :
    ((false = false) ∨ validateName "zzz" "zzz" "" = Except.ok ()) ∧
    (∀ m ∈ (Debug.mk (Metrics.mk [memSnapshot, underscoreSnapshot])).Metrics.Metrics,
      m.ExtractMetricValueByName "zzz" = some []) ∧
    GetMetricValuesRows (Debug.mk (Metrics.mk [memSnapshot, underscoreSnapshot]))
        (Except.ok ("", [])) "zzz" false true = Except.ok [headerRow] :=
  ⟨Or.inl rfl, by decide,
    (getMetricValues_no_match_header_only (fun _ => Except.ok "")
      (Debug.mk (Metrics.mk [memSnapshot, underscoreSnapshot])) "" [] "zzz" false true
      (Or.inl rfl) (by decide)).1⟩

/-- C17: whatever the declared unit, the row of an entry whose value is nil is written
with the literal `<nil>` as its value and `-` as its labels, and no conversion is tried;
when the timestamp, name, type and unit are free of the separator these are the fifth and
sixth fields of the row. -/
theorem rowFor_nil_value (metricType unit : String) (info : Extracted)
    (h : info.value = Value.nil) :
    rowFor metricType unit info =
      Except.ok (mkRow info.timestamp info.name metricType unit "<nil>" "-") ∧
    ((∀ c ∈ info.timestamp.data, c ≠ sep) → (∀ c ∈ info.name.data, c ≠ sep) →
      (∀ c ∈ metricType.data, c ≠ sep) → (∀ c ∈ unit.data, c ≠ sep) →
      splitOn sep (mkRow info.timestamp info.name metricType unit "<nil>" "-").data =
        [info.timestamp.data, info.name.data, metricType.data, unit.data, "<nil>".data,
          "-".data, []]) := by
  constructor
  · unfold rowFor
    simp [h]
  · intro h1 h2 h3 h4
    exact splitOn_mkRow _ _ _ _ _ _ h1 h2 h3 h4 (by decide) (by decide)

theorem rowFor_nil_value_witness :
    nilEntry.value = Value.nil ∧
    rowFor "gauge" "ns" nilEntry =
      Except.ok (mkRow "t1" "consul.runtime.total_gc_pause_ns" "gauge" "ns" "<nil>" "-") :=
  ⟨rfl, (rowFor_nil_value "gauge" "ns" nilEntry rfl).1⟩

theorem insertBack_total (x : String) (acc : List String) (hx : ∃ k, rowKey x = some k)
    (hacc : ∀ r ∈ acc, ∃ k, rowKey r = some k) :
    ∃ l, insertBack x acc = some l ∧ ∀ r ∈ l, ∃ k, rowKey r = some k := by
  induction acc with
  | nil =>
    refine ⟨[x], rfl, ?_⟩
    intro r hr
    rw [List.mem_singleton.mp hr]
    exact hx
  | cons y ys ih =>
    obtain ⟨kx, hkx⟩ := hx
    obtain ⟨ky, hky⟩ := hacc y (List.mem_cons_self _ _)
    obtain ⟨l, hl, hall⟩ := ih (fun r hr => hacc r (List.mem_cons_of_mem _ hr))
    unfold insertBack
    simp only [ByValue.Less, hkx, hky]
    cases kx.gt ky
    · refine ⟨x :: y :: ys, rfl, ?_⟩
      intro r hr
      rcases List.mem_cons.mp hr with rfl | hr
      · exact ⟨kx, hkx⟩
      · exact hacc r hr
    · refine ⟨y :: l, by simp [hl], ?_⟩
      intro r hr
      rcases List.mem_cons.mp hr with rfl | hr
      · exact ⟨ky, hky⟩
      · exact hall r hr

theorem sortLoop_total (xs acc : List String) (hxs : ∀ r ∈ xs, ∃ k, rowKey r = some k)
    (hacc : ∀ r ∈ acc, ∃ k, rowKey r = some k) :
    ∃ out, sortLoop xs acc = some out := by
  induction xs generalizing acc with
  | nil => exact ⟨acc.reverse, rfl⟩
  | cons x xs ih =>
    obtain ⟨l, hl, hall⟩ := insertBack_total x acc (hxs x (List.mem_cons_self _ _)) hacc
    obtain ⟨out, hout⟩ := ih l (fun r hr => hxs r (List.mem_cons_of_mem _ hr)) hall
    exact ⟨out, by simp only [sortLoop, hl, hout]⟩

/-- Every row written with the six-field format splits into at least seven fields. -/
theorem splitOn_mkRow_length (timestamp name metricType unit value labels : String) :
    7 ≤ (splitOn sep (mkRow timestamp name metricType unit value labels).data).length := by
  simp only [mkRow]
  have h1 := splitOn_append_sep_length sep timestamp.data (name.data ++ sep :: metricType.data ++
    sep :: unit.data ++ sep :: value.data ++ sep :: labels.data ++ [sep])
  have h2 := splitOn_append_sep_length sep name.data (metricType.data ++
    sep :: unit.data ++ sep :: value.data ++ sep :: labels.data ++ [sep])
  have h3 := splitOn_append_sep_length sep metricType.data
    (unit.data ++ sep :: value.data ++ sep :: labels.data ++ [sep])
  have h4 := splitOn_append_sep_length sep unit.data (value.data ++ sep :: labels.data ++ [sep])
  have h5 := splitOn_append_sep_length sep value.data (labels.data ++ [sep])
  have h6 := splitOn_append_sep_length sep labels.data []
  have h7 := splitOn_length_pos sep []
  simp only [List.append_assoc, List.cons_append, List.nil_append] at h1 h2 h3 h4 h5 h6 h7 ⊢
  omega

theorem appendRows_rows (metricType unit : String) (data : List Extracted)
    (acc result : List String) (h : appendRows metricType unit data acc = Except.ok result) :
    ∃ new, result = acc ++ new ∧
      ∀ r ∈ new, ∃ ts n v l, r = mkRow ts n metricType unit v l := by
  induction data generalizing acc with
  | nil =>
    simp only [appendRows] at h
    injection h with h
    exact ⟨[], by simp [h], by simp⟩
  | cons info rest ih =>
    simp only [appendRows] at h
    cases hrow : rowFor metricType unit info with
    | error e => rw [hrow] at h; exact absurd h (by simp)
    | ok row =>
      rw [hrow] at h
      obtain ⟨new, hnew, hall⟩ := ih (acc ++ [row]) h
      refine ⟨row :: new, by simp [hnew], ?_⟩
      intro r hr
      rcases List.mem_cons.mp hr with rfl | hr
      · obtain ⟨v, l, hv⟩ := rowFor_eq_mkRow _ _ _ _ hrow
        exact ⟨_, _, v, l, hv⟩
      · exact hall r hr

theorem collectRows_rows (name metricType unit : String) (ms : List Metric)
    (acc result : List String)
    (h : collectRows name metricType unit ms acc = Except.ok result) :
    ∃ new, result = acc ++ new ∧
      ∀ r ∈ new, ∃ ts n v l, r = mkRow ts n metricType unit v l := by
  induction ms generalizing acc with
  | nil =>
    simp only [collectRows] at h
    injection h with h
    exact ⟨[], by simp [h], by simp⟩
  | cons m rest ih =>
    simp only [collectRows] at h
    cases hex : m.ExtractMetricValueByName name with
    | none => rw [hex] at h; exact absurd h (by simp)
    | some data =>
      rw [hex] at h
      simp only [] at h
      cases happ : appendRows metricType unit data acc with
      | error e => rw [happ] at h; exact absurd h (by simp)
      | ok result2 =>
        rw [happ] at h
        obtain ⟨new1, hnew1, hall1⟩ := appendRows_rows _ _ _ _ _ happ
        obtain ⟨new2, hnew2, hall2⟩ := ih result2 h
        refine ⟨new1 ++ new2, by rw [hnew2, hnew1]; simp, ?_⟩
        intro r hr
        rcases List.mem_append.mp hr with hr | hr
        · exact hall1 r hr
        · exact hall2 r hr

/-- C19: every data row `GetMetricValues` builds is written with the six-field format, so
it splits on the separator into at least seven fields, whatever the texts are; `ByValue.Less`
therefore finds a fifth field in every row and the sorted run never panics. -/
theorem getMetricValues_rows_have_value_field (b : Debug) (fetch : TelemetryFetch)
    (name : String) (validate : Bool) (rows : List String)
    (h : GetMetricValuesRows b fetch name validate false = Except.ok rows) :
    (∀ timestamp metric metricType unit value labels : String,
      5 ≤ (splitOn sep (mkRow timestamp metric metricType unit value labels).data).length) ∧
    (∀ r ∈ rows.drop 1, 5 ≤ (splitOn sep r.data).length) ∧
    (∀ r1 ∈ rows.drop 1, ∀ r2 ∈ rows.drop 1, ∃ less, ByValue.Less r1 r2 = some less) ∧
    (∃ sorted, GetMetricValuesRows b fetch name validate true = Except.ok sorted) := by
  refine ⟨fun ts n t u v l => le_trans (by norm_num) (splitOn_mkRow_length ts n t u v l), ?_⟩
  unfold GetMetricValuesRows at h ⊢
  cases fetch with
  | error e => exact absurd h (by simp)
  | ok p =>
    obtain ⟨stringInfo, telemetryInfo⟩ := p
    simp only [] at h ⊢
    cases hv : (if validate = true then validateName name name stringInfo else Except.ok ()) with
    | error e => rw [hv] at h; exact absurd h (by simp)
    | ok u =>
      rw [hv] at h
      simp only [] at h ⊢
      cases hc : collectRows name (GetUnitAndType name telemetryInfo).2
          (GetUnitAndType name telemetryInfo).1 b.Metrics.Metrics [headerRow] with
      | error e => rw [hc] at h; exact absurd h (by simp)
      | ok result =>
        rw [hc] at h
        simp only [Bool.false_eq_true, if_false, Except.ok.injEq] at h
        subst h
        obtain ⟨new, hnew, hall⟩ := collectRows_rows _ _ _ _ _ _ hc
        subst hnew
        simp only [List.singleton_append, List.drop_succ_cons, List.drop_zero]
        have hlen : ∀ r ∈ new, 5 ≤ (splitOn sep r.data).length := by
          intro r hr
          obtain ⟨ts, n, v, l, rfl⟩ := hall r hr
          have := splitOn_mkRow_length ts n (GetUnitAndType name telemetryInfo).2
            (GetUnitAndType name telemetryInfo).1 v l
          omega
        have hkey : ∀ r ∈ new, ∃ k, rowKey r = some k := by
          intro r hr
          obtain ⟨ts, n, v, l, rfl⟩ := hall r hr
          exact rowKey_mkRow _ _ _ _ _ _
        refine ⟨hlen, ?_, ?_⟩
        · intro r1 h1 r2 h2
          obtain ⟨k1, hk1⟩ := hkey r1 h1
          obtain ⟨k2, hk2⟩ := hkey r2 h2
          exact ⟨k1.gt k2, by simp only [ByValue.Less, hk1, hk2]⟩
        · obtain ⟨out, hout⟩ := sortLoop_total new [] hkey (by simp)
          exact ⟨headerRow :: out, by simp [sortByValue, hout]⟩

theorem getMetricValues_rows_have_value_field_witness :
    GetMetricValuesRows orderDebug (Except.ok ("", [])) "mem" false false = Except.ok orderRows ∧
    (∀ timestamp metric metricType unit value labels : String,
      5 ≤ (splitOn sep (mkRow timestamp metric metricType unit value labels).data).length) ∧
    (∀ r ∈ orderRows.drop 1, 5 ≤ (splitOn sep r.data).length) ∧
    (∀ r1 ∈ orderRows.drop 1, ∀ r2 ∈ orderRows.drop 1, ∃ less, ByValue.Less r1 r2 = some less) ∧
    (∃ sorted, GetMetricValuesRows orderDebug (Except.ok ("", [])) "mem" false true =
      Except.ok sorted) :=
  ⟨by decide,
    getMetricValues_rows_have_value_field orderDebug (Except.ok ("", [])) "mem" false orderRows
      (by decide)⟩

/-! ## The nil converter is out of reach -/

theorem convertToReadableTime_no_panic (v : Value) (u : String) (h : isDurationUnit u) :
    ConvertToReadableTime v u ≠ Except.error GoError.panic := by
  rcases h with rfl | rfl | rfl | rfl
  · have hu : ConvertToReadableTime v "ns" = NanosecondsConverter.Convert v := by
      simp [ConvertToReadableTime]
    rw [hu]
    cases v <;> simp only [NanosecondsConverter.Convert, unsupportedType] <;> first | (split_ifs <;> simp) | simp
  · have hu : ConvertToReadableTime v "ms" = MillisecondsConverter.Convert v := by
      simp [ConvertToReadableTime]
    rw [hu]
    cases v <;> simp only [MillisecondsConverter.Convert, unsupportedType] <;> first | (split_ifs <;> simp) | simp
  · have hu : ConvertToReadableTime v "seconds" = SecondsConverter.Convert v := by
      simp [ConvertToReadableTime]
    rw [hu]
    cases v <;> simp only [SecondsConverter.Convert, unsupportedType] <;> first | (split_ifs <;> simp) | simp
  · have hu : ConvertToReadableTime v "hours" = HoursConverter.Convert v := by
      simp [ConvertToReadableTime]
    rw [hu]
    cases v <;> simp [HoursConverter.Convert, unsupportedType]

theorem convertToReadableTime_panic_iff (v : Value) (u : String) :
    ConvertToReadableTime v u = Except.error GoError.panic ↔ ¬ isDurationUnit u := by
  constructor
  · intro h hd
    exact convertToReadableTime_no_panic v u hd h
  · intro h
    have h1 : u ≠ "ns" := fun e => h (Or.inl e)
    have h2 : u ≠ "ms" := fun e => h (Or.inr (Or.inl e))
    have h3 : u ≠ "seconds" := fun e => h (Or.inr (Or.inr (Or.inl e)))
    have h4 : u ≠ "hours" := fun e => h (Or.inr (Or.inr (Or.inr e)))
    simp [ConvertToReadableTime, h1, h2, h3, h4]

/-- C20: the pattern `^ns$|^ms$|^seconds$|^hours$` compiles and matches a unit exactly when
the unit is `ns`, `ms`, `seconds` or `hours`; `ConvertToReadableTime` runs into its nil
converter exactly for the other units, and the formatter of `GetMetricValues`, which calls
it only after the pattern matched, never does. -/
theorem duration_pattern_guards_converter (u : String) :
    (∃ timeReg, regexpCompile "^ns$|^ms$|^seconds$|^hours$" = some timeReg ∧
      (timeReg.matchString u = true ↔ (u = "ns" ∨ u = "ms" ∨ u = "seconds" ∨ u = "hours"))) ∧
    (∀ v, ConvertToReadableTime v u = Except.error GoError.panic ↔
      ¬ (u = "ns" ∨ u = "ms" ∨ u = "seconds" ∨ u = "hours")) ∧
    (∀ v, renderValue u v ≠ Except.error GoError.panic) ∧
    (∀ metricType info, rowFor metricType u info ≠ Except.error GoError.panic) := by
  have hrender : ∀ v, renderValue u v ≠ Except.error GoError.panic := by
    intro v
    rw [renderValue_eq]
    split_ifs with hd
    · exact convertToReadableTime_no_panic v u hd
    · simp
    · simp
    · simp
  refine ⟨⟨_, timeReg_compile, ?_⟩, fun v => convertToReadableTime_panic_iff v u, hrender, ?_⟩
  · simp only [Regex.matchString, searchFrom_alt, Bool.or_eq_true]
    have h := fun l => matchString_anchored l u
    simp only [Regex.matchString] at h
    simp only [h, string_eq_of_data]
  · intro metricType info
    unfold rowFor
    split_ifs
    · cases hr : renderValue u info.value with
      | error e =>
        simp only []
        intro h
        injection h with h
        rw [h] at hr
        exact hrender _ hr
      | ok v => simp
    · simp

/-! ## Percentages -/

theorem digitChar_mem (d : Nat) (h : d < 10) : Nat.digitChar d ∈ decimalChars := by
  interval_cases d <;> decide

theorem digitChar_value (d : Nat) (h : d < 10) : (Nat.digitChar d).toNat - '0'.toNat = d := by
  interval_cases d <;> decide

theorem decimalChars_isDigit : ∀ c ∈ decimalChars, c.isDigit = true := by decide

theorem decimalChars_lower : ∀ c ∈ decimalChars,
    c.toLower ≠ 'n' ∧ c.toLower ≠ 'i' ∧ c ≠ '-' ∧ c ≠ '+' ∧ c ≠ '.' ∧
      c.toLower ≠ '+' ∧ c.toLower ≠ '-' := by decide

theorem digitsValue_append_singleton (ds : List Char) (c : Char) :
    digitsValue (ds ++ [c]) = digitsValue ds * 10 + (c.toNat - '0'.toNat) := by
  simp [digitsValue, List.foldl_append]

theorem digitsValue_singleton (c : Char) : digitsValue [c] = c.toNat - '0'.toNat := by
  simp [digitsValue]

/-- The digits written for a natural number are decimal digit characters, at least one,
and read back as the number. -/
theorem natDigitsFuel_spec (fuel n : Nat) (acc : List Char) (h : n < fuel) :
    ∃ ds, natDigitsFuel fuel n acc = ds ++ acc ∧ ds ≠ [] ∧ (∀ c ∈ ds, c ∈ decimalChars) ∧
      digitsValue ds = n := by
  induction fuel generalizing n acc with
  | zero => omega
  | succ f ih =>
    unfold natDigitsFuel
    by_cases h10 : n < 10
    · simp only [h10, if_true]
      refine ⟨[Nat.digitChar n], rfl, by simp, ?_, ?_⟩
      · intro c hc
        rw [List.mem_singleton.mp hc]
        exact digitChar_mem n h10
      · rw [digitsValue_singleton, digitChar_value n h10]
    · simp only [h10, if_false]
      have hlt : n / 10 < f := by omega
      obtain ⟨ds, hds, hne, hall, hval⟩ := ih (n / 10) (Nat.digitChar (n % 10) :: acc) hlt
      have hmod : n % 10 < 10 := Nat.mod_lt _ (by norm_num)
      refine ⟨ds ++ [Nat.digitChar (n % 10)], by rw [hds]; simp, by simp, ?_, ?_⟩
      · intro c hc
        rcases List.mem_append.mp hc with hc | hc
        · exact hall c hc
        · rw [List.mem_singleton.mp hc]
          exact digitChar_mem _ hmod
      · rw [digitsValue_append_singleton, hval, digitChar_value _ hmod]
        omega

theorem natDigits_spec (n : Nat) :
    natDigits n ≠ [] ∧ (∀ c ∈ natDigits n, c ∈ decimalChars) ∧ digitsValue (natDigits n) = n := by
  obtain ⟨ds, hds, hne, hall, hval⟩ := natDigitsFuel_spec (n + 1) n [] (Nat.lt_succ_self n)
  have : natDigits n = ds := by simp [natDigits, hds]
  rw [this]
  exact ⟨hne, hall, hval⟩

theorem decimalChars_plain : ∀ c ∈ decimalChars,
    c ≠ '_' ∧ c.toLower ≠ 'x' ∧ c.toLower ≠ 'e' ∧ c.toLower ≠ 'p' := by decide

theorem scanDigits_append (hex : Bool) (ds rest : List Char) (h : ∀ c ∈ ds, c ∈ decimalChars)
    (hrest : scanDigits hex rest = ([], rest)) : scanDigits hex (ds ++ rest) = (ds, rest) := by
  induction ds with
  | nil => simpa using hrest
  | cons c cs ih =>
    have hc : c.isDigit = true := decimalChars_isDigit c (h c (List.mem_cons_self _ _))
    have hu : c ≠ '_' := (decimalChars_plain c (h c (List.mem_cons_self _ _))).1
    have hcs := ih (fun x hx => h x (List.mem_cons_of_mem _ hx))
    simp [scanDigits, hc, hu, hcs]

theorem scanDigits_digits (hex : Bool) (ds : List Char) (h : ∀ c ∈ ds, c ∈ decimalChars) :
    scanDigits hex ds = (ds, []) := by
  have := scanDigits_append hex ds [] h rfl
  simpa using this

theorem hexPrefix_digits (ds : List Char) (h : ∀ c ∈ ds.take 2, c.toLower ≠ 'x') :
    hexPrefix ds = false := by
  unfold hexPrefix
  split
  · rename_i c _ _
    have := h c (by simp)
    simpa using this
  · rfl

theorem scanDigits_stop (c : Char) (cs : List Char) (h1 : c ≠ '_') (h2 : c.isDigit = false) :
    scanDigits false (c :: cs) = ([], c :: cs) := by
  simp [scanDigits, h1, h2]

/-- The exponent after the letter `e`: a sign and digits. -/
theorem readExponent_signed (sg : Char) (ed : List Char) (hsg : sg = '+' ∨ sg = '-')
    (hne : ed ≠ []) (hed : ∀ c ∈ ed, c ∈ decimalChars) :
    readExponent (sg :: ed) =
      some (if sg = '-' then -(expValue ed : Int) else (expValue ed : Int)) := by
  have hspan := scanDigits_digits false ed hed
  cases ed with
  | nil => exact absurd rfl hne
  | cons c cs =>
    have hc : c.isDigit = true := decimalChars_isDigit c (hed c (List.mem_cons_self _ _))
    unfold readExponent
    rcases hsg with rfl | rfl
    · simp [hspan, hc]
    · simp [hspan, hc]

/-- The number read from a decimal mantissa: digits, then possibly a point and digits. -/
theorem readNumber_decimal (neg : Bool) (ip fp : List Char) (dot : Bool)
    (hip : ∀ c ∈ ip, c ∈ decimalChars) (hfp : ∀ c ∈ fp, c ∈ decimalChars) (hne : ip ≠ [])
    (hdot : dot = false → fp = []) :
    readNumber neg false (ip ++ (if dot then '.' :: fp else [])) =
      roundToFloat neg (digitsValue (ip ++ fp)) (10 ^ fp.length) := by
  unfold readNumber
  cases dot with
  | false =>
    have hfp0 := hdot rfl
    subst hfp0
    simp [scanDigits_digits false ip hip, hne]
  | true =>
    have h1 : scanDigits false (ip ++ '.' :: fp) = (ip, '.' :: fp) :=
      scanDigits_append false ip _ hip (scanDigits_stop '.' fp (by decide) (by decide))
    simp [h1, scanDigits_digits false fp hfp, hne]

/-- The number read from a decimal mantissa followed by a signed exponent. -/
theorem readNumber_decimal_exp (neg : Bool) (ip fp : List Char) (dot : Bool) (sg : Char)
    (ed : List Char) (hip : ∀ c ∈ ip, c ∈ decimalChars) (hfp : ∀ c ∈ fp, c ∈ decimalChars)
    (hne : ip ≠ []) (hdot : dot = false → fp = []) (hsg : sg = '+' ∨ sg = '-')
    (hed0 : ed ≠ []) (hed : ∀ c ∈ ed, c ∈ decimalChars) :
    readNumber neg false (ip ++ (if dot then '.' :: fp else []) ++ 'e' :: sg :: ed) =
      roundToFloat neg
        (digitsValue (ip ++ fp) *
          10 ^ ((if sg = '-' then -(expValue ed : Int) else (expValue ed : Int)) -
            (fp.length : Int)).toNat)
        (10 ^ (-((if sg = '-' then -(expValue ed : Int) else (expValue ed : Int)) -
            (fp.length : Int))).toNat) := by
  have hexp := readExponent_signed sg ed hsg hed0 hed
  have hstop : scanDigits false ('e' :: sg :: ed) = ([], 'e' :: sg :: ed) :=
    scanDigits_stop 'e' _ (by decide) (by decide)
  unfold readNumber
  cases dot with
  | false =>
    have hfp0 := hdot rfl
    subst hfp0
    have h1 : scanDigits false (ip ++ 'e' :: sg :: ed) = (ip, 'e' :: sg :: ed) :=
      scanDigits_append false ip _ hip hstop
    simp [h1, hne, hexp]
  | true =>
    have h1 : scanDigits false (ip ++ '.' :: (fp ++ 'e' :: sg :: ed)) =
        (ip, '.' :: (fp ++ 'e' :: sg :: ed)) :=
      scanDigits_append false ip _ hip (scanDigits_stop '.' _ (by decide) (by decide))
    have h2 : scanDigits false (fp ++ 'e' :: sg :: ed) = (fp, 'e' :: sg :: ed) :=
      scanDigits_append false fp _ hfp hstop
    simp [h1, h2, hne, hexp]

/-- A text without underscores and without the letter `x` that starts, after an optional
minus sign, with a digit is read as a decimal numeral. -/
theorem parseFloat_signed (neg : Bool) (c0 : Char) (rest : List Char) (hc0 : c0 ∈ decimalChars)
    (hx : ∀ c ∈ c0 :: rest, c ≠ '_' ∧ c.toLower ≠ 'x') :
    parseFloat ((if neg then ['-'] else []) ++ c0 :: rest) = readNumber neg false (c0 :: rest) := by
  obtain ⟨h1, h2, h3, h4, h5, h6, h7⟩ := decimalChars_lower c0 hc0
  have hhex : hexPrefix (c0 :: rest) = false :=
    hexPrefix_digits _ (fun c hc => (hx c (List.mem_of_mem_take hc)).2)
  have hus : '_' ∉ c0 :: rest := fun hm => (hx _ hm).1 rfl
  cases neg with
  | false =>
    have hsp : parseSpecial (c0 :: rest) = none := by
      simp [parseSpecial, h1, h2, h3, h4, h6, h7]
    simp only [Bool.false_eq_true, if_false, List.nil_append]
    unfold parseFloat
    rw [hsp]
    simp [h3, h4, hhex, hus]
  | true =>
    have hsp : parseSpecial ('-' :: c0 :: rest) = none := by
      simp [parseSpecial, h1, h2, h3, h4, h6, h7]
    have hus2 : '_' ∉ '-' :: c0 :: rest := by
      intro hm
      rcases List.mem_cons.mp hm with hm | hm
      · exact absurd hm (by decide)
      · exact hus hm
    simp only [if_true, List.singleton_append]
    unfold parseFloat
    rw [hsp]
    simp [hhex, hus2]

/-- A string of decimal digits, with or without a minus sign in front, parses to the
binary64 nearest to the integer it writes. -/
theorem parseFloat_digits (ds : List Char) (hne : ds ≠ []) (h : ∀ c ∈ ds, c ∈ decimalChars) :
    parseFloat ds = roundToFloat false (digitsValue ds) 1 ∧
    parseFloat ('-' :: ds) = roundToFloat true (digitsValue ds) 1 := by
  have hx : ∀ c ∈ ds, c ≠ '_' ∧ c.toLower ≠ 'x' :=
    fun c hc => ⟨(decimalChars_plain c (h c hc)).1, (decimalChars_plain c (h c hc)).2.1⟩
  have hnum := fun neg => readNumber_decimal neg ds [] false h (by simp) hne (fun _ => rfl)
  simp only [Bool.false_eq_true, if_false, List.append_nil, List.length_nil, pow_zero] at hnum
  cases ds with
  | nil => exact absurd rfl hne
  | cons c cs =>
    have h0 := h c (List.mem_cons_self _ _)
    constructor
    · have := parseFloat_signed false c cs h0 hx
      simp only [Bool.false_eq_true, if_false, List.nil_append] at this
      rw [this, hnum]
    · have := parseFloat_signed true c cs h0 hx
      simp only [if_true, List.singleton_append] at this
      rw [this, hnum]

theorem parseFloat_fmtInt (n : Int) : parseFloat (fmtInt n) = Float64.ofInt n := by
  obtain ⟨hne, hall, hval⟩ := natDigits_spec n.natAbs
  obtain ⟨hp, hm⟩ := parseFloat_digits (natDigits n.natAbs) hne hall
  unfold fmtInt Float64.ofInt
  by_cases hn : n < 0
  · simp only [hn, if_true, decide_True, hm, hval]
  · simp only [hn, if_false, decide_False, hp, hval]

theorem mul_finite_ratio (m1 m2 : Nat) (e1 e2 : Int) :
    ((m1 * m2 * 2 ^ (e1 + e2).toNat : ℕ) : ℚ) / ((2 ^ (-(e1 + e2)).toNat : ℕ) : ℚ) =
      ((m1 : ℚ) * (2 : ℚ) ^ e1) * ((m2 : ℚ) * (2 : ℚ) ^ e2) := by
  have h2 : (2 : ℚ) ≠ 0 := by norm_num
  rw [mul_mul_mul_comm, ← zpow_add₀ h2]
  generalize e1 + e2 = s
  rcases le_total 0 s with h | h
  · obtain ⟨t, rfl⟩ := Int.eq_ofNat_of_zero_le h
    have ha : (-(t : ℤ)).toNat = 0 := by omega
    simp [ha]
  · obtain ⟨t, ht⟩ : ∃ t : ℕ, s = -(t : ℤ) := ⟨(-s).toNat, by rw [Int.toNat_of_nonneg (by omega)]; ring⟩
    have ha : s.toNat = 0 := by omega
    have hb : (-s).toNat = t := by omega
    rw [ha, hb, ht, zpow_neg, zpow_natCast]
    push_cast
    ring

theorem ofInt_exact_signed (n : Int) (h0 : n ≠ 0) (h : n.natAbs < 2 ^ 53) :
    ∃ m e, Float64.ofInt n = Float64.finite (decide (n < 0)) m e ∧
      (m : ℚ) * (2 : ℚ) ^ e = (n.natAbs : ℚ) := by
  obtain ⟨m, e, hm, hval⟩ := roundToFloat_exact (decide (n < 0)) n.natAbs 1 n.natAbs 0
    Nat.one_pos (by omega) h (by norm_num) (by norm_num) (by simp)
  exact ⟨m, e, hm, by rw [hval]; simp⟩

/-- Multiplying an integer by 100 is exact as long as the product stays below `2^53`. -/
theorem ofInt_mul_100_exact (n : Int) (h0 : n ≠ 0) (h : 100 * n.natAbs < 2 ^ 53) :
    ∃ m e, (Float64.ofInt n).mul (Float64.ofInt 100) = Float64.finite (decide (n < 0)) m e ∧
      (m : ℚ) * (2 : ℚ) ^ e = ((100 * n.natAbs : ℕ) : ℚ) := by
  obtain ⟨m1, e1, hx, hxv⟩ := ofInt_exact_signed n h0 (by omega)
  obtain ⟨m2, e2, hy, hyv⟩ := ofInt_exact_signed 100 (by norm_num) (by norm_num)
  have hratio : ((m1 * m2 * 2 ^ (e1 + e2).toNat : ℕ) : ℚ) / ((2 ^ (-(e1 + e2)).toNat : ℕ) : ℚ) =
      ((100 * n.natAbs : ℕ) : ℚ) * (2 : ℚ) ^ (0 : ℤ) := by
    rw [mul_finite_ratio, hxv, hyv]
    push_cast
    simp
    ring
  obtain ⟨m, e, hm, hval⟩ := roundToFloat_exact (decide (n < 0)) _ _ (100 * n.natAbs) 0
    (by positivity) (by omega) h (by norm_num) (by norm_num) hratio
  refine ⟨m, e, ?_, by rw [hval]; simp⟩
  rw [hx, hy]
  simp only [Float64.mul]
  have hd : decide ((100 : Int) < 0) = false := by decide
  rw [hd, Bool.xor_false]
  exact hm

theorem lastDigits_two_of_hundreds (N : Nat) : lastDigits 2 (N * 100) = ['0', '0'] := by
  have h1 : N * 100 % 10 = 0 := by omega
  have h2 : N * 100 / 10 % 10 = 0 := by omega
  simp [lastDigits, h1, h2, Nat.digitChar]

/-- The percentage text of an integer whose hundredfold stays below `2^53`. -/
theorem percent_text_of_int (n : Int) (h : 100 * n.natAbs < 2 ^ 53) :
    sprintfFixed 2 ((parseFloat (fmtInt n)).mul (Float64.ofInt 100)) "%" =
      String.mk (fmtInt (100 * n) ++ ".00%".data) := by
  rw [parseFloat_fmtInt]
  by_cases h0 : n = 0
  · subst h0
    decide
  · obtain ⟨m, e, hm, hval⟩ := ofInt_mul_100_exact n h0 h
    have hfd : fixedDigits 2 m e = 100 * n.natAbs * 100 := by
      have := fixedDigits_of_val 2 m e (100 * n.natAbs) 1 Nat.one_pos (by rw [hval]; simp)
      rw [this]
      norm_num
      have := roundHalfEven_of_dvd (100 * n.natAbs * 100) 1 Nat.one_pos
      simpa using this
    have habs : (100 * n).natAbs = 100 * n.natAbs := by
      rw [Int.natAbs_mul]
      rfl
    have hsign : (100 * n < 0) ↔ (n < 0) := by omega
    rw [hm]
    simp only [sprintfFixed, fmtFixed, hfd, fmtInt, habs, lastDigits_two_of_hundreds]
    have hdiv : 100 * n.natAbs * 100 / 10 ^ 2 = 100 * n.natAbs := by
      norm_num
    rw [hdiv]
    by_cases hn : n < 0
    · have hn2 : 100 * n < 0 := hsign.mpr hn
      apply String.ext
      simp [hn, hn2, String.data_append]
    · have hn2 : ¬ 100 * n < 0 := fun hh => hn (hsign.mp hh)
      apply String.ext
      simp [hn, hn2, String.data_append]

/-! ## Characters of a rendered number -/

theorem lastDigits_decimal (k n : Nat) : ∀ c ∈ lastDigits k n, c ∈ decimalChars := by
  induction k generalizing n with
  | zero => simp [lastDigits]
  | succ k ih =>
    intro c hc
    simp only [lastDigits, List.mem_append, List.mem_singleton] at hc
    rcases hc with hc | rfl
    · exact ih _ c hc
    · exact digitChar_mem _ (Nat.mod_lt _ (by norm_num))

theorem fmtInt_forall (P : Char → Prop) (hd : ∀ c ∈ decimalChars, P c) (hm : P '-') (i : Int) :
    ∀ c ∈ fmtInt i, P c := by
  intro c hc
  unfold fmtInt at hc
  split_ifs at hc
  · rcases List.mem_cons.mp hc with rfl | hc
    · exact hm
    · exact hd c ((natDigits_spec _).2.1 c hc)
  · exact hd c ((natDigits_spec _).2.1 c hc)

theorem fmtFixed_forall (P : Char → Prop) (hd : ∀ c ∈ decimalChars, P c)
    (hs : ∀ c ∈ "+-.eNaInf".data, P c) (p : Nat) (x : Float64) : ∀ c ∈ fmtFixed p x, P c := by
  cases x with
  | nan => exact fun c hc => hs c (by revert c; simp only [fmtFixed]; decide)
  | inf neg =>
    cases neg <;> exact fun c hc => hs c (by revert c; simp only [fmtFixed]; decide)
  | finite neg m e =>
    intro c hc
    simp only [fmtFixed, List.mem_append, List.mem_cons] at hc
    rcases hc with (hc | hc) | rfl | hc
    · cases neg
      · simp at hc
      · simp at hc; subst hc; exact hs _ (by decide)
    · exact hd c ((natDigits_spec _).2.1 c hc)
    · exact hs _ (by decide)
    · exact hd c (lastDigits_decimal _ _ c hc)

theorem digitAt_decimal (ds : List Char) (h : ∀ c ∈ ds, c ∈ decimalChars) (i : Int) :
    digitAt ds i ∈ decimalChars := by
  unfold digitAt
  split_ifs
  · decide
  · rw [List.getD_eq_getElem?_getD]
    cases hg : ds[i.toNat]? with
    | none => decide
    | some d => exact h d (List.getElem?_mem hg)

theorem fmtShortest_forall (P : Char → Prop) (hd : ∀ c ∈ decimalChars, P c)
    (hs : ∀ c ∈ "+-.eNaInf".data, P c) (sign : List Char) (hsign : ∀ c ∈ sign, P c)
    (d : Nat) (k : Int) : ∀ c ∈ fmtShortest sign d k, P c := by
  unfold fmtShortest
  simp only []
  have hds : ∀ c ∈ natDigits d, P c := fun c hc => hd c ((natDigits_spec _).2.1 c hc)
  have hdec : ∀ c ∈ natDigits d, c ∈ decimalChars := (natDigits_spec _).2.1
  have hnat : ∀ n, ∀ c ∈ natDigits n, P c := fun n c hc => hd c ((natDigits_spec _).2.1 c hc)
  generalize natDigits d = ds at hds hdec ⊢
  have hx := hnat ((ds.length : Int) + k - 1).natAbs
  generalize natDigits ((ds.length : Int) + k - 1).natAbs = xs at hx ⊢
  have htake : ∀ c ∈ ds.take 1, P c := fun c hc => hds c (List.mem_of_mem_take hc)
  have hdrop : ∀ c ∈ ds.drop 1, P c := fun c hc => hds c (List.mem_of_mem_drop hc)
  have hat : ∀ i, P (digitAt ds i) := fun i => hd _ (digitAt_decimal _ hdec i)
  have hnil : ∀ c ∈ ([] : List Char), P c := fun c hc => absurd hc (List.not_mem_nil c)
  have hm : P '-' := hs _ (by decide)
  have hp : P '+' := hs _ (by decide)
  have hz : P '0' := hd _ (by decide)
  have hdot : P '.' := hs _ (by decide)
  have he : P 'e' := hs _ (by decide)
  split_ifs <;>
    simp only [List.forall_mem_append, List.forall_mem_cons, List.forall_mem_map,
      List.append_assoc, List.cons_append, List.nil_append, List.append_nil] <;>
    (repeat' apply And.intro) <;>
    first
      | assumption
      | (intro i _; exact hat _)

theorem fmtG_forall (P : Char → Prop) (hd : ∀ c ∈ decimalChars, P c)
    (hs : ∀ c ∈ "+-.eNaInf".data, P c) (x : Float64) : ∀ c ∈ fmtG x, P c := by
  cases x with
  | nan => exact fun c hc => hs c (by revert c; simp only [fmtG]; decide)
  | inf neg =>
    cases neg <;> exact fun c hc => hs c (by revert c; simp only [fmtG]; decide)
  | finite neg m e =>
    have hsign : ∀ c ∈ (if neg = true then ['-'] else []), P c := by
      cases neg
      · exact fun c hc => absurd hc (List.not_mem_nil c)
      · intro c hc
        rw [List.mem_singleton.mp hc]
        exact hs _ (by decide)
    unfold fmtG
    simp only []
    generalize (if neg = true then ['-'] else []) = sign at hsign ⊢
    split
    · split_ifs
      · intro c hc
        rcases List.mem_append.mp hc with h | h
        · exact hsign c h
        · rw [List.mem_singleton.mp h]
          exact hd _ (by decide)
      · exact fmtShortest_forall P hd hs _ hsign _ _
    · exact fmtFixed_forall P hd hs 0 _

/-! ## Reading back the shortest digits -/


/-- Rounding half to even finds the integer within one half of the quotient; at one half
exactly, the even one. -/
theorem roundHalfEven_eq_of_near (n d m : Nat) (hd : 0 < d)
    (hlo : 2 * m * d ≤ 2 * n + d) (hhi : 2 * n ≤ 2 * m * d + d)
    (hodd : m % 2 = 1 → 2 * m * d < 2 * n + d ∧ 2 * n < 2 * m * d + d) :
    roundHalfEven n d = m := by
  have hn : n = d * (n / d) + n % d := (Nat.div_add_mod n d).symm
  have hr : n % d < d := Nat.mod_lt n hd
  unfold roundHalfEven
  simp only []
  generalize n / d = q at hn
  generalize n % d = r at hn hr
  subst hn
  by_cases hc : d < 2 * r ∨ (2 * r = d ∧ q % 2 = 1)
  · rw [if_pos hc]
    rcases hc with hc | ⟨hc1, hc2⟩
    · have h1 : q < m := by
        by_contra hcon
        have : m * d ≤ q * d := Nat.mul_le_mul_right d (not_lt.mp hcon)
        nlinarith
      have h2 : m < q + 2 := by
        by_contra hcon
        have : (q + 2) * d ≤ m * d := Nat.mul_le_mul_right d (not_lt.mp hcon)
        nlinarith
      omega
    · have h1 : q ≤ m := by
        by_contra hcon
        have : (m + 1) * d ≤ q * d := Nat.mul_le_mul_right d (by omega)
        nlinarith
      have h2 : m ≤ q + 1 := by
        by_contra hcon
        have : (q + 2) * d ≤ m * d := Nat.mul_le_mul_right d (by omega)
        nlinarith
      rcases Nat.lt_or_ge q m with h3 | h3
      · omega
      · have hqm : q = m := by omega
        subst hqm
        obtain ⟨h4, h5⟩ := hodd hc2
        nlinarith
  · rw [if_neg hc]
    push_neg at hc
    obtain ⟨hc1, hc2⟩ := hc
    have h1 : q ≤ m := by
      by_contra hcon
      have : (m + 1) * d ≤ q * d := Nat.mul_le_mul_right d (by omega)
      nlinarith
    have h2 : m ≤ q + 1 := by
      by_contra hcon
      have : (q + 2) * d ≤ m * d := Nat.mul_le_mul_right d (by omega)
      nlinarith
    rcases Nat.lt_or_ge q m with h3 | h3
    · have hqm : m = q + 1 := by omega
      subst hqm
      have h2r : 2 * r = d := by nlinarith
      have hq : q % 2 ≠ 1 := hc2 h2r
      have := hodd (by omega)
      nlinarith [this.1]
    · omega

theorem roundHalfEven_eq_of_near_rat (n d m : Nat) (hd : 0 < d)
    (hlo : (m : ℚ) - 1 / 2 ≤ (n : ℚ) / d) (hhi : (n : ℚ) / d ≤ (m : ℚ) + 1 / 2)
    (hodd : m % 2 = 1 → (m : ℚ) - 1 / 2 < (n : ℚ) / d ∧ (n : ℚ) / d < (m : ℚ) + 1 / 2) :
    roundHalfEven n d = m := by
  have hdq : (0 : ℚ) < d := by exact_mod_cast hd
  apply roundHalfEven_eq_of_near n d m hd
  · rw [le_div_iff₀ hdq] at hlo
    have : (2 * m * d : ℚ) ≤ 2 * n + d := by linarith
    exact_mod_cast this
  · rw [div_le_iff₀ hdq] at hhi
    have : (2 * n : ℚ) ≤ 2 * m * d + d := by linarith
    exact_mod_cast this
  · intro ho
    obtain ⟨h1, h2⟩ := hodd ho
    rw [lt_div_iff₀ hdq] at h1
    rw [div_lt_iff₀ hdq] at h2
    constructor
    · have : (2 * m * d : ℚ) < 2 * n + d := by linarith
      exact_mod_cast this
    · have : (2 * n : ℚ) < 2 * m * d + d := by linarith
      exact_mod_cast this

/-- The scaled value stays below `2^53`. -/
theorem chooseExp_upper (num den : Nat) (hn : num ≠ 0) (hd : 0 < den) :
    (num : ℚ) / den / (2 : ℚ) ^ (chooseExp num den) < (2 : ℚ) ^ (53 : ℕ) := by
  obtain ⟨-, hn2⟩ := ilog2_spec num hn
  obtain ⟨hd1, -⟩ := ilog2_spec den hd.ne'
  have hdq : (0 : ℚ) < den := by exact_mod_cast hd
  have h2 : (2 : ℚ) ≠ 0 := by norm_num
  have hn2q : (num : ℚ) < (2 : ℚ) ^ ((ilog2 num : ℤ) + 1) := by
    have : ((ilog2 num : ℤ) + 1) = ((ilog2 num + 1 : ℕ) : ℤ) := by push_cast; ring
    rw [this, zpow_natCast]; exact_mod_cast hn2
  have hd1q : (2 : ℚ) ^ (ilog2 den : ℤ) ≤ den := by
    rw [zpow_natCast]; exact_mod_cast hd1
  set e0 : ℤ := (ilog2 num : ℤ) - (ilog2 den : ℤ) - 52 with he0
  -- the value is below `2^(ln - ld + 1)`
  have hx0 : (num : ℚ) / den / (2 : ℚ) ^ e0 < (2 : ℚ) ^ (53 : ℕ) := by
    rw [div_div, div_lt_iff₀ (by positivity)]
    calc (num : ℚ) < (2 : ℚ) ^ ((ilog2 num : ℤ) + 1) := hn2q
      _ = (2 : ℚ) ^ (53 : ℕ) * ((2 : ℚ) ^ (ilog2 den : ℤ) * (2 : ℚ) ^ e0) := by
          rw [← zpow_natCast, ← zpow_add₀ h2, ← zpow_add₀ h2]
          congr 1; rw [he0]; push_cast; ring
      _ ≤ (2 : ℚ) ^ (53 : ℕ) * ((den : ℚ) * (2 : ℚ) ^ e0) := by
          apply mul_le_mul_of_nonneg_left _ (by positivity)
          exact mul_le_mul_of_nonneg_right hd1q (by positivity)
  have hmono : ∀ e1 : ℤ, (num : ℚ) / den / (2 : ℚ) ^ e1 < (2 : ℚ) ^ (53 : ℕ) →
      (num : ℚ) / den / (2 : ℚ) ^ (max e1 (-1074)) < (2 : ℚ) ^ (53 : ℕ) := by
    intro e1 h
    refine lt_of_le_of_lt ?_ h
    apply div_le_div_of_nonneg_left (by positivity) (by positivity)
    exact zpow_le_zpow_right₀ (by norm_num) (le_max_left _ _)
  unfold chooseExp
  simp only []
  rw [← he0]
  by_cases hlt : (scaleBy num den e0).1 / (scaleBy num den e0).2 < 2 ^ 52
  · simp only [hlt, if_true]
    apply hmono
    have hsd := scaleBy_snd_pos num den e0 hd
    have hq : ((scaleBy num den e0).1 : ℚ) / ((scaleBy num den e0).2 : ℚ) < (2 : ℚ) ^ (52 : ℕ) := by
      have hsdq : (0 : ℚ) < ((scaleBy num den e0).2 : ℚ) := by exact_mod_cast hsd
      rw [div_lt_iff₀ hsdq]
      have := (Nat.div_lt_iff_lt_mul hsd).mp hlt
      exact_mod_cast this
    rw [scaleBy_val num den e0 hd] at hq
    have h3 : (2 : ℚ) ^ (e0 - 1) = (2 : ℚ) ^ e0 / 2 := by
      rw [zpow_sub₀ h2, zpow_one]
    rw [h3]
    have hpos : (0 : ℚ) < (2 : ℚ) ^ e0 := by positivity
    rw [div_lt_iff₀ (by positivity)]
    rw [div_lt_iff₀ hpos] at hq
    have : (2 : ℚ) ^ (53 : ℕ) = 2 * (2 : ℚ) ^ (52 : ℕ) := by norm_num
    nlinarith
  · simp only [hlt, if_false]
    exact hmono _ hx0

/-- A positive rational inside the rounding interval of a binary64 in normal form is
rounded to it.  The value is given in units of the last place, `t = num / den / 2^e`: it
lies within one half of the mantissa (one quarter below it at the start of a binade), the
ends of the interval counting only for an even mantissa. -/
theorem roundToFloat_near (neg : Bool) (N D m : Nat) (e : Int) (hD : 0 < D) (hm : m ≠ 0)
    (hnf : (2 ^ 52 ≤ m ∧ m < 2 ^ 53 ∧ -1074 ≤ e ∧ e ≤ 971) ∨ (m < 2 ^ 52 ∧ e = -1074))
    (t : ℚ) (ht : t = (N : ℚ) / D / (2 : ℚ) ^ e)
    (hlo : (m : ℚ) - 1 / 2 ≤ t) (hlo4 : m = 2 ^ 52 → -1074 < e → (m : ℚ) - 1 / 4 ≤ t)
    (hhi : t ≤ (m : ℚ) + 1 / 2)
    (hodd : m % 2 = 1 → (m : ℚ) - 1 / 2 < t ∧ t < (m : ℚ) + 1 / 2) :
    roundToFloat neg N D = Float64.finite neg m e := by
  have h2 : (2 : ℚ) ≠ 0 := by norm_num
  have hmq : (1 : ℚ) ≤ m := by exact_mod_cast Nat.one_le_iff_ne_zero.mpr hm
  have htpos : 0 < t := by linarith
  have hDq : (0 : ℚ) < D := by exact_mod_cast hD
  have hN : N ≠ 0 := by
    rintro rfl
    simp at ht
    linarith
  have hm53 : (m : ℚ) ≤ (2 : ℚ) ^ (53 : ℕ) - 1 := by
    have : m + 1 ≤ 2 ^ 53 := by
      rcases hnf with h | h
      · omega
      · have : (2 : ℕ) ^ 52 < 2 ^ 53 := by norm_num
        omega
    have h' : ((m + 1 : ℕ) : ℚ) ≤ ((2 ^ 53 : ℕ) : ℚ) := by exact_mod_cast this
    push_cast at h'
    linarith
  have hE1 := chooseExp_ge N D
  have hE2 := chooseExp_normal N D hN hD
  have hE3 := chooseExp_upper N D hN hD
  have hsd := scaleBy_snd_pos N D (chooseExp N D) hD
  have hsv := scaleBy_val N D (chooseExp N D) hD
  set E := chooseExp N D with hEdef
  have hy : (N : ℚ) / D / (2 : ℚ) ^ E = t * (2 : ℚ) ^ (e - E) := by
    rw [ht, zpow_sub₀ h2]
    field_simp
    ring
  rw [hy] at hE2 hE3 hsv
  unfold roundToFloat
  simp only [hN, if_false]
  rw [← hEdef]
  rcases lt_trichotomy E e with hlt | heq | hgt
  · -- the exponent found is below the target's
    rcases hnf with ⟨hn1, hn2, hn3, hn4⟩ | ⟨hs1, hs2⟩
    · have hn1q : (2 : ℚ) ^ (52 : ℕ) ≤ m := by exact_mod_cast hn1
      by_cases h1 : E = e - 1
      · have hp : (2 : ℚ) ^ (e - E) = 2 := by
          rw [h1]; norm_num
        rw [hp] at hE3 hsv
        have hm52 : m = 2 ^ 52 := by
          have : (m : ℚ) < (2 : ℚ) ^ (52 : ℕ) + 1 := by
            have : (2 : ℚ) ^ (53 : ℕ) = 2 * (2 : ℚ) ^ (52 : ℕ) := by norm_num
            linarith
          have : m < 2 ^ 52 + 1 := by exact_mod_cast this
          omega
        have hq := hlo4 hm52 (by omega)
        have hmq52 : (m : ℚ) = (2 : ℚ) ^ (52 : ℕ) := by rw [hm52]; norm_num
        have hround : roundHalfEven (scaleBy N D E).1 (scaleBy N D E).2 = 2 ^ 53 := by
          apply roundHalfEven_eq_of_near_rat _ _ _ hsd
          · rw [hsv]; push_cast; rw [hmq52] at hq; norm_num at hq ⊢; linarith
          · rw [hsv]; push_cast; norm_num at hE3 ⊢; linarith
          · intro ho
            norm_num at ho
        rw [hround]
        unfold packFloat
        have h971 : ¬ (971 < E + 1) := by omega
        simp only [if_true, h971, if_false]
        rw [hm52, h1]
        congr 1
        ring
      · exfalso
        have hE : (2 : ℤ) ≤ e - E := by omega
        have hp : (2 : ℚ) ^ (2 : ℤ) ≤ (2 : ℚ) ^ (e - E) :=
          zpow_le_zpow_right₀ (by norm_num) hE
        have h4 : (4 : ℚ) ≤ (2 : ℚ) ^ (e - E) := by
          have : (4 : ℚ) = (2 : ℚ) ^ (2 : ℤ) := by norm_num
          exact this.le.trans hp
        have : (2 : ℚ) ^ (53 : ℕ) = 2 * (2 : ℚ) ^ (52 : ℕ) := by norm_num
        have h52 : (1 : ℚ) ≤ (2 : ℚ) ^ (52 : ℕ) := by norm_num
        nlinarith
    · exfalso
      omega
  · -- the exponent found is the target's
    have hp : (2 : ℚ) ^ (e - E) = 1 := by rw [heq]; simp
    rw [hp, mul_one] at hsv
    have hround : roundHalfEven (scaleBy N D E).1 (scaleBy N D E).2 = m := by
      apply roundHalfEven_eq_of_near_rat _ _ _ hsd
      · rw [hsv]; exact hlo
      · rw [hsv]; exact hhi
      · rw [hsv]; exact hodd
    rw [hround, heq]
    unfold packFloat
    have hm1 : m ≠ 2 ^ 53 := by
      rcases hnf with h | h
      · omega
      · have : (2 : ℕ) ^ 52 < 2 ^ 53 := by norm_num
        omega
    have h971 : ¬ (971 < e) := by
      rcases hnf with h | h
      · omega
      · omega
    simp only [hm1, if_false, h971]
  · -- the exponent found is above the target's
    exfalso
    have hne : E ≠ -1074 := by
      rcases hnf with h | h
      · omega
      · omega
    rcases hE2 with h | h
    · exact hne h
    · have hE : e - E ≤ (-1 : ℤ) := by omega
      have hp : (2 : ℚ) ^ (e - E) ≤ (2 : ℚ) ^ (-1 : ℤ) :=
        zpow_le_zpow_right₀ (by norm_num) hE
      have hhalf : (2 : ℚ) ^ (e - E) ≤ 1 / 2 := by
        have : (2 : ℚ) ^ (-1 : ℤ) = 1 / 2 := by norm_num
        exact hp.trans this.le
      have hpos : (0 : ℚ) < (2 : ℚ) ^ (e - E) := by positivity
      have : (2 : ℚ) ^ (53 : ℕ) = 2 * (2 : ℚ) ^ (52 : ℕ) := by norm_num
      nlinarith

/-- What `roundToFloat` returns, when finite, keeps the sign and is zero, normal or
subnormal. -/
theorem roundToFloat_normal (neg : Bool) (N D : Nat) (hD : 0 < D) (n' : Bool) (m : Nat) (e : Int)
    (h : roundToFloat neg N D = Float64.finite n' m e) :
    n' = neg ∧ (m = 0 ∨ (2 ^ 52 ≤ m ∧ m < 2 ^ 53 ∧ -1074 ≤ e ∧ e ≤ 971) ∨
      (m < 2 ^ 52 ∧ e = -1074)) := by
  unfold roundToFloat at h
  by_cases hN : N = 0
  · simp only [hN, if_true, Float64.finite.injEq] at h
    exact ⟨h.1.symm, Or.inl h.2.1.symm⟩
  · simp only [hN, if_false] at h
    have hE1 := chooseExp_ge N D
    have hE2 := chooseExp_normal N D hN hD
    have hE3 := chooseExp_upper N D hN hD
    have hsd := scaleBy_snd_pos N D (chooseExp N D) hD
    have hsv := scaleBy_val N D (chooseExp N D) hD
    set E := chooseExp N D with hEdef
    rw [← hsv] at hE2 hE3
    have hsdq : (0 : ℚ) < ((scaleBy N D E).2 : ℚ) := by exact_mod_cast hsd
    have hup : roundHalfEven (scaleBy N D E).1 (scaleBy N D E).2 ≤ 2 ^ 53 := by
      have h1 : (scaleBy N D E).1 < 2 ^ 53 * (scaleBy N D E).2 := by
        rw [div_lt_iff₀ hsdq] at hE3
        exact_mod_cast hE3
      exact (roundHalfEven_bounds _ _ 0 (2 ^ 53) hsd (by simp) h1).2
    have hlow : E ≠ -1074 → 2 ^ 52 ≤ roundHalfEven (scaleBy N D E).1 (scaleBy N D E).2 := by
      intro hne
      rcases hE2 with h1 | h1
      · exact absurd h1 hne
      · rw [le_div_iff₀ hsdq] at h1
        have h2 : 2 ^ 52 * (scaleBy N D E).2 ≤ (scaleBy N D E).1 := by exact_mod_cast h1
        have h3 : (scaleBy N D E).1 < (2 ^ 53 + 1) * (scaleBy N D E).2 := by
          rw [div_lt_iff₀ hsdq] at hE3
          have : (scaleBy N D E).1 < 2 ^ 53 * (scaleBy N D E).2 := by exact_mod_cast hE3
          nlinarith
        exact (roundHalfEven_bounds _ _ (2 ^ 52) (2 ^ 53 + 1) hsd h2 h3).1
    generalize roundHalfEven (scaleBy N D E).1 (scaleBy N D E).2 = M at h hup hlow
    unfold packFloat at h
    split_ifs at h with h1 h2 h3
    · simp only [Float64.finite.injEq] at h
      obtain ⟨ha, hb, hc⟩ := h
      refine ⟨ha.symm, Or.inr (Or.inl ?_)⟩
      subst hb hc
      refine ⟨le_refl _, by norm_num, by omega, by omega⟩
    · simp only [Float64.finite.injEq] at h
      obtain ⟨ha, hb, hc⟩ := h
      refine ⟨ha.symm, ?_⟩
      subst hb hc
      by_cases hE : E = -1074
      · by_cases hM : M < 2 ^ 52
        · exact Or.inr (Or.inr ⟨hM, hE⟩)
        · exact Or.inr (Or.inl ⟨by omega, by omega, by omega, by omega⟩)
      · exact Or.inr (Or.inl ⟨hlow hE, by omega, by omega, by omega⟩)

theorem zpow_ten_split (k : ℤ) :
    (10 : ℚ) ^ k = ((10 ^ k.toNat : ℕ) : ℚ) / ((10 ^ (-k).toNat : ℕ) : ℚ) := by
  rcases le_total 0 k with h | h
  · obtain ⟨t, rfl⟩ := Int.eq_ofNat_of_zero_le h
    have ha : (-(t : ℤ)).toNat = 0 := by omega
    simp [ha]
  · obtain ⟨t, ht⟩ : ∃ t : ℕ, k = -(t : ℤ) :=
      ⟨(-k).toNat, by rw [Int.toNat_of_nonneg (by omega)]; ring⟩
    have ha : k.toNat = 0 := by omega
    have hb : (-k).toNat = t := by omega
    rw [ha, hb, ht, zpow_neg, zpow_natCast]
    simp

theorem zpow_two_split (k : ℤ) :
    (2 : ℚ) ^ k = ((2 ^ k.toNat : ℕ) : ℚ) / ((2 ^ (-k).toNat : ℕ) : ℚ) := by
  rcases le_total 0 k with h | h
  · obtain ⟨t, rfl⟩ := Int.eq_ofNat_of_zero_le h
    have ha : (-(t : ℤ)).toNat = 0 := by omega
    simp [ha]
  · obtain ⟨t, ht⟩ : ∃ t : ℕ, k = -(t : ℤ) :=
      ⟨(-k).toNat, by rw [Int.toNat_of_nonneg (by omega)]; ring⟩
    have ha : k.toNat = 0 := by omega
    have hb : (-k).toNat = t := by omega
    rw [ha, hb, ht, zpow_neg, zpow_natCast]
    simp

/-- The two candidates of one step of the digit search: with `xn * S = lo * (den * T) + r`
the lower one lies `r / (den * S)` below `xn / den` and the upper one `(den * T - r) / (den * S)`
above it. -/
theorem candidates_distance (xn den T S lo r : Nat) (hden : 0 < den) (hS : 0 < S)
    (h : xn * S = lo * (den * T) + r) (hr : r < den * T) :
    (xn : ℚ) / den - (lo : ℚ) * ((T : ℚ) / S) = (r : ℚ) / ((den : ℚ) * S) ∧
    ((lo + 1 : ℕ) : ℚ) * ((T : ℚ) / S) - (xn : ℚ) / den =
      ((den * T - r : ℕ) : ℚ) / ((den : ℚ) * S) := by
  have hdq : (den : ℚ) ≠ 0 := by exact_mod_cast hden.ne'
  have hSq : (S : ℚ) ≠ 0 := by exact_mod_cast hS.ne'
  have hq : (xn : ℚ) * S = lo * (den * T) + r := by exact_mod_cast h
  have hsub : ((den * T - r : ℕ) : ℚ) = (den : ℚ) * T - r := by
    rw [Nat.cast_sub hr.le]; push_cast; ring
  constructor
  · field_simp
    linear_combination hq
  · rw [hsub]
    push_cast
    field_simp
    linear_combination (-((den : ℚ) * S)) * hq

/-- The digit search returns a numeral inside the rounding interval: within `gl / den` below
and `gu / den` above `xn / den`, the ends excluded unless `incl`.  The last hypothesis says
that the place reached when the search gives up is finer than the lower half-gap. -/
theorem shortestFrom_near (xn den gl gu : Nat) (incl : Bool) (p : Int)
    (hden : 0 < den) (hgl : 0 < gl) (hgu : 0 < gu) (fuel n : Nat)
    (hfb : (10 : ℚ) ^ (p - ((n + fuel : ℕ) : ℤ)) ≤ (gl : ℚ) / den) :
    ((xn : ℚ) / den - (gl : ℚ) / den ≤
        ((shortestFrom xn den gl gu incl p fuel n).1 : ℚ) *
          (10 : ℚ) ^ (shortestFrom xn den gl gu incl p fuel n).2 ∧
      ((shortestFrom xn den gl gu incl p fuel n).1 : ℚ) *
          (10 : ℚ) ^ (shortestFrom xn den gl gu incl p fuel n).2 ≤
        (xn : ℚ) / den + (gu : ℚ) / den) ∧
    (incl = false →
      (xn : ℚ) / den - (gl : ℚ) / den <
        ((shortestFrom xn den gl gu incl p fuel n).1 : ℚ) *
          (10 : ℚ) ^ (shortestFrom xn den gl gu incl p fuel n).2 ∧
      ((shortestFrom xn den gl gu incl p fuel n).1 : ℚ) *
          (10 : ℚ) ^ (shortestFrom xn den gl gu incl p fuel n).2 <
        (xn : ℚ) / den + (gu : ℚ) / den) := by
  have hdenq : (0 : ℚ) < den := by exact_mod_cast hden
  have hGL : (0 : ℚ) < (gl : ℚ) / den := div_pos (by exact_mod_cast hgl) hdenq
  have hGU : (0 : ℚ) < (gu : ℚ) / den := div_pos (by exact_mod_cast hgu) hdenq
  induction fuel generalizing n with
  | zero =>
    have hk : ((n : ℤ) - p) = -(p - (n : ℤ)) := by ring
    simp only [shortestFrom, hk]
    simp only [Nat.add_zero] at hfb
    generalize p - (n : ℤ) = k at hfb ⊢
    have hS : 0 < 10 ^ (-k).toNat := by positivity
    have hT : 0 < 10 ^ k.toNat := by positivity
    have hdiv := (Nat.div_add_mod (xn * 10 ^ (-k).toNat) (den * 10 ^ k.toNat)).symm
    have hr : xn * 10 ^ (-k).toNat % (den * 10 ^ k.toNat) < den * 10 ^ k.toNat :=
      Nat.mod_lt _ (by positivity)
    rw [Nat.mul_comm (den * 10 ^ k.toNat)] at hdiv
    obtain ⟨hlo, -⟩ := candidates_distance xn den _ _ _ _ hden hS hdiv hr
    rw [← zpow_ten_split] at hlo
    have hrq : ((xn * 10 ^ (-k).toNat % (den * 10 ^ k.toNat) : ℕ) : ℚ) /
        ((den : ℚ) * ((10 ^ (-k).toNat : ℕ) : ℚ)) < (10 : ℚ) ^ k := by
      rw [zpow_ten_split k, div_lt_div_iff₀ (by positivity) (by positivity)]
      have : ((xn * 10 ^ (-k).toNat % (den * 10 ^ k.toNat) : ℕ) : ℚ) <
          ((den * 10 ^ k.toNat : ℕ) : ℚ) := by exact_mod_cast hr
      have hSq : (0 : ℚ) < ((10 ^ (-k).toNat : ℕ) : ℚ) := by exact_mod_cast hS
      have h3 := mul_lt_mul_of_pos_right this hSq
      push_cast at h3 ⊢
      linarith
    have hr0 : (0 : ℚ) ≤ ((xn * 10 ^ (-k).toNat % (den * 10 ^ k.toNat) : ℕ) : ℚ) /
        ((den : ℚ) * ((10 ^ (-k).toNat : ℕ) : ℚ)) := by positivity
    refine ⟨⟨by linarith, by linarith⟩, fun _ => ⟨by linarith, by linarith⟩⟩
  | succ fuel ih =>
    have hrec := ih (n + 1) (by
      have : ((n + 1 + fuel : ℕ) : ℤ) = ((n + (fuel + 1) : ℕ) : ℤ) := by push_cast; ring
      rw [this]; exact hfb)
    unfold shortestFrom
    simp only []
    generalize p - (n : ℤ) = k
    have hS : 0 < 10 ^ (-k).toNat := by positivity
    have hT : 0 < 10 ^ k.toNat := by positivity
    have hdiv := (Nat.div_add_mod (xn * 10 ^ (-k).toNat) (den * 10 ^ k.toNat)).symm
    have hr : xn * 10 ^ (-k).toNat % (den * 10 ^ k.toNat) < den * 10 ^ k.toNat :=
      Nat.mod_lt _ (by positivity)
    rw [Nat.mul_comm (den * 10 ^ k.toNat)] at hdiv
    obtain ⟨hlo, hhi⟩ := candidates_distance xn den _ _ _ _ hden hS hdiv hr
    rw [← zpow_ten_split] at hlo hhi
    generalize xn * 10 ^ (-k).toNat / (den * 10 ^ k.toNat) = lo at hlo hhi ⊢
    generalize xn * 10 ^ (-k).toNat % (den * 10 ^ k.toNat) = r at hlo hhi hr ⊢
    have hSq : (0 : ℚ) < ((10 ^ (-k).toNat : ℕ) : ℚ) := by exact_mod_cast hS
    have hr0 : (0 : ℚ) ≤ (r : ℚ) / ((den : ℚ) * ((10 ^ (-k).toNat : ℕ) : ℚ)) := by positivity
    have hu0 : (0 : ℚ) < ((den * 10 ^ k.toNat - r : ℕ) : ℚ) /
        ((den : ℚ) * ((10 ^ (-k).toNat : ℕ) : ℚ)) := by
      have : 0 < den * 10 ^ k.toNat - r := by omega
      have : (0 : ℚ) < ((den * 10 ^ k.toNat - r : ℕ) : ℚ) := by exact_mod_cast this
      positivity
    -- the tests of the step, as bounds on the two distances
    have hdown : ∀ a b : ℕ, a ≤ b * 10 ^ (-k).toNat →
        (a : ℚ) / ((den : ℚ) * ((10 ^ (-k).toNat : ℕ) : ℚ)) ≤ (b : ℚ) / den := by
      intro a b hab
      rw [div_le_div_iff₀ (by positivity) hdenq]
      have : (a : ℚ) ≤ (b : ℚ) * ((10 ^ (-k).toNat : ℕ) : ℚ) := by exact_mod_cast hab
      nlinarith
    have hdown' : ∀ a b : ℕ, a < b * 10 ^ (-k).toNat →
        (a : ℚ) / ((den : ℚ) * ((10 ^ (-k).toNat : ℕ) : ℚ)) < (b : ℚ) / den := by
      intro a b hab
      rw [div_lt_div_iff₀ (by positivity) hdenq]
      have : (a : ℚ) < (b : ℚ) * ((10 ^ (-k).toNat : ℕ) : ℚ) := by exact_mod_cast hab
      nlinarith
    have hL : r ≤ gl * 10 ^ (-k).toNat →
        ((xn : ℚ) / den - (gl : ℚ) / den ≤ (lo : ℚ) * (10 : ℚ) ^ k ∧
          (lo : ℚ) * (10 : ℚ) ^ k ≤ (xn : ℚ) / den + (gu : ℚ) / den) := by
      intro h
      have := hdown r gl h
      exact ⟨by linarith, by linarith⟩
    have hL' : r < gl * 10 ^ (-k).toNat →
        ((xn : ℚ) / den - (gl : ℚ) / den < (lo : ℚ) * (10 : ℚ) ^ k ∧
          (lo : ℚ) * (10 : ℚ) ^ k < (xn : ℚ) / den + (gu : ℚ) / den) := by
      intro h
      have := hdown' r gl h
      exact ⟨by linarith, by linarith⟩
    have hU : den * 10 ^ k.toNat - r ≤ gu * 10 ^ (-k).toNat →
        ((xn : ℚ) / den - (gl : ℚ) / den ≤ ((lo + 1 : ℕ) : ℚ) * (10 : ℚ) ^ k ∧
          ((lo + 1 : ℕ) : ℚ) * (10 : ℚ) ^ k ≤ (xn : ℚ) / den + (gu : ℚ) / den) := by
      intro h
      have := hdown _ gu h
      exact ⟨by linarith, by linarith⟩
    have hU' : den * 10 ^ k.toNat - r < gu * 10 ^ (-k).toNat →
        ((xn : ℚ) / den - (gl : ℚ) / den < ((lo + 1 : ℕ) : ℚ) * (10 : ℚ) ^ k ∧
          ((lo + 1 : ℕ) : ℚ) * (10 : ℚ) ^ k < (xn : ℚ) / den + (gu : ℚ) / den) := by
      intro h
      have := hdown' _ gu h
      exact ⟨by linarith, by linarith⟩
    have hZ : r = 0 →
        ((xn : ℚ) / den - (gl : ℚ) / den < (lo : ℚ) * (10 : ℚ) ^ k ∧
          (lo : ℚ) * (10 : ℚ) ^ k < (xn : ℚ) / den + (gu : ℚ) / den) := by
      intro h
      rw [h] at hlo
      simp only [Nat.cast_zero, zero_div] at hlo
      exact ⟨by linarith, by linarith⟩
    cases incl with
    | true =>
      simp only [if_true, Bool.and_eq_true, decide_eq_true_eq, Bool.true_eq_false, false_implies,
        and_true]
      simp only [if_true, Bool.true_eq_false, false_implies, and_true] at hrec
      split_ifs with h1 h2 h3 h4 h5
      · exact ⟨(hZ h1).1.le, (hZ h1).2.le⟩
      · exact hL h2.1
      · exact hU h2.2
      · exact hL h4
      · exact hU h5
      · exact hrec
    | false =>
      simp only [Bool.false_eq_true, if_false, Bool.and_eq_true, decide_eq_true_eq, true_implies]
      simp only [true_implies] at hrec
      split_ifs with h1 h2 h3 h4 h5
      · exact ⟨⟨(hZ h1).1.le, (hZ h1).2.le⟩, hZ h1⟩
      · exact ⟨⟨(hL' h2.1).1.le, (hL' h2.1).2.le⟩, hL' h2.1⟩
      · exact ⟨⟨(hU' h2.2).1.le, (hU' h2.2).2.le⟩, hU' h2.2⟩
      · exact ⟨⟨(hL' h4).1.le, (hL' h4).2.le⟩, hL' h4⟩
      · exact ⟨⟨(hU' h5).1.le, (hU' h5).2.le⟩, hU' h5⟩
      · exact hrec
set_option exponentiation.threshold 2048

theorem natDigitsFuel_length (fuel n : Nat) (acc : List Char) (h : n < fuel) :
    ∃ ds, natDigitsFuel fuel n acc = ds ++ acc ∧ n < 10 ^ ds.length ∧
      (n ≠ 0 → 10 ^ (ds.length - 1) ≤ n) ∧ 1 ≤ ds.length := by
  induction fuel generalizing n acc with
  | zero => omega
  | succ f ih =>
    unfold natDigitsFuel
    by_cases h10 : n < 10
    · simp only [h10, if_true]
      refine ⟨[Nat.digitChar n], rfl, by simpa using h10, ?_, by simp⟩
      intro hn
      simp
      omega
    · simp only [h10, if_false]
      obtain ⟨ds, hds, h1, h2, h3⟩ := ih (n / 10) (Nat.digitChar (n % 10) :: acc) (by omega)
      refine ⟨ds ++ [Nat.digitChar (n % 10)], by rw [hds]; simp, ?_, ?_, by simp⟩
      · rw [List.length_append, List.length_singleton, pow_succ]
        omega
      · intro _
        have := h2 (by omega)
        rw [List.length_append, List.length_singleton, Nat.add_sub_cancel]
        have h4 : 10 ^ ds.length = 10 ^ (ds.length - 1) * 10 := by
          rw [← pow_succ]
          congr 1
          omega
        omega

/-- The number of digits written for `n`: `10^(len-1) ≤ n < 10^len`. -/
theorem natDigits_length_spec (n : Nat) :
    n < 10 ^ (natDigits n).length ∧ (n ≠ 0 → 10 ^ ((natDigits n).length - 1) ≤ n) ∧
      1 ≤ (natDigits n).length := by
  obtain ⟨ds, hds, h1, h2, h3⟩ := natDigitsFuel_length (n + 1) n [] (Nat.lt_succ_self n)
  have : natDigits n = ds := by simp [natDigits, hds]
  rw [this]
  exact ⟨h1, h2, h3⟩

theorem leadingZeros_spec (xn den fuel z : Nat) (h : den ≤ xn * 10 ^ (z + fuel + 1)) :
    den ≤ xn * 10 ^ (leadingZeros xn den fuel z + 1) := by
  induction fuel generalizing z with
  | zero => simpa [leadingZeros] using h
  | succ f ih =>
    unfold leadingZeros
    split_ifs with h1
    · exact h1
    · apply ih
      have : z + 1 + f + 1 = z + (f + 1) + 1 := by ring
      rw [this]
      exact h

theorem stripZeros_value (fuel d : Nat) (k : Int) :
    ((stripZeros fuel d k).1 : ℚ) * (10 : ℚ) ^ (stripZeros fuel d k).2 = (d : ℚ) * (10 : ℚ) ^ k := by
  induction fuel generalizing d k with
  | zero => rfl
  | succ f ih =>
    unfold stripZeros
    split_ifs with h
    · rw [ih]
      have hd : d = 10 * (d / 10) := by omega
      have hdq : (d : ℚ) = 10 * ((d / 10 : ℕ) : ℚ) := by exact_mod_cast hd
      rw [zpow_add_one₀ (by norm_num : (10 : ℚ) ≠ 0)]
      conv_rhs => rw [hdq]
      ring
    · rfl

theorem den_le_pow_ten (e : Int) (he : -1074 ≤ e) : 2 ^ (2 - e).toNat ≤ 10 ^ 401 := by
  calc 2 ^ (2 - e).toNat ≤ 2 ^ 1077 := Nat.pow_le_pow_right (by norm_num) (by omega)
    _ = (2 ^ 3) ^ 359 := by rw [← pow_mul]
    _ ≤ 10 ^ 359 := Nat.pow_le_pow_left (by norm_num) _
    _ ≤ 10 ^ 401 := Nat.pow_le_pow_right (by norm_num) (by norm_num)

theorem leadingZeros_top (xn den : Nat) (hxn : 0 < xn) (hden : den ≤ 10 ^ 401) :
    den ≤ xn * 10 ^ (leadingZeros xn den 400 0 + 1) := by
  apply leadingZeros_spec
  exact le_trans hden (Nat.le_mul_of_pos_left _ hxn)

/-- The shortest digits of a binary64 in normal form lie inside its rounding interval; the
distance is given in units of the last place. -/
theorem shortestDecimal_near (m : Nat) (e : Int) (hm : m ≠ 0)
    (hnf : (2 ^ 52 ≤ m ∧ m < 2 ^ 53 ∧ -1074 ≤ e ∧ e ≤ 971) ∨ (m < 2 ^ 52 ∧ e = -1074)) :
    (m : ℚ) - 1 / 2 ≤
        ((shortestDecimal m e).1 : ℚ) * (10 : ℚ) ^ (shortestDecimal m e).2 / (2 : ℚ) ^ e ∧
    (m = 2 ^ 52 → -1074 < e → (m : ℚ) - 1 / 4 ≤
        ((shortestDecimal m e).1 : ℚ) * (10 : ℚ) ^ (shortestDecimal m e).2 / (2 : ℚ) ^ e) ∧
    ((shortestDecimal m e).1 : ℚ) * (10 : ℚ) ^ (shortestDecimal m e).2 / (2 : ℚ) ^ e ≤
        (m : ℚ) + 1 / 2 ∧
    (m % 2 = 1 →
      (m : ℚ) - 1 / 2 <
          ((shortestDecimal m e).1 : ℚ) * (10 : ℚ) ^ (shortestDecimal m e).2 / (2 : ℚ) ^ e ∧
      ((shortestDecimal m e).1 : ℚ) * (10 : ℚ) ^ (shortestDecimal m e).2 / (2 : ℚ) ^ e <
          (m : ℚ) + 1 / 2) := by
  have h2 : (2 : ℚ) ≠ 0 := by norm_num
  have he : -1074 ≤ e := by rcases hnf with h | h <;> omega
  have hm53 : m < 2 ^ 53 := by
    rcases hnf with h | h
    · omega
    · have : (2 : ℕ) ^ 52 < 2 ^ 53 := by norm_num
      omega
  have hmpos : 0 < m := Nat.pos_of_ne_zero hm
  have hmq : (0 : ℚ) < m := by exact_mod_cast hmpos
  have hm53q : (m : ℚ) < (2 : ℚ) ^ (53 : ℕ) := by exact_mod_cast hm53
  have hpe : (0 : ℚ) < (2 : ℚ) ^ e := by positivity
  unfold shortestDecimal
  simp only []
  rw [stripZeros_value]
  -- the quantities of the search
  have hU : 0 < 2 ^ (e - 2).toNat := by positivity
  have hden : 0 < 2 ^ (2 - e).toNat := by positivity
  have hunit : (((2 ^ (e - 2).toNat : ℕ) : ℚ)) / ((2 ^ (2 - e).toNat : ℕ) : ℚ) = (2 : ℚ) ^ e / 4 := by
    have := zpow_two_split (e - 2)
    rw [neg_sub] at this
    rw [← this, zpow_sub₀ h2]
    norm_num
  have hxn0 : 0 < 4 * m * 2 ^ (e - 2).toNat := by positivity
  have hlz := leadingZeros_top (4 * m * 2 ^ (e - 2).toNat) _ hxn0 (den_le_pow_ten e he)
  generalize hDdef : 2 ^ (2 - e).toNat = den at hden hunit hlz ⊢
  generalize hUdef : 2 ^ (e - 2).toNat = U at hU hunit hlz ⊢
  have hdenq : (0 : ℚ) < den := by exact_mod_cast hden
  have hUq : (U : ℚ) = (2 : ℚ) ^ e / 4 * den := by
    rw [← hunit]; field_simp
  have hX : ((4 * m * U : ℕ) : ℚ) / den = (m : ℚ) * (2 : ℚ) ^ e := by
    push_cast
    rw [hUq]
    field_simp
    ring
  have hgu : (((2 * U : ℕ)) : ℚ) / den = (2 : ℚ) ^ e / 2 := by
    push_cast
    rw [hUq]
    field_simp
    ring
  set c : ℕ := (if m = 2 ^ 52 ∧ -1074 < e then 1 else 2) with hc
  have hc1 : 1 ≤ c := by rw [hc]; split_ifs <;> omega
  have hc2 : c ≤ 2 := by rw [hc]; split_ifs <;> omega
  have hgl : (((c * U : ℕ)) : ℚ) / den = (c : ℚ) * (2 : ℚ) ^ e / 4 := by
    push_cast
    rw [hUq]
    field_simp
    ring
  have hxn : 0 < 4 * m * U := by positivity
  -- the position of the decimal point
  set p : ℤ := (if den ≤ 4 * m * U then ((natDigits (4 * m * U / den)).length : ℤ)
      else -((leadingZeros (4 * m * U) den 400 0 : ℕ) : ℤ)) with hp
  have hpX : (10 : ℚ) ^ (p - 1) ≤ (m : ℚ) * (2 : ℚ) ^ e := by
    rw [← hX, hp]
    split_ifs with hle
    · have hq : 4 * m * U / den ≠ 0 := by
        have := Nat.div_pos hle hden
        omega
      obtain ⟨-, hl2, hl3⟩ := natDigits_length_spec (4 * m * U / den)
      have hl := hl2 hq
      have hcast : (((natDigits (4 * m * U / den)).length : ℤ) - 1) =
          (((natDigits (4 * m * U / den)).length - 1 : ℕ) : ℤ) := by
        rw [Nat.cast_sub hl3]; rfl
      rw [hcast, zpow_natCast]
      have h3 : 10 ^ ((natDigits (4 * m * U / den)).length - 1) ≤ 4 * m * U / den := hl
      have h4 := (nat_le_div_iff_rat _ _ _ hden).mp h3
      exact_mod_cast h4
    · have hz := hlz
      generalize leadingZeros (4 * m * U) den 400 0 = z at hz
      have hcast : (-(z : ℤ) - 1) = -(((z + 1 : ℕ)) : ℤ) := by push_cast; ring
      rw [hcast, zpow_neg, zpow_natCast, inv_eq_one_div, div_le_div_iff₀ (by positivity) hdenq]
      have : ((den : ℕ) : ℚ) ≤ ((4 * m * U * 10 ^ (z + 1) : ℕ) : ℚ) := by exact_mod_cast hz
      push_cast at this ⊢
      linarith
  have hfb : (10 : ℚ) ^ (p - (((1 + 17 : ℕ)) : ℤ)) ≤ ((c * U : ℕ) : ℚ) / den := by
    rw [hgl]
    have hsplit : (10 : ℚ) ^ (p - (((1 + 17 : ℕ)) : ℤ)) = (10 : ℚ) ^ (p - 1) / (10 : ℚ) ^ (17 : ℕ) := by
      rw [← zpow_natCast, ← zpow_sub₀ (by norm_num : (10 : ℚ) ≠ 0)]
      congr 1
      push_cast
      ring
    rw [hsplit, div_le_iff₀ (by positivity)]
    have hc1q : (1 : ℚ) ≤ c := by exact_mod_cast hc1
    have h17 : (4 : ℚ) * (2 : ℚ) ^ (53 : ℕ) ≤ (10 : ℚ) ^ (17 : ℕ) := by norm_num
    have h1 : (m : ℚ) * (2 : ℚ) ^ e ≤ (2 : ℚ) ^ (53 : ℕ) * (2 : ℚ) ^ e :=
      mul_le_mul_of_nonneg_right hm53q.le hpe.le
    have h3 : (2 : ℚ) ^ (53 : ℕ) * (2 : ℚ) ^ e ≤ (c : ℚ) * (2 : ℚ) ^ e / 4 * (10 : ℚ) ^ (17 : ℕ) := by
      have h5 : (2 : ℚ) ^ e ≤ (c : ℚ) * (2 : ℚ) ^ e := by nlinarith
      have h6 : (0 : ℚ) ≤ (c : ℚ) * (2 : ℚ) ^ e := by positivity
      nlinarith
    linarith
  obtain ⟨⟨hlo, hhi⟩, hstrict⟩ := shortestFrom_near (4 * m * U) den (c * U) (2 * U)
    (decide (m % 2 = 0)) p hden (by positivity) (by positivity) 17 1 hfb
  generalize shortestFrom (4 * m * U) den (c * U) (2 * U) (decide (m % 2 = 0)) p 17 1 = r
    at hlo hhi hstrict
  rw [hX, hgl] at hlo
  rw [hX, hgu] at hhi
  rw [hX, hgl, hgu] at hstrict
  generalize (r.1 : ℚ) * (10 : ℚ) ^ r.2 = V at hlo hhi hstrict
  have hc2q : (c : ℚ) ≤ 2 := by exact_mod_cast hc2
  have hcgap : (c : ℚ) * (2 : ℚ) ^ e / 4 ≤ (2 : ℚ) ^ e / 2 := by
    have := mul_le_mul_of_nonneg_right hc2q hpe.le
    linarith
  refine ⟨?_, ?_, ?_, ?_⟩
  · rw [le_div_iff₀ hpe]
    linarith
  · intro h52 hne
    have hc1' : c = 1 := by rw [hc]; simp [h52, hne]
    rw [hc1'] at hlo
    rw [le_div_iff₀ hpe]
    push_cast at hlo
    linarith
  · rw [div_le_iff₀ hpe]
    linarith
  · intro hodd
    have hd : decide (m % 2 = 0) = false := by simp; omega
    obtain ⟨h1, h3⟩ := hstrict hd
    constructor
    · rw [lt_div_iff₀ hpe]
      linarith
    · rw [div_lt_iff₀ hpe]
      linarith

theorem digitsValue_append (a b : List Char) :
    digitsValue (a ++ b) = digitsValue a * 10 ^ b.length + digitsValue b := by
  induction b using List.reverseRecOn with
  | nil => simp [digitsValue]
  | append_singleton b c ih =>
    rw [← List.append_assoc, digitsValue_append_singleton, digitsValue_append_singleton, ih,
      List.length_append, List.length_singleton, pow_succ]
    ring

theorem digitsValue_replicate_zero (z : Nat) : digitsValue (List.replicate z '0') = 0 := by
  induction z with
  | zero => rfl
  | succ z ih =>
    rw [List.replicate_succ', digitsValue_append_singleton, ih]
    rfl

theorem digitsValue_lt (ds : List Char) (h : ∀ c ∈ ds, c ∈ decimalChars) :
    digitsValue ds < 10 ^ ds.length := by
  induction ds using List.reverseRecOn with
  | nil => simp [digitsValue]
  | append_singleton ds c ih =>
    have hc : c ∈ decimalChars := h c (by simp)
    have hall : ∀ x ∈ decimalChars, x.toNat - '0'.toNat < 10 := by decide
    have hv : c.toNat - '0'.toNat < 10 := hall c hc
    have := ih (fun x hx => h x (by simp [hx]))
    rw [digitsValue_append_singleton, List.length_append, List.length_singleton, pow_succ]
    omega

/-- The exponent digits are read in full as long as there are at most five of them. -/
theorem expValue_eq_digitsValue (ds : List Char) (h : ∀ c ∈ ds, c ∈ decimalChars)
    (hl : ds.length ≤ 5) : expValue ds = digitsValue ds := by
  induction ds using List.reverseRecOn with
  | nil => rfl
  | append_singleton ds c ih =>
    rw [List.length_append, List.length_singleton] at hl
    have hds := ih (fun x hx => h x (by simp [hx])) (by omega)
    have hlt := digitsValue_lt ds (fun x hx => h x (by simp [hx]))
    have h4 : 10 ^ ds.length ≤ 10 ^ 4 := Nat.pow_le_pow_right (by norm_num) (by omega)
    have : expValue (ds ++ [c]) =
        if expValue ds < 10000 then expValue ds * 10 + (c.toNat - '0'.toNat) else expValue ds := by
      simp [expValue, List.foldl_append]
    rw [this, hds, digitsValue_append_singleton, if_pos (by omega)]

/-- Digits taken at the positions `0 .. n-1`, zeros past the end of the digit string. -/
theorem map_digitAt_nat (ds : List Char) (n : Nat) :
    (List.range n).map (fun (i : Nat) => digitAt ds (i : Int)) =
      (ds ++ List.replicate (n - ds.length) '0').take n := by
  apply List.ext_getElem
  · simp
    omega
  · intro i h1 h2
    simp only [List.length_map, List.length_range] at h1
    simp only [List.getElem_map, List.getElem_range, List.getElem_take]
    unfold digitAt
    have hneg : ¬ ((i : Int) < 0) := by omega
    rw [if_neg hneg, Int.toNat_ofNat, List.getD_eq_getElem?_getD]
    by_cases hi : i < ds.length
    · rw [List.getElem?_eq_getElem hi, List.getElem_append_left hi]
      rfl
    · rw [List.getElem?_eq_none (by omega), List.getElem_append_right (by omega)]
      simp

/-- Digits taken from the position `j` on, inside the digit string. -/
theorem map_digitAt_drop (ds : List Char) (j n : Nat) (h : j + n = ds.length) :
    (List.range n).map (fun (i : Nat) => digitAt ds ((j : Int) + (i : Int))) = ds.drop j := by
  apply List.ext_getElem
  · simp
    omega
  · intro i h1 h2
    simp only [List.length_map, List.length_range] at h1
    simp only [List.getElem_map, List.getElem_range, List.getElem_drop]
    unfold digitAt
    have hneg : ¬ ((j : Int) + (i : Int) < 0) := by omega
    have hnat : ((j : Int) + (i : Int)).toNat = j + i := by omega
    rw [if_neg hneg, hnat, List.getD_eq_getElem?_getD, List.getElem?_eq_getElem (by omega)]
    rfl

/-- Digits taken from `z` places before the digit string on: `z` zeros, then the string. -/
theorem map_digitAt_neg (ds : List Char) (z : Nat) :
    (List.range (z + ds.length)).map (fun (i : Nat) => digitAt ds (-(z : Int) + (i : Int))) =
      List.replicate z '0' ++ ds := by
  apply List.ext_getElem
  · simp
  · intro i h1 h2
    simp only [List.length_map, List.length_range] at h1
    simp only [List.getElem_map, List.getElem_range]
    unfold digitAt
    by_cases hi : i < z
    · have hneg : -(z : Int) + (i : Int) < 0 := by omega
      rw [if_pos hneg, List.getElem_append_left (by simpa using hi)]
      simp
    · have hneg : ¬ (-(z : Int) + (i : Int) < 0) := by omega
      have hnat : (-(z : Int) + (i : Int)).toNat = i - z := by omega
      rw [if_neg hneg, hnat, List.getD_eq_getElem?_getD, List.getElem?_eq_getElem (by omega),
        List.getElem_append_right (by simp; omega)]
      simp

theorem fmtShortest_sign (sign : List Char) (d : Nat) (k : Int) :
    fmtShortest sign d k = sign ++ fmtShortest [] d k := by
  unfold fmtShortest
  simp only []
  split_ifs <;> simp only [List.nil_append, List.append_assoc]

/-- A decimal numeral that begins with digits is read by `readNumber`. -/
theorem parseFloat_decimal (neg : Bool) (ip tail : List Char) (hip : ∀ c ∈ ip, c ∈ decimalChars)
    (hne : ip ≠ []) (hx : ∀ c ∈ ip ++ tail, c ≠ '_' ∧ c.toLower ≠ 'x') :
    parseFloat ((if neg then ['-'] else []) ++ (ip ++ tail)) =
      readNumber neg false (ip ++ tail) := by
  cases ip with
  | nil => exact absurd rfl hne
  | cons c0 ip' =>
    exact parseFloat_signed neg c0 (ip' ++ tail) (hip c0 (List.mem_cons_self _ _)) hx

/-- The exponent digits of the `%e` form: two at least. -/
theorem expDigits_spec (a : Nat) (ha : a < 100000) :
    (if a < 10 then ['0'] else []) ++ natDigits a ≠ [] ∧
    (∀ c ∈ (if a < 10 then ['0'] else []) ++ natDigits a, c ∈ decimalChars) ∧
    expValue ((if a < 10 then ['0'] else []) ++ natDigits a) = a := by
  obtain ⟨hne, hall, hval⟩ := natDigits_spec a
  obtain ⟨h1, h2, h3⟩ := natDigits_length_spec a
  have hlen : (natDigits a).length ≤ 5 := by
    by_cases h0 : a = 0
    · subst h0
      decide
    · have h4 := h2 h0
      have h5 : 10 ^ ((natDigits a).length - 1) < 10 ^ 5 := by omega
      have := (Nat.pow_lt_pow_iff_right (by norm_num : 1 < 10)).mp h5
      omega
  have hdec : ∀ c ∈ (if a < 10 then ['0'] else []) ++ natDigits a, c ∈ decimalChars := by
    intro c hc
    rcases List.mem_append.mp hc with h | h
    · split_ifs at h
      · rw [List.mem_singleton.mp h]
        decide
      · exact absurd h (List.not_mem_nil c)
    · exact hall c h
  refine ⟨by simp [hne], hdec, ?_⟩
  by_cases h10 : a < 10
  · have hl1 : (natDigits a).length = 1 := by
      have h5 : 10 ^ ((natDigits a).length - 1) < 10 ^ 1 := by
        by_cases h0 : a = 0
        · subst h0
          decide
        · have := h2 h0
          omega
      have := (Nat.pow_lt_pow_iff_right (by norm_num : 1 < 10)).mp h5
      omega
    rw [expValue_eq_digitsValue _ hdec (by simp [h10, hl1])]
    simp only [h10, if_true]
    rw [digitsValue_append, hval]
    simp [digitsValue]
  · rw [expValue_eq_digitsValue _ hdec (by simp [h10, hlen])]
    simp only [h10, if_false, List.nil_append, hval]

/-- The parts of the `'g'` layout of the numeral `d * 10^k`: a mantissa of digits with at most
one point, which writes `d * 10^k` itself in the `%f` form, and `d` followed by the
exponent that brings it to `d * 10^k` in the `%e` form. -/
theorem fmtShortest_shape (d : Nat) (k : Int)
    (hlo : -100000 < ((natDigits d).length : Int) + k - 1)
    (hhi : ((natDigits d).length : Int) + k - 1 < 100000) :
    ∃ (ip fp : List Char) (dot : Bool),
      (∀ c ∈ ip, c ∈ decimalChars) ∧ (∀ c ∈ fp, c ∈ decimalChars) ∧ ip ≠ [] ∧
      (dot = false → fp = []) ∧
      ((fmtShortest [] d k = ip ++ (if dot then '.' :: fp else []) ∧
          digitsValue (ip ++ fp) = d * 10 ^ k.toNat ∧ fp.length = (-k).toNat) ∨
       (∃ (sg : Char) (ed : List Char),
          fmtShortest [] d k = ip ++ (if dot then '.' :: fp else []) ++ 'e' :: sg :: ed ∧
          (sg = '+' ∨ sg = '-') ∧ ed ≠ [] ∧ (∀ c ∈ ed, c ∈ decimalChars) ∧
          digitsValue (ip ++ fp) = d ∧
          (if sg = '-' then -(expValue ed : Int) else (expValue ed : Int)) - (fp.length : Int)
            = k)) := by
  obtain ⟨hne, hall, hval⟩ := natDigits_spec d
  obtain ⟨-, -, hl1⟩ := natDigits_length_spec d
  unfold fmtShortest
  simp only [List.nil_append]
  generalize natDigits d = ds at hne hall hval hl1 hlo hhi ⊢
  have htd : ds.take 1 ++ ds.drop 1 = ds := List.take_append_drop 1 ds
  by_cases hE : (ds.length : Int) + k - 1 < -4 ∨ 6 ≤ (ds.length : Int) + k - 1
  · -- the `%e` form
    rw [if_pos hE]
    simp only [List.append_assoc]
    obtain ⟨hed0, hed, hev⟩ := expDigits_spec ((ds.length : Int) + k - 1).natAbs (by omega)
    generalize (if ((ds.length : Int) + k - 1).natAbs < 10 then ['0'] else []) ++
      natDigits ((ds.length : Int) + k - 1).natAbs = ed at hed0 hed hev ⊢
    have hsg : (if (ds.length : Int) + k - 1 < 0 then '-' else '+') = '+' ∨
        (if (ds.length : Int) + k - 1 < 0 then '-' else '+') = '-' := by
      split_ifs <;> simp
    have hk : (if (if (ds.length : Int) + k - 1 < 0 then '-' else '+') = '-'
        then -((expValue ed : ℕ) : Int) else ((expValue ed : ℕ) : Int)) =
          (ds.length : Int) + k - 1 := by
      rw [hev]
      split_ifs with h1 h2 h2
      · omega
      · exact absurd rfl h2
      · exact absurd h2 (by decide)
      · omega
    generalize (if (ds.length : Int) + k - 1 < 0 then '-' else '+') = sg at hsg hk ⊢
    by_cases hP : 1 < ds.length
    · rw [if_pos hP]
      refine ⟨ds.take 1, ds.drop 1, true, fun c hc => hall c (List.mem_of_mem_take hc),
        fun c hc => hall c (List.mem_of_mem_drop hc), ?_, by simp, Or.inr ⟨sg, ed, ?_, hsg, hed0,
          hed, by rw [htd, hval], ?_⟩⟩
      · cases ds with
        | nil => exact absurd rfl hne
        | cons c cs => simp
      · simp
      · rw [hk, List.length_drop]
        omega
    · rw [if_neg hP]
      have hdrop : ds.drop 1 = [] := by
        apply List.eq_nil_of_length_eq_zero
        rw [List.length_drop]
        omega
      have htake : ds.take 1 = ds := by rw [← htd, hdrop]; simp
      refine ⟨ds, [], false, hall, by simp, hne, fun _ => rfl, Or.inr ⟨sg, ed, ?_, hsg, hed0,
          hed, by simpa using hval, ?_⟩⟩
      · rw [htake]
        simp
      · rw [hk]
        simp only [List.length_nil, Nat.cast_zero, sub_zero]
        omega
  · -- the `%f` form
    rw [if_neg hE]
    by_cases h0 : 0 < (ds.length : Int) + k
    · rw [if_pos h0]
      obtain ⟨j, hj⟩ : ∃ j : ℕ, (ds.length : Int) + k = (j : Int) :=
        ⟨((ds.length : Int) + k).toNat, by omega⟩
      rw [hj]
      rw [Int.toNat_ofNat, map_digitAt_nat]
      by_cases hfr : 0 < (ds.length : Int) - (j : Int)
      · rw [if_pos hfr]
        have hjl : j < ds.length := by omega
        have hcnt : ((ds.length : Int) - (j : Int)).toNat = ds.length - j := by omega
        rw [hcnt, map_digitAt_drop ds j (ds.length - j) (by omega)]
        have hz : ds.length ≤ j → False := by omega
        have hrep : j - ds.length = 0 := by omega
        rw [hrep, List.replicate_zero, List.append_nil]
        refine ⟨ds.take j, ds.drop j, true, fun c hc => hall c (List.mem_of_mem_take hc),
          fun c hc => hall c (List.mem_of_mem_drop hc), ?_, by simp, Or.inl ⟨by simp, ?_, ?_⟩⟩
        · intro h
          rcases List.take_eq_nil_iff.mp h with h | h
          · omega
          · exact hne h
        · rw [List.take_append_drop, hval]
          have : k.toNat = 0 := by omega
          rw [this]
          simp
        · rw [List.length_drop]
          omega
      · rw [if_neg hfr]
        have hjl : ds.length ≤ j := by omega
        have htk : (ds ++ List.replicate (j - ds.length) '0').take j =
            ds ++ List.replicate (j - ds.length) '0' := by
          apply List.take_of_length_le
          simp
          omega
        rw [htk]
        refine ⟨ds ++ List.replicate (j - ds.length) '0', [], false, ?_, by simp, by simp [hne],
          fun _ => rfl, Or.inl ⟨by simp, ?_, ?_⟩⟩
        · intro c hc
          rcases List.mem_append.mp hc with h | h
          · exact hall c h
          · rw [(List.mem_replicate.mp h).2]
            decide
        · rw [List.append_nil, digitsValue_append, digitsValue_replicate_zero, hval,
            List.length_replicate]
          have : k.toNat = j - ds.length := by omega
          rw [this]
          simp
        · simp
          omega
    · rw [if_neg h0]
      have hfr : 0 < (ds.length : Int) - ((ds.length : Int) + k) := by omega
      rw [if_pos hfr]
      obtain ⟨z, hz⟩ : ∃ z : ℕ, (ds.length : Int) + k = -(z : Int) :=
        ⟨(-((ds.length : Int) + k)).toNat, by omega⟩
      rw [hz]
      have hcnt : ((ds.length : Int) - -(z : Int)).toNat = z + ds.length := by omega
      rw [hcnt, map_digitAt_neg]
      refine ⟨['0'], List.replicate z '0' ++ ds, true, by decide, ?_, by simp, by simp,
        Or.inl ⟨by simp, ?_, ?_⟩⟩
      · intro c hc
        rcases List.mem_append.mp hc with h | h
        · rw [(List.mem_replicate.mp h).2]
          decide
        · exact hall c h
      · rw [digitsValue_append, digitsValue_append, digitsValue_replicate_zero, hval]
        have : k.toNat = 0 := by omega
        rw [this]
        simp [digitsValue]
      · rw [List.length_append, List.length_replicate]
        omega

/-- Reading back the `'g'` layout of the numeral `d * 10^k`: the binary64 nearest to it. -/
theorem parseFloat_fmtShortest (neg : Bool) (d : Nat) (k : Int)
    (hlo : -100000 < ((natDigits d).length : Int) + k - 1)
    (hhi : ((natDigits d).length : Int) + k - 1 < 100000) :
    parseFloat (fmtShortest (if neg then ['-'] else []) d k) =
      roundToFloat neg (d * 10 ^ k.toNat) (10 ^ (-k).toNat) := by
  have hx : ∀ c ∈ fmtShortest [] d k, c ≠ '_' ∧ c.toLower ≠ 'x' :=
    fmtShortest_forall _ (by decide) (by decide) [] (by simp) d k
  rw [fmtShortest_sign]
  obtain ⟨ip, fp, dot, hip, hfp, hne, hdot, h | ⟨sg, ed, h, hsg, hed0, hed, hv, hk⟩⟩ :=
    fmtShortest_shape d k hlo hhi
  · obtain ⟨hbody, hv, hlen⟩ := h
    rw [hbody] at hx ⊢
    rw [parseFloat_decimal neg ip _ hip hne hx, readNumber_decimal neg ip fp dot hip hfp hne hdot,
      hv, hlen]
  · rw [h, List.append_assoc] at hx ⊢
    rw [parseFloat_decimal neg ip _ hip hne hx, ← List.append_assoc,
      readNumber_decimal_exp neg ip fp dot sg ed hip hfp hne hdot hsg hed0 hed, hv, hk]

set_option exponentiation.threshold 2048

/-- A binary64 in normal form is the rounding of its own value. -/
theorem roundToFloat_self (neg : Bool) (m : Nat) (e : Int) (hm : m ≠ 0)
    (hnf : (2 ^ 52 ≤ m ∧ m < 2 ^ 53 ∧ -1074 ≤ e ∧ e ≤ 971) ∨ (m < 2 ^ 52 ∧ e = -1074)) :
    roundToFloat neg (m * 2 ^ e.toNat) (2 ^ (-e).toNat) = Float64.finite neg m e := by
  apply roundToFloat_near neg _ _ m e (by positivity) hm hnf (m : ℚ)
  · have h := zpow_two_split e
    have hp : (0 : ℚ) < ((2 ^ (-e).toNat : ℕ) : ℚ) := by positivity
    have hq : (0 : ℚ) < (2 : ℚ) ^ e := by positivity
    rw [h]
    push_cast
    field_simp
  · linarith
  · intro _ _
    linarith
  · linarith
  · intro _
    constructor <;> linarith

/-- The decimal exponent of a numeral inside the rounding interval of a binary64 stays far
inside the range in which the exponent digits are read in full. -/
theorem decimal_exponent_bound (m d : Nat) (e k : Int) (hm : m ≠ 0)
    (hnf : (2 ^ 52 ≤ m ∧ m < 2 ^ 53 ∧ -1074 ≤ e ∧ e ≤ 971) ∨ (m < 2 ^ 52 ∧ e = -1074))
    (hlo : (m : ℚ) - 1 / 2 ≤ (d : ℚ) * (10 : ℚ) ^ k / (2 : ℚ) ^ e)
    (hhi : (d : ℚ) * (10 : ℚ) ^ k / (2 : ℚ) ^ e ≤ (m : ℚ) + 1 / 2) :
    -100000 < ((natDigits d).length : Int) + k - 1 ∧
      ((natDigits d).length : Int) + k - 1 < 100000 := by
  have h10 : (10 : ℚ) ≠ 0 := by norm_num
  have hmq : (1 : ℚ) ≤ m := by exact_mod_cast Nat.one_le_iff_ne_zero.mpr hm
  have hm53 : (m : ℚ) + 1 / 2 < (2 : ℚ) ^ (53 : ℕ) := by
    have : m + 1 ≤ 2 ^ 53 := by
      rcases hnf with h | h
      · omega
      · have : (2 : ℕ) ^ 52 < 2 ^ 53 := by norm_num
        omega
    have h' : ((m + 1 : ℕ) : ℚ) ≤ ((2 ^ 53 : ℕ) : ℚ) := by exact_mod_cast this
    push_cast at h'
    linarith
  have he1 : -1074 ≤ e := by rcases hnf with h | h <;> omega
  have he2 : e ≤ 971 := by rcases hnf with h | h <;> omega
  have hpe : (0 : ℚ) < (2 : ℚ) ^ e := by positivity
  rw [le_div_iff₀ hpe] at hlo
  rw [div_le_iff₀ hpe] at hhi
  -- the value is positive, so `d` is not zero
  have hV : (0 : ℚ) < (d : ℚ) * (10 : ℚ) ^ k := by nlinarith
  have hd0 : d ≠ 0 := by
    rintro rfl
    simp at hV
  obtain ⟨hl1, hl2, hl3⟩ := natDigits_length_spec d
  have hl2' := hl2 hd0
  generalize (natDigits d).length = nd at hl1 hl2' hl3 ⊢
  have hpk : (0 : ℚ) < (10 : ℚ) ^ k := by positivity
  have hdlo : (10 : ℚ) ^ ((nd : ℤ) - 1) ≤ d := by
    have : ((nd : ℤ) - 1) = ((nd - 1 : ℕ) : ℤ) := by rw [Nat.cast_sub hl3]; rfl
    rw [this, zpow_natCast]
    exact_mod_cast hl2'
  have hdhi : (d : ℚ) < (10 : ℚ) ^ (nd : ℤ) := by
    rw [zpow_natCast]
    exact_mod_cast hl1
  have hVlo : (10 : ℚ) ^ ((nd : ℤ) + k - 1) ≤ (d : ℚ) * (10 : ℚ) ^ k := by
    have : (nd : ℤ) + k - 1 = ((nd : ℤ) - 1) + k := by ring
    rw [this, zpow_add₀ h10]
    exact mul_le_mul_of_nonneg_right hdlo hpk.le
  have hVhi : (d : ℚ) * (10 : ℚ) ^ k < (10 : ℚ) ^ ((nd : ℤ) + k) := by
    rw [zpow_add₀ h10]
    exact mul_lt_mul_of_pos_right hdhi hpk
  -- bounds of the binary side
  have h972 : (972 : ℕ) = 3 * 324 := by norm_num
  have h1077 : (1077 : ℕ) = 3 * 359 := by norm_num
  have h8 : (2 : ℚ) ^ (3 : ℕ) ≤ 10 := by norm_num
  have h2e_hi : (2 : ℚ) ^ e ≤ (10 : ℚ) ^ ((324 : ℕ) : ℤ) := by
    calc (2 : ℚ) ^ e ≤ (2 : ℚ) ^ ((972 : ℕ) : ℤ) :=
          zpow_le_zpow_right₀ (by norm_num) (by push_cast; omega)
      _ = ((2 : ℚ) ^ (3 : ℕ)) ^ (324 : ℕ) := by rw [zpow_natCast, h972, pow_mul]
      _ ≤ (10 : ℚ) ^ (324 : ℕ) := pow_le_pow_left₀ (by norm_num) h8 _
      _ = (10 : ℚ) ^ ((324 : ℕ) : ℤ) := (zpow_natCast _ _).symm
  have h2e_lo : (10 : ℚ) ^ (-((359 : ℕ) : ℤ)) ≤ (2 : ℚ) ^ e := by
    have h1 : ((2 : ℚ)) ^ (1077 : ℕ) ≤ (10 : ℚ) ^ (359 : ℕ) := by
      calc ((2 : ℚ)) ^ (1077 : ℕ) = ((2 : ℚ) ^ (3 : ℕ)) ^ (359 : ℕ) := by rw [h1077, pow_mul]
        _ ≤ (10 : ℚ) ^ (359 : ℕ) := pow_le_pow_left₀ (by norm_num) h8 _
    calc (10 : ℚ) ^ (-((359 : ℕ) : ℤ)) = ((10 : ℚ) ^ (359 : ℕ))⁻¹ := by
          rw [zpow_neg, zpow_natCast]
      _ ≤ (((2 : ℚ)) ^ (1077 : ℕ))⁻¹ := inv_anti₀ (by positivity) h1
      _ = (2 : ℚ) ^ (-((1077 : ℕ) : ℤ)) := by rw [zpow_neg, zpow_natCast]
      _ ≤ (2 : ℚ) ^ e := zpow_le_zpow_right₀ (by norm_num) (by push_cast; omega)
  have h253 : (2 : ℚ) ^ (53 : ℕ) ≤ (10 : ℚ) ^ ((16 : ℕ) : ℤ) := by
    rw [zpow_natCast]; norm_num
  constructor
  · -- the value is at least `2^e / 2`
    have h1 : (10 : ℚ) ^ (-((359 : ℕ) : ℤ) - 1) < (10 : ℚ) ^ ((nd : ℤ) + k) := by
      have h3 : (10 : ℚ) ^ (-((359 : ℕ) : ℤ) - 1) = (10 : ℚ) ^ (-((359 : ℕ) : ℤ)) / 10 := by
        rw [zpow_sub₀ h10, zpow_one]
      have h4 : (0 : ℚ) < (10 : ℚ) ^ (-((359 : ℕ) : ℤ)) := by positivity
      have h5 : (1 / 2 : ℚ) * (2 : ℚ) ^ e ≤ (d : ℚ) * (10 : ℚ) ^ k := by nlinarith
      rw [h3]
      generalize (10 : ℚ) ^ (-((359 : ℕ) : ℤ)) = X at h2e_lo h4 ⊢
      generalize (10 : ℚ) ^ ((nd : ℤ) + k) = Y at hVhi ⊢
      generalize (2 : ℚ) ^ e = P at h2e_lo h5 hpe
      generalize (d : ℚ) * (10 : ℚ) ^ k = V at hVhi h5
      linarith
    have := (zpow_lt_zpow_iff_right₀ (by norm_num : (1 : ℚ) < 10)).mp h1
    push_cast at this
    omega
  · have h1 : (10 : ℚ) ^ ((nd : ℤ) + k - 1) < (10 : ℚ) ^ (((16 : ℕ) : ℤ) + ((324 : ℕ) : ℤ)) := by
      have h4 : ((m : ℚ) + 1 / 2) * (2 : ℚ) ^ e <
          (10 : ℚ) ^ ((16 : ℕ) : ℤ) * (10 : ℚ) ^ ((324 : ℕ) : ℤ) := by
        calc ((m : ℚ) + 1 / 2) * (2 : ℚ) ^ e < (2 : ℚ) ^ (53 : ℕ) * (2 : ℚ) ^ e :=
              mul_lt_mul_of_pos_right hm53 hpe
          _ ≤ (10 : ℚ) ^ ((16 : ℕ) : ℤ) * (10 : ℚ) ^ ((324 : ℕ) : ℤ) :=
              mul_le_mul h253 h2e_hi hpe.le (by positivity)
      rw [zpow_add₀ h10]
      generalize (10 : ℚ) ^ ((16 : ℕ) : ℤ) * (10 : ℚ) ^ ((324 : ℕ) : ℤ) = X at h4 ⊢
      generalize (10 : ℚ) ^ ((nd : ℤ) + k - 1) = Y at hVlo ⊢
      generalize ((m : ℚ) + 1 / 2) * (2 : ℚ) ^ e = P at h4 hhi
      generalize (d : ℚ) * (10 : ℚ) ^ k = V at hVlo hhi
      linarith
    have := (zpow_lt_zpow_iff_right₀ (by norm_num : (1 : ℚ) < 10)).mp h1
    push_cast at this
    omega

/-- The shortest digits of a nonzero binary64 in normal form read back as the number. -/
theorem parseFloat_fmtG_normal (neg : Bool) (m : Nat) (e : Int) (hm : m ≠ 0)
    (hnf : (2 ^ 52 ≤ m ∧ m < 2 ^ 53 ∧ -1074 ≤ e ∧ e ≤ 971) ∨ (m < 2 ^ 52 ∧ e = -1074)) :
    parseFloat (fmtG (Float64.finite neg m e)) = Float64.finite neg m e := by
  obtain ⟨h1, h2, h3, h4⟩ := shortestDecimal_near m e hm hnf
  obtain ⟨hb1, hb2⟩ := decimal_exponent_bound m _ e _ hm hnf h1 h3
  unfold fmtG
  simp only [roundToFloat_self neg m e hm hnf, hm, if_false]
  rw [parseFloat_fmtShortest neg _ _ hb1 hb2]
  generalize shortestDecimal m e = dk at h1 h2 h3 h4
  apply roundToFloat_near neg _ _ m e (by positivity) hm hnf _ _ h1 h2 h3 h4
  rw [zpow_ten_split dk.2]
  push_cast
  ring

/-- Every binary64 in canonical form is read back from its shortest digits. -/
theorem parseFloat_fmtG_canonical (x : Float64) (h : x.IsCanonical) : parseFloat (fmtG x) = x := by
  cases x with
  | nan => decide
  | inf neg => cases neg <;> decide
  | finite neg m e =>
    rcases h with ⟨rfl, rfl⟩ | ⟨h1, h2, h3, h4⟩ | ⟨h1, h2, h3⟩
    · cases neg <;> decide
    · exact parseFloat_fmtG_normal neg m e (by omega) (Or.inl ⟨h1, h2, h3, h4⟩)
    · exact parseFloat_fmtG_normal neg m e (by omega) (Or.inr ⟨h2, h3⟩)

theorem canon_of_canonical (x : Float64) (h : x.IsCanonical) : x.canon = x := by
  cases x with
  | nan => rfl
  | inf neg => rfl
  | finite neg m e =>
    rcases h with ⟨rfl, rfl⟩ | ⟨h1, h2, h3, h4⟩ | ⟨h1, h2, h3⟩
    · cases neg <;> decide
    · have hm : m ≠ 0 := by omega
      simp only [Float64.canon, roundToFloat_self neg m e hm (Or.inl ⟨h1, h2, h3, h4⟩), hm,
        if_false]
    · have hm : m ≠ 0 := by omega
      simp only [Float64.canon, roundToFloat_self neg m e hm (Or.inr ⟨h2, h3⟩), hm, if_false]

theorem canon_isCanonical (x : Float64) : x.canon.IsCanonical := by
  cases x with
  | nan => trivial
  | inf neg => trivial
  | finite neg m e =>
    cases hr : roundToFloat neg (m * 2 ^ e.toNat) (2 ^ (-e).toNat) with
    | nan =>
      simp only [Float64.canon, hr]
      trivial
    | inf n =>
      simp only [Float64.canon, hr]
      trivial
    | finite n m2 e2 =>
      obtain ⟨-, hnf⟩ := roundToFloat_normal neg _ _ (by positivity) n m2 e2 hr
      simp only [Float64.canon, hr]
      split_ifs with h0
      · exact Or.inl ⟨rfl, rfl⟩
      · rcases hnf with h | h | h
        · exact absurd h h0
        · exact Or.inr (Or.inl h)
        · exact Or.inr (Or.inr ⟨Nat.pos_of_ne_zero h0, h.1, h.2⟩)

/-- The text of a number depends on its canonical form only. -/
theorem fmtG_canon (x : Float64) : fmtG x.canon = fmtG x := by
  cases x with
  | nan => rfl
  | inf neg => rfl
  | finite neg m e =>
    cases hr : roundToFloat neg (m * 2 ^ e.toNat) (2 ^ (-e).toNat) with
    | nan =>
      simp only [Float64.canon, hr]
      simp only [fmtG, hr]
      rfl
    | inf n =>
      simp only [Float64.canon, hr]
      simp only [fmtG, hr]
      cases n <;> rfl
    | finite n m2 e2 =>
      obtain ⟨hn, hnf⟩ := roundToFloat_normal neg _ _ (by positivity) n m2 e2 hr
      subst hn
      by_cases h0 : m2 = 0
      · subst h0
        simp only [Float64.canon, hr, if_true]
        have hz : roundToFloat n (0 * 2 ^ (0 : ℤ).toNat) (2 ^ (-(0 : ℤ)).toNat) =
            Float64.finite n 0 0 := by
          simp [roundToFloat]
        simp only [fmtG, hr, hz, if_true]
      · have hnf' : (2 ^ 52 ≤ m2 ∧ m2 < 2 ^ 53 ∧ -1074 ≤ e2 ∧ e2 ≤ 971) ∨
            (m2 < 2 ^ 52 ∧ e2 = -1074) := by
          rcases hnf with h | h | h
          · exact absurd h h0
          · exact Or.inl h
          · exact Or.inr h
        simp only [Float64.canon, hr, h0, if_false]
        simp only [fmtG, hr, roundToFloat_self n m2 e2 h0 hnf', h0, if_false]

/-- The default text of a `float64` reads back as the number, in its canonical form. -/
theorem parseFloat_fmtG (x : Float64) : parseFloat (fmtG x) = x.canon := by
  rw [← fmtG_canon]
  exact parseFloat_fmtG_canonical _ (canon_isCanonical x)

/-- C18 fails as stated: the counter value `9007199254740993` is read back as the binary64
`9007199254740992`, so a percentage unit shows `900719925474099200.00%`, while the decimal
of `100 * n` is `900719925474099300`; and a value whose hundredfold overflows shows
`+Inf%`, without decimals. -/
theorem percentage_of_large_values :
    stringsContains "percentage" "percentage" = true ∧ ¬ isDurationUnit "percentage" ∧
    stringsContains "percentage" "bytes" = false ∧
    renderValue "percentage" (Value.int 9007199254740993) =
      Except.ok "900719925474099200.00%" ∧
    String.mk (fmtInt (100 * 9007199254740993)) = "900719925474099300" ∧
    renderValue "percentage" (Value.float (Float64.finite false (2 ^ 52) 971)) =
      Except.ok "+Inf%" := by
  refine ⟨by decide, by decide, by decide, by decide, by decide, by decide⟩

/-! ## Extracted values are numbers -/

theorem valueChars_numeral : (∀ c ∈ decimalChars, c ∈ valueChars) ∧
    (∀ c ∈ "+-.eNaInf".data, c ∈ valueChars) := by decide

theorem sprintfFixed_valueChars (p : Nat) (x : Float64) (suffix : String)
    (hs : ∀ c ∈ suffix.data, c ∈ valueChars) :
    ∀ c ∈ (sprintfFixed p x suffix).data, c ∈ valueChars := by
  intro c hc
  simp only [sprintfFixed, String.data_append, List.mem_append] at hc
  rcases hc with hc | hc
  · exact fmtFixed_forall _ valueChars_numeral.1 valueChars_numeral.2 p x c hc
  · exact hs c hc

theorem sprintfInt_valueChars (i : Int) (suffix : String)
    (hs : ∀ c ∈ suffix.data, c ∈ valueChars) :
    ∀ c ∈ (sprintfInt i suffix).data, c ∈ valueChars := by
  intro c hc
  simp only [sprintfInt, String.data_append, List.mem_append] at hc
  rcases hc with hc | hc
  · exact fmtInt_forall _ valueChars_numeral.1 (by decide) i c hc
  · exact hs c hc

theorem fmtV_valueChars (v : Value) (hv : (∃ i, v = Value.int i) ∨ (∃ x, v = Value.float x)) :
    ∀ c ∈ fmtV v, c ∈ valueChars := by
  rcases hv with ⟨i, rfl⟩ | ⟨x, rfl⟩
  · exact fmtInt_forall _ valueChars_numeral.1 (by decide) i
  · exact fmtG_forall _ valueChars_numeral.1 valueChars_numeral.2 x

/-- On an integer or a floating-point number every time converter returns a text, never
the `unsupported type` error. -/
theorem convertToReadableTime_numeric (v : Value) (u : String)
    (hv : (∃ i, v = Value.int i) ∨ (∃ x, v = Value.float x)) (hu : isDurationUnit u) :
    ∃ s, ConvertToReadableTime v u = Except.ok s ∧ ∀ c ∈ s.data, c ∈ valueChars := by
  have hh : ∀ c ∈ "h".data, c ∈ valueChars := by decide
  have hsec : ∀ c ∈ "s".data, c ∈ valueChars := by decide
  have hms : ∀ c ∈ "ms".data, c ∈ valueChars := by decide
  have hns : ∀ c ∈ "ns".data, c ∈ valueChars := by decide
  rcases hu with rfl | rfl | rfl | rfl
  · have hu : ConvertToReadableTime v "ns" = NanosecondsConverter.Convert v := by
      simp [ConvertToReadableTime]
    rw [hu]
    rcases hv with ⟨i, rfl⟩ | ⟨x, rfl⟩ <;> simp only [NanosecondsConverter.Convert] <;>
      split_ifs <;>
      first
        | exact ⟨_, rfl, sprintfFixed_valueChars _ _ _ (by assumption)⟩
        | exact ⟨_, rfl, sprintfInt_valueChars _ _ (by assumption)⟩
  · have hu : ConvertToReadableTime v "ms" = MillisecondsConverter.Convert v := by
      simp [ConvertToReadableTime]
    rw [hu]
    rcases hv with ⟨i, rfl⟩ | ⟨x, rfl⟩ <;> simp only [MillisecondsConverter.Convert] <;>
      split_ifs <;> exact ⟨_, rfl, sprintfFixed_valueChars _ _ _ (by assumption)⟩
  · have hu : ConvertToReadableTime v "seconds" = SecondsConverter.Convert v := by
      simp [ConvertToReadableTime]
    rw [hu]
    rcases hv with ⟨i, rfl⟩ | ⟨x, rfl⟩ <;> simp only [SecondsConverter.Convert] <;>
      split_ifs <;> exact ⟨_, rfl, sprintfFixed_valueChars _ _ _ (by assumption)⟩
  · have hu : ConvertToReadableTime v "hours" = HoursConverter.Convert v := by
      simp [ConvertToReadableTime]
    rw [hu]
    rcases hv with ⟨i, rfl⟩ | ⟨x, rfl⟩ <;> simp only [HoursConverter.Convert] <;>
      exact ⟨_, rfl, sprintfFixed_valueChars _ _ _ (by assumption)⟩

theorem convertToReadableBytes_numeric (v : Value)
    (hv : (∃ i, v = Value.int i) ∨ (∃ x, v = Value.float x)) :
    ∀ c ∈ (ConvertToReadableBytes v).data, c ∈ valueChars := by
  have h1 : ∀ c ∈ " TB".data, c ∈ valueChars := by decide
  have h2 : ∀ c ∈ " GB".data, c ∈ valueChars := by decide
  have h3 : ∀ c ∈ " MB".data, c ∈ valueChars := by decide
  have h4 : ∀ c ∈ " KB".data, c ∈ valueChars := by decide
  have h5 : ∀ c ∈ " bytes".data, c ∈ valueChars := by decide
  rcases hv with ⟨i, rfl⟩ | ⟨x, rfl⟩
  · simp only [ConvertToReadableBytes, ConvertIntBytes]
    split_ifs <;>
      first
        | exact sprintfFixed_valueChars _ _ _ (by assumption)
        | exact sprintfInt_valueChars _ _ (by assumption)
  · simp only [ConvertToReadableBytes, ConvertFloatBytes]
    split_ifs <;> exact sprintfFixed_valueChars _ _ _ (by assumption)

/-- For an integer or a floating-point number the rendering of lines 141-156 succeeds for
every unit, with a text of numeral and unit-suffix characters. -/
theorem renderValue_numeric (unit : String) (v : Value)
    (hv : (∃ i, v = Value.int i) ∨ (∃ x, v = Value.float x)) :
    ∃ s, renderValue unit v = Except.ok s ∧ ∀ c ∈ s.data, c ∈ valueChars := by
  rw [renderValue_eq]
  split_ifs with hd hb hp
  · exact convertToReadableTime_numeric v unit hv hd
  · exact ⟨_, rfl, convertToReadableBytes_numeric v hv⟩
  · exact ⟨_, rfl, sprintfFixed_valueChars _ _ _ (by decide)⟩
  · exact ⟨_, rfl, fmtV_valueChars v hv⟩

theorem extracted_value_kind (regex : Regex) (m : Metric) (e : Extracted)
    (he : e ∈ extractWith regex m) :
    (∃ c ∈ m.Counters, e.name = c.Name ∧ e.value = Value.int c.Count) ∨
    (∃ g ∈ m.Gauges, e.name = g.Name ∧ e.value = Value.float g.Value) ∨
    (∃ x ∈ m.Points, e.name = x.Name ∧ e.value = Value.float x.Points) ∨
    (∃ s ∈ m.Samples, e.name = s.Name ∧ e.value = Value.float s.Mean) := by
  rcases mem_extractWith regex m e he with ⟨g, hg, -, rfl⟩ | ⟨g, hg, -, rfl⟩ | ⟨g, hg, -, rfl⟩ |
    ⟨g, hg, -, rfl⟩
  · exact Or.inr (Or.inl ⟨g, hg, rfl, rfl⟩)
  · exact Or.inr (Or.inr (Or.inl ⟨g, hg, rfl, rfl⟩))
  · exact Or.inl ⟨g, hg, rfl, rfl⟩
  · exact Or.inr (Or.inr (Or.inr ⟨g, hg, rfl, rfl⟩))

theorem extracted_value_numeric (regex : Regex) (m : Metric) (e : Extracted)
    (he : e ∈ extractWith regex m) :
    (∃ i, e.value = Value.int i) ∨ (∃ x, e.value = Value.float x) := by
  rcases extracted_value_kind regex m e he with ⟨c, -, -, h⟩ | ⟨g, -, -, h⟩ | ⟨x, -, -, h⟩ |
    ⟨s, -, -, h⟩
  · exact Or.inl ⟨_, h⟩
  · exact Or.inr ⟨_, h⟩
  · exact Or.inr ⟨_, h⟩
  · exact Or.inr ⟨_, h⟩

theorem numeric_ne_nil (v : Value) (hv : (∃ i, v = Value.int i) ∨ (∃ x, v = Value.float x)) :
    v ≠ Value.nil := by
  rcases hv with ⟨i, rfl⟩ | ⟨x, rfl⟩ <;> exact fun h => Value.noConfusion h

/-- A row whose value text is free of `<` is not the row written for an absent value. -/
theorem mkRow_ne_nil_row (timestamp name metricType unit v labels : String)
    (hv : ∀ c ∈ v.data, c ≠ '<') :
    mkRow timestamp name metricType unit v labels ≠
      mkRow timestamp name metricType unit "<nil>" "-" := by
  intro h
  have h := congrArg String.data h
  simp only [mkRow, List.append_assoc, List.cons_append] at h
  have h := (List.cons.inj (List.append_cancel_left h)).2
  have h := (List.cons.inj (List.append_cancel_left h)).2
  have h := (List.cons.inj (List.append_cancel_left h)).2
  have h := (List.cons.inj (List.append_cancel_left h)).2
  have h := congrArg List.head? h
  cases hd : v.data with
  | nil =>
    rw [hd] at h
    simp only [List.nil_append, List.head?_cons, Option.some.injEq] at h
    exact absurd h (by decide)
  | cons c cs =>
    rw [hd] at h
    simp only [List.cons_append, List.head?_cons, Option.some.injEq] at h
    exact hv c (by rw [hd]; exact List.mem_cons_self _ _) h

/-- The row of an entry that holds a number is the row of the value branch. -/
theorem rowFor_numeric (metricType unit : String) (e : Extracted)
    (hv : (∃ i, e.value = Value.int i) ∨ (∃ x, e.value = Value.float x)) :
    ∃ v, renderValue unit e.value = Except.ok v ∧ (∀ c ∈ v.data, c ∈ valueChars) ∧
      rowFor metricType unit e = Except.ok (mkRow e.timestamp e.name metricType unit v
        (fmtStrings (labelTexts e.labels))) := by
  obtain ⟨v, h1, h2⟩ := renderValue_numeric unit e.value hv
  refine ⟨v, h1, h2, ?_⟩
  unfold rowFor
  rw [if_pos (numeric_ne_nil _ hv), h1]

theorem appendRows_numeric (metricType unit : String) (data : List Extracted)
    (h : ∀ e ∈ data, (∃ i, e.value = Value.int i) ∨ (∃ x, e.value = Value.float x))
    (acc : List String) :
    ∃ new, appendRows metricType unit data acc = Except.ok (acc ++ new) ∧
      ∀ r ∈ new, ∃ e ∈ data, rowFor metricType unit e = Except.ok r := by
  induction data generalizing acc with
  | nil => exact ⟨[], by simp [appendRows], by simp⟩
  | cons info rest ih =>
    obtain ⟨v, -, -, hrow⟩ := rowFor_numeric metricType unit info (h info (List.mem_cons_self _ _))
    generalize mkRow info.timestamp info.name metricType unit v
      (fmtStrings (labelTexts info.labels)) = row at hrow
    obtain ⟨new, hnew, hall⟩ := ih (fun e he => h e (List.mem_cons_of_mem _ he)) (acc ++ [row])
    refine ⟨row :: new, ?_, ?_⟩
    · simp only [appendRows, hrow, hnew]
      simp
    · intro r hr
      rcases List.mem_cons.mp hr with rfl | hr
      · exact ⟨info, List.mem_cons_self _ _, hrow⟩
      · obtain ⟨e, he, hre⟩ := hall r hr
        exact ⟨e, List.mem_cons_of_mem _ he, hre⟩

/-- Once the pattern compiles, the loop over the snapshots returns rows: the ones it was
given, followed by rows that are each the row of an entry extracted from a snapshot. -/
theorem collectRows_numeric (name metricType unit : String) (regex : Regex)
    (hc : regexpCompile (".*" ++ name) = some regex) (ms : List Metric) (acc : List String) :
    ∃ new, collectRows name metricType unit ms acc = Except.ok (acc ++ new) ∧
      ∀ r ∈ new, ∃ m ∈ ms, ∃ e ∈ extractWith regex m,
        rowFor metricType unit e = Except.ok r := by
  induction ms generalizing acc with
  | nil => exact ⟨[], by simp [collectRows], by simp⟩
  | cons m rest ih =>
    have hex : m.ExtractMetricValueByName name = some (extractWith regex m) := by
      simp only [Metric.ExtractMetricValueByName, hc]
    obtain ⟨new1, h1, hall1⟩ := appendRows_numeric metricType unit (extractWith regex m)
      (fun e he => extracted_value_numeric regex m e he) acc
    obtain ⟨new2, h2, hall2⟩ := ih (acc ++ new1)
    refine ⟨new1 ++ new2, ?_, ?_⟩
    · simp only [collectRows, hex, h1, h2, List.append_assoc]
    · intro r hr
      rcases List.mem_append.mp hr with hr | hr
      · obtain ⟨e, he, hre⟩ := hall1 r hr
        exact ⟨m, List.mem_cons_self _ _, e, he, hre⟩
      · obtain ⟨m2, hm2, e, he, hre⟩ := hall2 r hr
        exact ⟨m2, List.mem_cons_of_mem _ hm2, e, he, hre⟩

theorem insertBack_mem (x : String) (acc l : List String) (h : insertBack x acc = some l) :
    ∀ r ∈ l, r = x ∨ r ∈ acc := by
  induction acc generalizing l with
  | nil =>
    simp only [insertBack, Option.some.injEq] at h
    subst h
    intro r hr
    exact Or.inl (List.mem_singleton.mp hr)
  | cons y ys ih =>
    unfold insertBack at h
    split at h
    · exact absurd h (by simp)
    · cases hi : insertBack x ys with
      | none => rw [hi] at h; exact absurd h (by simp)
      | some l2 =>
        rw [hi] at h
        simp only [Option.map_some', Option.some.injEq] at h
        subst h
        intro r hr
        rcases List.mem_cons.mp hr with rfl | hr
        · exact Or.inr (List.mem_cons_self _ _)
        · rcases ih l2 hi r hr with h1 | h1
          · exact Or.inl h1
          · exact Or.inr (List.mem_cons_of_mem _ h1)
    · simp only [Option.some.injEq] at h
      subst h
      intro r hr
      rcases List.mem_cons.mp hr with rfl | hr
      · exact Or.inl rfl
      · exact Or.inr hr

theorem sortLoop_mem (xs acc out : List String) (h : sortLoop xs acc = some out) :
    ∀ r ∈ out, r ∈ xs ∨ r ∈ acc := by
  induction xs generalizing acc with
  | nil =>
    simp only [sortLoop, Option.some.injEq] at h
    subst h
    intro r hr
    exact Or.inr (List.mem_reverse.mp hr)
  | cons x xs ih =>
    unfold sortLoop at h
    cases hi : insertBack x acc with
    | none => rw [hi] at h; exact absurd h (by simp)
    | some acc2 =>
      rw [hi] at h
      intro r hr
      rcases ih acc2 h r hr with h1 | h1
      · exact Or.inl (List.mem_cons_of_mem _ h1)
      · rcases insertBack_mem x acc acc2 hi r h1 with h2 | h2
        · exact Or.inl (h2 ▸ List.mem_cons_self _ _)
        · exact Or.inr h2

theorem collectRows_ok_compiles (name metricType unit : String) (ms : List Metric)
    (acc result : List String) (h : collectRows name metricType unit ms acc = Except.ok result) :
    (ms = [] ∧ result = acc) ∨ ∃ regex, regexpCompile (".*" ++ name) = some regex := by
  cases ms with
  | nil =>
    simp only [collectRows, Except.ok.injEq] at h
    exact Or.inl ⟨rfl, h.symm⟩
  | cons m rest =>
    right
    simp only [collectRows] at h
    cases hex : m.ExtractMetricValueByName name with
    | none => rw [hex] at h; exact absurd h (by simp)
    | some data =>
      obtain ⟨regex, hc, -⟩ := extract_eq_some m name data hex
      exact ⟨regex, hc⟩

/-- The rows a successful loop over the snapshots appends are rows of extracted entries. -/
theorem collectRows_entries (name metricType unit : String) (ms : List Metric)
    (acc result : List String) (h : collectRows name metricType unit ms acc = Except.ok result) :
    ∃ new, result = acc ++ new ∧
      ∀ r ∈ new, ∃ m ∈ ms, ∃ entries, m.ExtractMetricValueByName name = some entries ∧
        ∃ e ∈ entries, rowFor metricType unit e = Except.ok r := by
  rcases collectRows_ok_compiles _ _ _ _ _ _ h with ⟨-, hres⟩ | ⟨regex, hc⟩
  · exact ⟨[], by simp [hres], by simp⟩
  · obtain ⟨new, hnew, hall⟩ := collectRows_numeric name metricType unit regex hc ms acc
    rw [hnew] at h
    injection h with h
    refine ⟨new, h.symm, ?_⟩
    intro r hr
    obtain ⟨m, hm, e, he, hre⟩ := hall r hr
    exact ⟨m, hm, extractWith regex m, by simp only [Metric.ExtractMetricValueByName, hc], e, he, hre⟩

/-- No character of a rendered number is `<` or the field separator. -/
theorem valueChars_plain : ∀ c ∈ valueChars, c ≠ '<' ∧ c ≠ sep := by decide

theorem valueChars_ne_nil_text (v : String) (h : ∀ c ∈ v.data, c ∈ valueChars) : v ≠ "<nil>" := by
  intro hv
  subst hv
  exact (valueChars_plain '<' (h '<' (by decide))).1 rfl

/-- C21: every entry returned by `ExtractMetricValueByName` holds a number, the integer
`Count` of a counter or the floating-point `Value`, `Points` or `Mean` of a gauge, a point
or a sample, and never the absent value.  For such an entry and every unit the value is
rendered without error, as a text of numeral and unit-suffix characters that is not
`<nil>`, and the row written is the row of the value branch, not the `<nil>` row.  So
every data row `GetMetricValues` hands to the renderer is the value row of an extracted
entry, and once the telemetry is fetched, the name is accepted and the pattern compiles,
the rows are returned whatever the unit is: no conversion meets an unsupported type.
(The text `<nil>` can still stand in the labels field, for a label whose value is null.) -/
theorem extracted_values_are_numbers_no_nil_row :
    (∀ (m : Metric) (p : String) (entries : List Extracted),
      m.ExtractMetricValueByName p = some entries → ∀ e ∈ entries,
        ((∃ c ∈ m.Counters, e.name = c.Name ∧ e.value = Value.int c.Count) ∨
         (∃ g ∈ m.Gauges, e.name = g.Name ∧ e.value = Value.float g.Value) ∨
         (∃ x ∈ m.Points, e.name = x.Name ∧ e.value = Value.float x.Points) ∨
         (∃ s ∈ m.Samples, e.name = s.Name ∧ e.value = Value.float s.Mean)) ∧
        e.value ≠ Value.nil ∧
        ∀ metricType unit : String, ∃ v,
          renderValue unit e.value = Except.ok v ∧
          (∀ c ∈ v.data, c ∈ valueChars) ∧ v ≠ "<nil>" ∧
          rowFor metricType unit e = Except.ok (mkRow e.timestamp e.name metricType unit v
            (fmtStrings (labelTexts e.labels))) ∧
          rowFor metricType unit e ≠
            Except.ok (mkRow e.timestamp e.name metricType unit "<nil>" "-")) ∧
    (∀ (b : Debug) (fetch : TelemetryFetch) (name : String) (validate byValue : Bool)
        (rows : List String),
      GetMetricValuesRows b fetch name validate byValue = Except.ok rows →
      ∃ stringInfo table new, fetch = Except.ok (stringInfo, table) ∧ rows = headerRow :: new ∧
        ∀ row ∈ new, ∃ m ∈ b.Metrics.Metrics, ∃ entries,
          m.ExtractMetricValueByName name = some entries ∧ ∃ e ∈ entries, ∃ v,
            renderValue (GetUnitAndType name table).1 e.value = Except.ok v ∧
            (∀ c ∈ v.data, c ∈ valueChars) ∧ v ≠ "<nil>" ∧
            row = mkRow e.timestamp e.name (GetUnitAndType name table).2
              (GetUnitAndType name table).1 v (fmtStrings (labelTexts e.labels)) ∧
            row ≠ mkRow e.timestamp e.name (GetUnitAndType name table).2
              (GetUnitAndType name table).1 "<nil>" "-") ∧
    (∀ (b : Debug) (stringInfo : String) (table : List AgentTelemetryMetric) (name : String)
        (validate byValue : Bool) (regex : Regex),
      (validate = true → validateName name name stringInfo = Except.ok ()) →
      regexpCompile (".*" ++ name) = some regex →
      ∃ rows, GetMetricValuesRows b (Except.ok (stringInfo, table)) name validate byValue =
        Except.ok rows) ∧
    (∀ c ∈ valueChars, c ≠ '<' ∧ c ≠ sep) ∧
    fmtStrings (labelTexts [("dc", Value.nil)]) = "[{dc: <nil>}]" := by
  have hrow : ∀ (metricType unit : String) (e : Extracted),
      ((∃ i, e.value = Value.int i) ∨ (∃ x, e.value = Value.float x)) → ∃ v,
        renderValue unit e.value = Except.ok v ∧
        (∀ c ∈ v.data, c ∈ valueChars) ∧ v ≠ "<nil>" ∧
        rowFor metricType unit e = Except.ok (mkRow e.timestamp e.name metricType unit v
          (fmtStrings (labelTexts e.labels))) ∧
        mkRow e.timestamp e.name metricType unit v (fmtStrings (labelTexts e.labels)) ≠
          mkRow e.timestamp e.name metricType unit "<nil>" "-" := by
    intro metricType unit e hv
    obtain ⟨v, h1, h2, h3⟩ := rowFor_numeric metricType unit e hv
    exact ⟨v, h1, h2, valueChars_ne_nil_text v h2, h3,
      mkRow_ne_nil_row _ _ _ _ _ _ (fun c hc => (valueChars_plain c (h2 c hc)).1)⟩
  refine ⟨?_, ?_, ?_, valueChars_plain, by decide⟩
  · intro m p entries hex e he
    obtain ⟨regex, -, rfl⟩ := extract_eq_some m p entries hex
    have hnum := extracted_value_numeric regex m e he
    refine ⟨extracted_value_kind regex m e he, numeric_ne_nil _ hnum, ?_⟩
    intro metricType unit
    obtain ⟨v, h1, h2, h3, h4, h5⟩ := hrow metricType unit e hnum
    refine ⟨v, h1, h2, h3, h4, ?_⟩
    rw [h4]
    intro h
    injection h with h
    exact h5 h
  · intro b fetch name validate byValue rows h
    unfold GetMetricValuesRows at h
    cases fetch with
    | error e => exact absurd h (by simp)
    | ok p =>
      obtain ⟨stringInfo, telemetryInfo⟩ := p
      simp only [] at h
      cases hv : (if validate = true then validateName name name stringInfo else Except.ok ()) with
      | error e => rw [hv] at h; exact absurd h (by simp)
      | ok u =>
        rw [hv] at h
        simp only [] at h
        cases hc : collectRows name (GetUnitAndType name telemetryInfo).2
            (GetUnitAndType name telemetryInfo).1 b.Metrics.Metrics [headerRow] with
        | error e => rw [hc] at h; exact absurd h (by simp)
        | ok result =>
          rw [hc] at h
          simp only [] at h
          obtain ⟨new, hnew, hall⟩ := collectRows_entries _ _ _ _ _ _ hc
          subst hnew
          have hrows : ∀ row ∈ new, ∃ m ∈ b.Metrics.Metrics, ∃ entries,
              m.ExtractMetricValueByName name = some entries ∧ ∃ e ∈ entries, ∃ v,
                renderValue (GetUnitAndType name telemetryInfo).1 e.value = Except.ok v ∧
                (∀ c ∈ v.data, c ∈ valueChars) ∧ v ≠ "<nil>" ∧
                row = mkRow e.timestamp e.name (GetUnitAndType name telemetryInfo).2
                  (GetUnitAndType name telemetryInfo).1 v (fmtStrings (labelTexts e.labels)) ∧
                row ≠ mkRow e.timestamp e.name (GetUnitAndType name telemetryInfo).2
                  (GetUnitAndType name telemetryInfo).1 "<nil>" "-" := by
            intro row hr
            obtain ⟨m, hm, entries, hex, e, he, hre⟩ := hall row hr
            obtain ⟨regex, -, hent⟩ := extract_eq_some m name entries hex
            have hnum := extracted_value_numeric regex m e (hent ▸ he)
            obtain ⟨v, h1, h2, h3, h4, h5⟩ := hrow (GetUnitAndType name telemetryInfo).2
              (GetUnitAndType name telemetryInfo).1 e hnum
            rw [h4] at hre
            injection hre with hre
            subst hre
            exact ⟨m, hm, entries, hex, e, he, v, h1, h2, h3, rfl, h5⟩
          cases byValue with
          | false =>
            simp only [Bool.false_eq_true, if_false, Except.ok.injEq] at h
            subst h
            exact ⟨stringInfo, telemetryInfo, new, rfl, rfl, hrows⟩
          | true =>
            simp only [if_true, List.singleton_append, List.drop_succ_cons, List.drop_zero,
              List.take_succ_cons, List.take_zero] at h
            cases hs : sortByValue new with
            | none => rw [hs] at h; exact absurd h (by simp)
            | some sorted =>
              rw [hs] at h
              simp only [Except.ok.injEq] at h
              subst h
              refine ⟨stringInfo, telemetryInfo, sorted, rfl, rfl, ?_⟩
              intro row hr
              rcases sortLoop_mem new [] sorted hs row hr with h1 | h1
              · exact hrows row h1
              · exact absurd h1 (List.not_mem_nil _)
  · intro b stringInfo table name validate byValue regex hval hcomp
    obtain ⟨new, hnew, hall⟩ := collectRows_numeric name (GetUnitAndType name table).2
      (GetUnitAndType name table).1 regex hcomp b.Metrics.Metrics [headerRow]
    have hv : (if validate = true then validateName name name stringInfo else Except.ok ())
        = Except.ok () := by
      cases validate with
      | false => rfl
      | true => simpa using hval rfl
    unfold GetMetricValuesRows
    simp only [hv, hnew]
    cases byValue with
    | false => exact ⟨headerRow :: new, by simp⟩
    | true =>
      have hkey : ∀ r ∈ new, ∃ k, rowKey r = some k := by
        intro r hr
        obtain ⟨m, -, e, -, hre⟩ := hall r hr
        exact rowFor_isRow _ _ _ _ hre
      obtain ⟨out, hout⟩ := sortLoop_total new [] hkey (by simp)
      exact ⟨headerRow :: out, by simp [sortByValue, hout]⟩

theorem extracted_values_are_numbers_no_nil_row_witness :
    memSnapshot.ExtractMetricValueByName "mem" = some memExtracted ∧
    (∀ e ∈ memExtracted, e.value ≠ Value.nil ∧
      ∃ v, renderValue "ns" e.value = Except.ok v ∧ v ≠ "<nil>" ∧
        rowFor "gauge" "ns" e ≠ Except.ok (mkRow e.timestamp e.name "gauge" "ns" "<nil>" "-")) ∧
    GetMetricValuesRows pauseDebug pauseFetch "consul.runtime.total_gc_pause_ns" false true =
      Except.ok [headerRow,
        mkRow "t1" "consul.runtime.total_gc_pause_ns" "gauge" "ns" "1.00s" "[]",
        mkRow "t2" "consul.runtime.total_gc_pause_ns" "gauge" "ns" "2.00s" "[]"] ∧
    (∃ stringInfo table new, pauseFetch = Except.ok (stringInfo, table) ∧
      [headerRow, mkRow "t1" "consul.runtime.total_gc_pause_ns" "gauge" "ns" "1.00s" "[]",
        mkRow "t2" "consul.runtime.total_gc_pause_ns" "gauge" "ns" "2.00s" "[]"] =
        headerRow :: new ∧
      ∀ row ∈ new, ∃ m ∈ pauseDebug.Metrics.Metrics, ∃ entries,
        m.ExtractMetricValueByName "consul.runtime.total_gc_pause_ns" = some entries ∧
        ∃ e ∈ entries, ∃ v,
          renderValue (GetUnitAndType "consul.runtime.total_gc_pause_ns" table).1 e.value =
            Except.ok v ∧
          (∀ c ∈ v.data, c ∈ valueChars) ∧ v ≠ "<nil>" ∧
          row = mkRow e.timestamp e.name (GetUnitAndType "consul.runtime.total_gc_pause_ns" table).2
            (GetUnitAndType "consul.runtime.total_gc_pause_ns" table).1 v
            (fmtStrings (labelTexts e.labels)) ∧
          row ≠ mkRow e.timestamp e.name (GetUnitAndType "consul.runtime.total_gc_pause_ns" table).2
            (GetUnitAndType "consul.runtime.total_gc_pause_ns" table).1 "<nil>" "-") ∧
    validateName "mem" "mem" "consul.memberlist" = Except.ok () ∧
    (∃ regex, regexpCompile (".*" ++ "mem") = some regex) ∧
    (∃ rows, GetMetricValuesRows orderDebug (Except.ok ("consul.memberlist", [])) "mem" true true =
      Except.ok rows) :=
  ⟨by decide,
    fun e he =>
      have h := extracted_values_are_numbers_no_nil_row.1 memSnapshot "mem" memExtracted
        (by decide) e he
      ⟨h.2.1, (h.2.2 "gauge" "ns").imp fun _ hv => ⟨hv.1, hv.2.2.1, hv.2.2.2.2⟩⟩,
    by decide,
    extracted_values_are_numbers_no_nil_row.2.1 pauseDebug pauseFetch
      "consul.runtime.total_gc_pause_ns" false true _ (by decide),
    by decide,
    ⟨_, regexpCompile_dotStar_literals "mem" (by decide)⟩,
    extracted_values_are_numbers_no_nil_row.2.2.1 orderDebug "consul.memberlist" [] "mem" true true _
      (fun _ => by decide) (regexpCompile_dotStar_literals "mem" (by decide))⟩

/-! ## The keys of the sort -/

theorem insertBack_perm (x : String) (acc l : List String) (h : insertBack x acc = some l) :
    l.Perm (x :: acc) := by
  induction acc generalizing l with
  | nil =>
    simp only [insertBack, Option.some.injEq] at h
    subst h
    exact List.Perm.refl _
  | cons y ys ih =>
    unfold insertBack at h
    split at h
    · exact absurd h (by simp)
    · cases hi : insertBack x ys with
      | none => rw [hi] at h; exact absurd h (by simp)
      | some l2 =>
        rw [hi] at h
        simp only [Option.map_some', Option.some.injEq] at h
        subst h
        exact (List.Perm.cons y (ih l2 hi)).trans (List.Perm.swap x y ys)
    · simp only [Option.some.injEq] at h
      subst h
      exact List.Perm.refl _

theorem sortLoop_perm (xs acc out : List String) (h : sortLoop xs acc = some out) :
    out.Perm (acc.reverse ++ xs) := by
  induction xs generalizing acc with
  | nil =>
    simp only [sortLoop, Option.some.injEq] at h
    subst h
    simp
  | cons x xs ih =>
    unfold sortLoop at h
    cases hi : insertBack x acc with
    | none => rw [hi] at h; exact absurd h (by simp)
    | some l =>
      rw [hi] at h
      refine (ih l h).trans ?_
      have h1 : l.reverse.Perm (x :: acc) := (List.reverse_perm l).trans (insertBack_perm x acc l hi)
      have h2 : (x :: acc).Perm (acc.reverse ++ [x]) := by
        refine (List.perm_append_singleton x acc).symm.trans ?_
        exact List.Perm.append_right _ (List.reverse_perm acc).symm
      have h3 : (l.reverse ++ xs).Perm ((acc.reverse ++ [x]) ++ xs) :=
        List.Perm.append_right _ (h1.trans h2)
      simpa using h3

theorem roundToFloat_ne_nan (neg : Bool) (N D : Nat) : roundToFloat neg N D ≠ Float64.nan := by
  unfold roundToFloat packFloat
  simp only []
  split_ifs <;> simp

theorem readNumber_ne_nan (neg hex : Bool) (s : List Char) :
    readNumber neg hex s ≠ Float64.nan := by
  unfold readNumber
  simp only []
  split_ifs <;>
    first
      | exact roundToFloat_ne_nan _ _ _
      | exact fun h => Float64.noConfusion h
      | (split <;>
          first
            | exact roundToFloat_ne_nan _ _ _
            | exact fun h => Float64.noConfusion h)

/-- The only texts `ParseFloat` reads as a NaN are `nan` in any letter case. -/
theorem parseFloat_eq_nan (s : List Char) (h : parseFloat s = Float64.nan) :
    s.map Char.toLower = "nan".data := by
  unfold parseFloat at h
  by_contra hne
  have hsp : parseSpecial s ≠ some Float64.nan := by
    unfold parseSpecial
    simp only [hne, if_false]
    split_ifs <;> simp
  cases hp : parseSpecial s with
  | some f =>
    rw [hp] at h hsp
    simp only [] at h
    exact hsp (by rw [h])
  | none =>
    rw [hp] at h
    simp only [] at h
    split_ifs at h <;> exact readNumber_ne_nan _ _ _ h

theorem trimRightPercent_id (s : List Char) (h : ∀ c ∈ s, c ≠ '%') : trimRightPercent s = s := by
  unfold trimRightPercent
  have : s.reverse.dropWhile (fun c => decide (c = '%')) = s.reverse := by
    cases hr : s.reverse with
    | nil => rfl
    | cons c cs =>
      have hc : c ≠ '%' := h c (by rw [← List.mem_reverse, hr]; exact List.mem_cons_self _ _)
      simp [List.dropWhile, hc]
  rw [this, List.reverse_reverse]

theorem trimRightPercent_percent (s : List Char) (h : ∀ c ∈ s, c ≠ '%') :
    trimRightPercent (s ++ "%".data) = s := by
  have h1 : trimRightPercent (s ++ "%".data) = trimRightPercent s := by
    unfold trimRightPercent
    simp [List.dropWhile]
  rw [h1, trimRightPercent_id s h]

theorem text_ne_nan_of_getLast (s : List Char)
    (h : s.getLast?.map Char.toLower ≠ some 'n') : s.map Char.toLower ≠ "nan".data := by
  intro hs
  apply h
  have := congrArg List.getLast? hs
  rw [List.getLast?_map] at this
  rw [this]
  rfl

theorem text_ne_nan_of_head (c : Char) (rest : List Char) (h : c.toLower ≠ 'n') :
    (c :: rest).map Char.toLower ≠ "nan".data := by
  intro hs
  simp only [List.map_cons] at hs
  exact h (List.cons.inj hs).1

/-- A text that ends in a unit suffix is never read as a NaN. -/
theorem key_of_suffix (body : List Char) (suf : String) (hb : ∀ c ∈ body, c ≠ '%')
    (hs : (∀ c ∈ suf.data, c ≠ '%') ∧ suf.data ≠ [] ∧
      suf.data.getLast?.map Char.toLower ≠ some 'n') :
    parseFloat (trimRightPercent (body ++ suf.data)) ≠ Float64.nan := by
  obtain ⟨hs1, hs2, hs3⟩ := hs
  rw [trimRightPercent_id]
  · intro h
    refine text_ne_nan_of_getLast _ ?_ (parseFloat_eq_nan _ h)
    rw [List.getLast?_append_of_ne_nil _ hs2]
    exact hs3
  · intro c hc
    rcases List.mem_append.mp hc with h | h
    · exact hb c h
    · exact hs1 c h

theorem numeral_no_percent : (∀ c ∈ decimalChars, c ≠ '%') ∧
    (∀ c ∈ "+-.eNaInf".data, c ≠ '%') := by decide

theorem sprintfFixed_key (p : Nat) (x : Float64) (suf : String)
    (hs : (∀ c ∈ suf.data, c ≠ '%') ∧ suf.data ≠ [] ∧
      suf.data.getLast?.map Char.toLower ≠ some 'n') :
    parseFloat (trimRightPercent (sprintfFixed p x suf).data) ≠ Float64.nan := by
  simp only [sprintfFixed, String.data_append]
  exact key_of_suffix _ suf (fmtFixed_forall _ numeral_no_percent.1 numeral_no_percent.2 p x) hs

theorem sprintfInt_key (i : Int) (suf : String)
    (hs : (∀ c ∈ suf.data, c ≠ '%') ∧ suf.data ≠ [] ∧
      suf.data.getLast?.map Char.toLower ≠ some 'n') :
    parseFloat (trimRightPercent (sprintfInt i suf).data) ≠ Float64.nan := by
  simp only [sprintfInt, String.data_append]
  exact key_of_suffix _ suf (fmtInt_forall _ numeral_no_percent.1 (by decide) i) hs

theorem canon_ne_nan (x : Float64) (hx : x ≠ Float64.nan) : x.canon ≠ Float64.nan := by
  cases x with
  | nan => exact absurd rfl hx
  | inf neg =>
    simp only [Float64.canon]
    exact fun h => Float64.noConfusion h
  | finite neg m e =>
    cases hr : roundToFloat neg (m * 2 ^ e.toNat) (2 ^ (-e).toNat) with
    | nan => exact absurd hr (roundToFloat_ne_nan _ _ _)
    | inf n =>
      simp only [Float64.canon, hr]
      exact fun h => Float64.noConfusion h
    | finite n m2 e2 =>
      simp only [Float64.canon, hr]
      split_ifs <;> exact fun h => Float64.noConfusion h

theorem mul_hundred_ne_nan (a : Float64) (ha : a ≠ Float64.nan) :
    a.mul (Float64.ofInt 100) ≠ Float64.nan := by
  obtain ⟨m, e, hm, hval⟩ := ofInt_exact_signed 100 (by norm_num) (by norm_num)
  have hm0 : m ≠ 0 := by
    rintro rfl
    simp at hval
  rw [hm]
  cases a with
  | nan => exact absurd rfl ha
  | inf n =>
    simp only [Float64.mul, hm0, if_false]
    exact fun h => Float64.noConfusion h
  | finite n m1 e1 =>
    simp only [Float64.mul]
    exact roundToFloat_ne_nan _ _ _

/-- The default text of a number that is not a NaN does not read back as a NaN. -/
theorem parseFloat_fmtV_ne_nan (v : Value)
    (hv : (∃ i, v = Value.int i) ∨ (∃ x, v = Value.float x ∧ x ≠ Float64.nan)) :
    parseFloat (fmtV v) ≠ Float64.nan := by
  rcases hv with ⟨i, rfl⟩ | ⟨x, rfl, hx⟩
  · simp only [fmtV, parseFloat_fmtInt, Float64.ofInt]
    exact roundToFloat_ne_nan _ _ _
  · simp only [fmtV, parseFloat_fmtG]
    exact canon_ne_nan x hx

theorem fmtFixed_head (p : Nat) (x : Float64) (hx : x ≠ Float64.nan) :
    ∃ c rest, fmtFixed p x = c :: rest ∧ c.toLower ≠ 'n' := by
  cases x with
  | nan => exact absurd rfl hx
  | inf neg => cases neg <;> exact ⟨_, _, rfl, by decide⟩
  | finite neg m e =>
    obtain ⟨hne, hall, -⟩ := natDigits_spec (fixedDigits p m e / 10 ^ p)
    simp only [fmtFixed]
    cases neg with
    | true => exact ⟨'-', _, rfl, by decide⟩
    | false =>
      cases hd : natDigits (fixedDigits p m e / 10 ^ p) with
      | nil => exact absurd hd hne
      | cons c cs =>
        refine ⟨c, _, rfl, ?_⟩
        exact (decimalChars_lower c (hall c (by rw [hd]; exact List.mem_cons_self _ _))).1

theorem percent_key (x : Float64) (hx : x ≠ Float64.nan) :
    parseFloat (trimRightPercent (sprintfFixed 2 x "%").data) ≠ Float64.nan := by
  simp only [sprintfFixed, String.data_append]
  rw [trimRightPercent_percent _
    (fmtFixed_forall _ numeral_no_percent.1 numeral_no_percent.2 2 x)]
  obtain ⟨c, rest, hc, hn⟩ := fmtFixed_head 2 x hx
  intro h
  have := parseFloat_eq_nan _ h
  rw [hc] at this
  exact text_ne_nan_of_head c rest hn this

theorem convertToReadableTime_key (v : Value) (u : String)
    (hv : (∃ i, v = Value.int i) ∨ (∃ x, v = Value.float x)) (hu : isDurationUnit u) :
    ∃ s, ConvertToReadableTime v u = Except.ok s ∧
      parseFloat (trimRightPercent s.data) ≠ Float64.nan := by
  have hh : (∀ c ∈ "h".data, c ≠ '%') ∧ "h".data ≠ [] ∧
      "h".data.getLast?.map Char.toLower ≠ some 'n' := by decide
  have hsec : (∀ c ∈ "s".data, c ≠ '%') ∧ "s".data ≠ [] ∧
      "s".data.getLast?.map Char.toLower ≠ some 'n' := by decide
  have hms : (∀ c ∈ "ms".data, c ≠ '%') ∧ "ms".data ≠ [] ∧
      "ms".data.getLast?.map Char.toLower ≠ some 'n' := by decide
  have hns : (∀ c ∈ "ns".data, c ≠ '%') ∧ "ns".data ≠ [] ∧
      "ns".data.getLast?.map Char.toLower ≠ some 'n' := by decide
  rcases hu with rfl | rfl | rfl | rfl
  · have hu : ConvertToReadableTime v "ns" = NanosecondsConverter.Convert v := by
      simp [ConvertToReadableTime]
    rw [hu]
    rcases hv with ⟨i, rfl⟩ | ⟨x, rfl⟩
    · simp only [NanosecondsConverter.Convert]
      split_ifs
      · exact ⟨_, rfl, sprintfFixed_key _ _ "h" hh⟩
      · exact ⟨_, rfl, sprintfFixed_key _ _ "s" hsec⟩
      · exact ⟨_, rfl, sprintfFixed_key _ _ "ms" hms⟩
      · exact ⟨_, rfl, sprintfInt_key _ "ns" hns⟩
    · simp only [NanosecondsConverter.Convert]
      split_ifs
      · exact ⟨_, rfl, sprintfFixed_key _ _ "h" hh⟩
      · exact ⟨_, rfl, sprintfFixed_key _ _ "s" hsec⟩
      · exact ⟨_, rfl, sprintfFixed_key _ _ "ms" hms⟩
      · exact ⟨_, rfl, sprintfFixed_key _ _ "ns" hns⟩
  · have hu : ConvertToReadableTime v "ms" = MillisecondsConverter.Convert v := by
      simp [ConvertToReadableTime]
    rw [hu]
    rcases hv with ⟨i, rfl⟩ | ⟨x, rfl⟩ <;> simp only [MillisecondsConverter.Convert] <;>
      split_ifs
    · exact ⟨_, rfl, sprintfFixed_key _ _ "h" hh⟩
    · exact ⟨_, rfl, sprintfFixed_key _ _ "s" hsec⟩
    · exact ⟨_, rfl, sprintfFixed_key _ _ "ms" hms⟩
    · exact ⟨_, rfl, sprintfFixed_key _ _ "h" hh⟩
    · exact ⟨_, rfl, sprintfFixed_key _ _ "s" hsec⟩
    · exact ⟨_, rfl, sprintfFixed_key _ _ "ms" hms⟩
  · have hu : ConvertToReadableTime v "seconds" = SecondsConverter.Convert v := by
      simp [ConvertToReadableTime]
    rw [hu]
    rcases hv with ⟨i, rfl⟩ | ⟨x, rfl⟩ <;> simp only [SecondsConverter.Convert] <;>
      split_ifs
    · exact ⟨_, rfl, sprintfFixed_key _ _ "h" hh⟩
    · exact ⟨_, rfl, sprintfFixed_key _ _ "s" hsec⟩
    · exact ⟨_, rfl, sprintfFixed_key _ _ "h" hh⟩
    · exact ⟨_, rfl, sprintfFixed_key _ _ "s" hsec⟩
  · have hu : ConvertToReadableTime v "hours" = HoursConverter.Convert v := by
      simp [ConvertToReadableTime]
    rw [hu]
    rcases hv with ⟨i, rfl⟩ | ⟨x, rfl⟩ <;> simp only [HoursConverter.Convert] <;>
      exact ⟨_, rfl, sprintfFixed_key _ _ "h" hh⟩

theorem convertToReadableBytes_key (v : Value)
    (hv : (∃ i, v = Value.int i) ∨ (∃ x, v = Value.float x)) :
    parseFloat (trimRightPercent (ConvertToReadableBytes v).data) ≠ Float64.nan := by
  have h1 : (∀ c ∈ " TB".data, c ≠ '%') ∧ " TB".data ≠ [] ∧
      " TB".data.getLast?.map Char.toLower ≠ some 'n' := by decide
  have h2 : (∀ c ∈ " GB".data, c ≠ '%') ∧ " GB".data ≠ [] ∧
      " GB".data.getLast?.map Char.toLower ≠ some 'n' := by decide
  have h3 : (∀ c ∈ " MB".data, c ≠ '%') ∧ " MB".data ≠ [] ∧
      " MB".data.getLast?.map Char.toLower ≠ some 'n' := by decide
  have h4 : (∀ c ∈ " KB".data, c ≠ '%') ∧ " KB".data ≠ [] ∧
      " KB".data.getLast?.map Char.toLower ≠ some 'n' := by decide
  have h5 : (∀ c ∈ " bytes".data, c ≠ '%') ∧ " bytes".data ≠ [] ∧
      " bytes".data.getLast?.map Char.toLower ≠ some 'n' := by decide
  rcases hv with ⟨i, rfl⟩ | ⟨x, rfl⟩
  · simp only [ConvertToReadableBytes, ConvertIntBytes]
    split_ifs
    · exact sprintfFixed_key _ _ " TB" h1
    · exact sprintfFixed_key _ _ " GB" h2
    · exact sprintfFixed_key _ _ " MB" h3
    · exact sprintfFixed_key _ _ " KB" h4
    · exact sprintfInt_key _ " bytes" h5
  · simp only [ConvertToReadableBytes, ConvertFloatBytes]
    split_ifs
    · exact sprintfFixed_key _ _ " TB" h1
    · exact sprintfFixed_key _ _ " GB" h2
    · exact sprintfFixed_key _ _ " MB" h3
    · exact sprintfFixed_key _ _ " KB" h4
    · exact sprintfFixed_key _ _ " bytes" h5

/-- The value text of a number that is not a NaN is never read as a NaN by the sort. -/
theorem renderValue_key (unit : String) (v : Value)
    (hv : (∃ i, v = Value.int i) ∨ (∃ x, v = Value.float x ∧ x ≠ Float64.nan)) (s : String)
    (hs : renderValue unit v = Except.ok s) :
    parseFloat (trimRightPercent s.data) ≠ Float64.nan := by
  have hnum : (∃ i, v = Value.int i) ∨ (∃ x, v = Value.float x) := by
    rcases hv with h | ⟨x, h, -⟩
    · exact Or.inl h
    · exact Or.inr ⟨x, h⟩
  rw [renderValue_eq] at hs
  split_ifs at hs with hd hb hp
  · obtain ⟨s', h1, h2⟩ := convertToReadableTime_key v unit hnum hd
    rw [h1] at hs
    injection hs with hs
    rw [← hs]
    exact h2
  · injection hs with hs
    rw [← hs]
    exact convertToReadableBytes_key v hnum
  · injection hs with hs
    rw [← hs]
    exact percent_key _ (mul_hundred_ne_nan _ (parseFloat_fmtV_ne_nan v hv))
  · injection hs with hs
    rw [← hs]
    have hnp : ∀ c ∈ fmtV v, c ≠ '%' := by
      rcases hnum with ⟨i, rfl⟩ | ⟨x, rfl⟩
      · exact fmtInt_forall _ numeral_no_percent.1 (by decide) i
      · exact fmtG_forall _ numeral_no_percent.1 numeral_no_percent.2 x
    show parseFloat (trimRightPercent (fmtV v)) ≠ Float64.nan
    rw [trimRightPercent_id _ hnp]
    exact parseFloat_fmtV_ne_nan v hv

/-- The key the sort reads in a row whose first five texts are free of the separator. -/
theorem rowKey_mkRow_plain (timestamp name metricType unit value labels : String)
    (h1 : ∀ c ∈ timestamp.data, c ≠ sep) (h2 : ∀ c ∈ name.data, c ≠ sep)
    (h3 : ∀ c ∈ metricType.data, c ≠ sep) (h4 : ∀ c ∈ unit.data, c ≠ sep)
    (h5 : ∀ c ∈ value.data, c ≠ sep) :
    rowKey (mkRow timestamp name metricType unit value labels) =
      some (parseFloat (trimRightPercent value.data)) := by
  unfold rowKey
  simp only [mkRow, List.append_assoc, List.cons_append]
  rw [splitOn_no_sep sep _ _ h1, splitOn_no_sep sep _ _ h2, splitOn_no_sep sep _ _ h3,
    splitOn_no_sep sep _ _ h4, splitOn_no_sep sep _ _ h5]
  rfl

theorem getUnitAndType_plain (name : String) (table : List AgentTelemetryMetric)
    (h : ∀ t ∈ table, (∀ c ∈ t.Unit.data, c ≠ sep) ∧ (∀ c ∈ t.Type_.data, c ≠ sep)) :
    (∀ c ∈ (GetUnitAndType name table).1.data, c ≠ sep) ∧
      (∀ c ∈ (GetUnitAndType name table).2.data, c ≠ sep) := by
  induction table with
  | nil =>
    simp only [GetUnitAndType]
    exact ⟨by decide, by decide⟩
  | cons t rest ih =>
    simp only [GetUnitAndType]
    split_ifs
    · exact h t (List.mem_cons_self _ _)
    · exact h t (List.mem_cons_self _ _)
    · exact ih (fun t2 ht2 => h t2 (List.mem_cons_of_mem _ ht2))

/-- The row of an entry extracted from a plain snapshot, under a unit and a type free of
the separator, has a key, and the key is not a NaN. -/
theorem rowFor_key (metricType unit : String) (regex : Regex) (m : Metric) (hm : m.Plain)
    (hty : ∀ c ∈ metricType.data, c ≠ sep) (hun : ∀ c ∈ unit.data, c ≠ sep)
    (e : Extracted) (he : e ∈ extractWith regex m) (r : String)
    (hr : rowFor metricType unit e = Except.ok r) : rowKey r ≠ some Float64.nan := by
  obtain ⟨hts, hg, hp, hk, hs⟩ := hm
  have hfacts : (∀ c ∈ e.timestamp.data, c ≠ sep) ∧ (∀ c ∈ e.name.data, c ≠ sep) ∧
      ((∃ i, e.value = Value.int i) ∨ (∃ x, e.value = Value.float x ∧ x ≠ Float64.nan)) := by
    rcases mem_extractWith regex m e he with ⟨g, hgm, -, rfl⟩ | ⟨g, hgm, -, rfl⟩ |
      ⟨g, hgm, -, rfl⟩ | ⟨g, hgm, -, rfl⟩
    · exact ⟨hts, (hg g hgm).1, Or.inr ⟨_, rfl, (hg g hgm).2⟩⟩
    · exact ⟨hts, (hp g hgm).1, Or.inr ⟨_, rfl, (hp g hgm).2⟩⟩
    · exact ⟨hts, hk g hgm, Or.inl ⟨_, rfl⟩⟩
    · exact ⟨hts, (hs g hgm).1, Or.inr ⟨_, rfl, (hs g hgm).2⟩⟩
  obtain ⟨h1, h2, h3⟩ := hfacts
  have hnum : (∃ i, e.value = Value.int i) ∨ (∃ x, e.value = Value.float x) := by
    rcases h3 with h | ⟨x, h, -⟩
    · exact Or.inl h
    · exact Or.inr ⟨x, h⟩
  obtain ⟨v, hv, hchars, hrow⟩ := rowFor_numeric metricType unit e hnum
  rw [hrow] at hr
  injection hr with hr
  rw [← hr, rowKey_mkRow_plain _ _ _ _ _ _ h1 h2 hty hun
    (fun c hc => (valueChars_plain c (hchars c hc)).2)]
  intro hk2
  injection hk2 with hk2
  exact renderValue_key unit e.value h3 v hv hk2

theorem insertBack_some (x : String) (acc : List String) (hx : ∃ k, rowKey x = some k)
    (hacc : ∀ r ∈ acc, ∃ k, rowKey r = some k) : ∃ l, insertBack x acc = some l := by
  induction acc with
  | nil => exact ⟨_, rfl⟩
  | cons y ys ih =>
    obtain ⟨kx, hkx⟩ := hx
    obtain ⟨ky, hky⟩ := hacc y (List.mem_cons_self _ _)
    obtain ⟨l, hl⟩ := ih (fun r hr => hacc r (List.mem_cons_of_mem _ hr))
    unfold insertBack
    simp only [ByValue.Less, hkx, hky]
    cases kx.gt ky with
    | true => exact ⟨_, by simp only [hl]; rfl⟩
    | false => exact ⟨_, rfl⟩

/-- The sort never panics on rows that all have a fifth field. -/
theorem sortLoop_some (xs acc : List String) (hxs : ∀ r ∈ xs, ∃ k, rowKey r = some k)
    (hacc : ∀ r ∈ acc, ∃ k, rowKey r = some k) : ∃ out, sortLoop xs acc = some out := by
  induction xs generalizing acc with
  | nil => exact ⟨_, rfl⟩
  | cons x xs ih =>
    obtain ⟨l, hl⟩ := insertBack_some x acc (hxs x (List.mem_cons_self _ _)) hacc
    have hl2 : ∀ r ∈ l, ∃ k, rowKey r = some k := by
      intro r hr
      rcases insertBack_mem x acc l hl r hr with rfl | h
      · exact hxs r (List.mem_cons_self _ _)
      · exact hacc r h
    obtain ⟨out, hout⟩ := ih l (fun r hr => hxs r (List.mem_cons_of_mem _ hr)) hl2
    exact ⟨out, by simp only [sortLoop, hl, hout]⟩

/-- The rows a successful loop appends, for plain snapshots and a plain unit and type,
have keys that are not NaN. -/
theorem collectRows_keys (name metricType unit : String) (ms : List Metric)
    (hms : ∀ m ∈ ms, m.Plain) (hty : ∀ c ∈ metricType.data, c ≠ sep)
    (hun : ∀ c ∈ unit.data, c ≠ sep) (acc new : List String)
    (h : collectRows name metricType unit ms acc = Except.ok (acc ++ new)) :
    ∀ r ∈ new, rowKey r ≠ some Float64.nan := by
  rcases collectRows_ok_compiles _ _ _ _ _ _ h with ⟨-, hres⟩ | ⟨regex, hc⟩
  · have : new = [] := by simpa using hres
    subst this
    simp
  · obtain ⟨new2, hnew, hall⟩ := collectRows_numeric name metricType unit regex hc ms acc
    rw [hnew] at h
    injection h with h
    have hnn : new2 = new := List.append_cancel_left h
    subst hnn
    intro r hr
    obtain ⟨m, hm, e, he, hre⟩ := hall r hr
    exact rowFor_key metricType unit regex m (hms m hm) hty hun e he r hre

/-- C9 fails as stated: a bundle whose second snapshot has a timestamp with four
separators that ends in `NaN` gives a row whose fifth field reads as NaN.  With the
sort-by-value flag set the rows come back as they were built, with the keys 1, NaN, 2:
the second data row is placed before the third although its key is not `>=` the key 2,
so the value fields are not non-increasing. -/
theorem sorted_run_keeps_nan_key_in_place :
    GetMetricValuesRows nanKeyDebug (Except.ok ("", [])) "g" false true =
      Except.ok (headerRow :: nanKeyRows) ∧
    nanKeyRows.map rowKey =
      [some (Float64.ofInt 1), some Float64.nan, some (Float64.ofInt 2)] ∧
    ¬ nanKeyRows.Pairwise valueGe ∧
    ¬ valueGe (mkRow "t1" "g" "-" "-" "1" "[]") (mkRow "t3" "g" "-" "-" "2" "[]") := by
  have hkeys : nanKeyRows.map rowKey =
      [some (Float64.ofInt 1), some Float64.nan, some (Float64.ofInt 2)] := by decide
  have h13 : ¬ valueGe (mkRow "t1" "g" "-" "-" "1" "[]") (mkRow "t3" "g" "-" "-" "2" "[]") := by
    have h1 : rowKey (mkRow "t1" "g" "-" "-" "1" "[]") = some (Float64.ofInt 1) := by decide
    have h3 : rowKey (mkRow "t3" "g" "-" "-" "2" "[]") = some (Float64.ofInt 2) := by decide
    rintro ⟨x, y, hx, hy, hge⟩
    rw [h1] at hx
    rw [h3] at hy
    injection hx with hx
    injection hy with hy
    subst hx
    subst hy
    exact absurd hge (by decide)
  refine ⟨by decide, hkeys, ?_, h13⟩
  intro hp
  simp only [nanKeyRows, List.pairwise_cons] at hp
  exact h13 (hp.1 _ (by simp))

/-- C9 (amended): whenever `GetMetricValues` builds its rows, the run with the
sort-by-value flag set returns too, its header stays first and its data rows are a
permutation of the data rows built.  If no data row has a fifth field that reads as NaN,
the sorted data rows are ordered so that every earlier row has a parsed value field `>=`
that of every later row (fifth field, trailing `%` removed, a parse failure counting as
0).  No fifth field reads as NaN when every snapshot is plain (timestamp and metric names
free of the separator `0x1f`, no NaN among the gauge values, points and sample means) and
the unit and type texts of the telemetry table are free of the separator. -/
theorem getMetricValues_sorted_by_value (b : Debug) (fetch : TelemetryFetch) (name : String)
    (validate : Bool) (rows : List String)
    (h : GetMetricValuesRows b fetch name validate false = Except.ok rows) :
    ∃ sorted, GetMetricValuesRows b fetch name validate true = Except.ok (headerRow :: sorted) ∧
      rows = headerRow :: rows.drop 1 ∧ sorted.Perm (rows.drop 1) ∧
      ((∀ r ∈ rows.drop 1, rowKey r ≠ some Float64.nan) → sorted.Pairwise valueGe) ∧
      ((∀ m ∈ b.Metrics.Metrics, m.Plain) → plainTable fetch →
        ∀ r ∈ rows.drop 1, rowKey r ≠ some Float64.nan) := by
  unfold GetMetricValuesRows at h ⊢
  cases fetch with
  | error e => exact absurd h (by simp)
  | ok p =>
    obtain ⟨stringInfo, telemetryInfo⟩ := p
    simp only [] at h ⊢
    cases hv : (if validate = true then validateName name name stringInfo else Except.ok ()) with
    | error e => rw [hv] at h; exact absurd h (by simp)
    | ok u =>
      rw [hv] at h
      simp only [] at h ⊢
      cases hc : collectRows name (GetUnitAndType name telemetryInfo).2
          (GetUnitAndType name telemetryInfo).1 b.Metrics.Metrics [headerRow] with
      | error e => rw [hc] at h; exact absurd h (by simp)
      | ok result =>
        rw [hc] at h
        simp only [Bool.false_eq_true, if_false, Except.ok.injEq] at h
        subst h
        obtain ⟨new, hnew, hall⟩ := collectRows_spec _ _ _ _ _ _ hc
        subst hnew
        obtain ⟨sorted, hs⟩ := sortLoop_some new [] hall (by simp)
        have hperm : sorted.Perm new := by simpa using sortLoop_perm new [] sorted hs
        refine ⟨sorted, ?_, by simp, by simpa using hperm, ?_, ?_⟩
        · simp [sortByValue, hs]
        · intro hnan
          simp only [List.singleton_append, List.drop_succ_cons, List.drop_zero] at hnan
          have hgood : ∀ r ∈ new, GoodRow r := by
            intro r hr
            obtain ⟨x, hx⟩ := hall r hr
            refine ⟨x, hx, ?_⟩
            rintro rfl
            exact hnan r hr hx
          obtain ⟨sorted2, hs2, -, hsorted⟩ := sortByValue_spec new hgood
          have : sorted2 = sorted := by
            unfold sortByValue at hs2
            rw [hs] at hs2
            injection hs2 with hs2
            exact hs2.symm
          rw [← this]
          exact hsorted
        · intro hms htable
          simp only [List.singleton_append, List.drop_succ_cons, List.drop_zero]
          obtain ⟨hun, hty⟩ := getUnitAndType_plain name telemetryInfo htable
          exact collectRows_keys name _ _ b.Metrics.Metrics hms hty hun [headerRow] new hc

theorem getMetricValues_sorted_by_value_witness :
    GetMetricValuesRows saturationDebug saturationFetch "consul.raft.thread.main.saturation"
        false false =
      Except.ok [headerRow, saturationRow "t1" "5.00%", saturationRow "t2" "90.00%",
        saturationRow "t3" "12.00%"] ∧
    (∀ m ∈ saturationDebug.Metrics.Metrics, m.Plain) ∧ plainTable saturationFetch ∧
    GetMetricValuesRows saturationDebug saturationFetch "consul.raft.thread.main.saturation"
        false true =
      Except.ok [headerRow, saturationRow "t2" "90.00%", saturationRow "t3" "12.00%",
        saturationRow "t1" "5.00%"] ∧
    sortByValue [saturationRow "t1" "5.0%", saturationRow "t2" "90.0%", saturationRow "t3" "12.0%"] =
      some [saturationRow "t2" "90.0%", saturationRow "t3" "12.0%", saturationRow "t1" "5.0%"] ∧
    ∃ sorted,
      GetMetricValuesRows saturationDebug saturationFetch "consul.raft.thread.main.saturation"
          false true = Except.ok (headerRow :: sorted) ∧
      [headerRow, saturationRow "t1" "5.00%", saturationRow "t2" "90.00%",
        saturationRow "t3" "12.00%"] =
        headerRow :: [headerRow, saturationRow "t1" "5.00%", saturationRow "t2" "90.00%",
          saturationRow "t3" "12.00%"].drop 1 ∧
      sorted.Perm ([headerRow, saturationRow "t1" "5.00%", saturationRow "t2" "90.00%",
        saturationRow "t3" "12.00%"].drop 1) ∧
      ((∀ r ∈ [headerRow, saturationRow "t1" "5.00%", saturationRow "t2" "90.00%",
          saturationRow "t3" "12.00%"].drop 1, rowKey r ≠ some Float64.nan) →
        sorted.Pairwise valueGe) ∧
      ((∀ m ∈ saturationDebug.Metrics.Metrics, m.Plain) → plainTable saturationFetch →
        ∀ r ∈ [headerRow, saturationRow "t1" "5.00%", saturationRow "t2" "90.00%",
          saturationRow "t3" "12.00%"].drop 1, rowKey r ≠ some Float64.nan) :=
  ⟨by decide, by decide, by decide, by decide, by decide,
    getMetricValues_sorted_by_value saturationDebug saturationFetch
      "consul.raft.thread.main.saturation" false _ (by decide)⟩

/-- C18 (amended): for a unit that contains `percentage`, is not a duration unit and does
not contain `bytes`, the value field of a floating-point value `x` is `%.2f%%` of the
binary64 product `x * 100`, and the value field of an integer `n` is `%.2f%%` of the
binary64 product of `float64(n)` and 100: the default text of the value reads back as the
value itself.  When the product is the finite number `m * 2^e`, the field is its sign,
the exact value of `100 * m * 2^e` rounded half to even to an integer, written with the
last two digits after the decimal point, and `%`.  For an integer `n` with
`100 * |n| < 2^53` the field is the decimal of `100 * n` followed by `.00%`. -/
theorem percentage_value_field (unit : String)
    (hp : stringsContains unit "percentage" = true) (hd : ¬ isDurationUnit unit)
    (hb : stringsContains unit "bytes" = false) :
    (∀ x : Float64, x.IsCanonical → renderValue unit (Value.float x) =
      Except.ok (sprintfFixed 2 (x.mul (Float64.ofInt 100)) "%")) ∧
    (∀ x : Float64, renderValue unit (Value.float x) =
      Except.ok (sprintfFixed 2 (x.canon.mul (Float64.ofInt 100)) "%")) ∧
    (∀ n : Int, renderValue unit (Value.int n) =
      Except.ok (sprintfFixed 2 ((Float64.ofInt n).mul (Float64.ofInt 100)) "%")) ∧
    (∀ (v : Value) (q : Float64),
      ((∃ x : Float64, x.IsCanonical ∧ v = Value.float x ∧ q = x.mul (Float64.ofInt 100)) ∨
        (∃ n : Int, v = Value.int n ∧ q = (Float64.ofInt n).mul (Float64.ofInt 100))) →
      ∀ neg m e, q = Float64.finite neg m e →
        renderValue unit v = Except.ok (String.mk ((if neg then ['-'] else []) ++
          natDigits (fixedDigits 2 m e / 100) ++ '.' :: lastDigits 2 (fixedDigits 2 m e) ++
            ['%'])) ∧
        (lastDigits 2 (fixedDigits 2 m e)).length = 2 ∧
        ∀ num den : Nat, 0 < den → (m : ℚ) * (2 : ℚ) ^ e = (num : ℚ) / den →
          fixedDigits 2 m e = roundHalfEven (num * 100) den) ∧
    (∀ n : Int, 100 * n.natAbs < 2 ^ 53 →
      renderValue unit (Value.int n) = Except.ok (String.mk (fmtInt (100 * n) ++ ".00%".data))) := by
  have key : ∀ v, renderValue unit v =
      Except.ok (sprintfFixed 2 ((parseFloat (fmtV v)).mul (Float64.ofInt 100)) "%") := by
    intro v
    rw [renderValue_eq, if_neg hd, hb, hp]
    simp
  have hcanon : ∀ x : Float64, renderValue unit (Value.float x) =
      Except.ok (sprintfFixed 2 (x.canon.mul (Float64.ofInt 100)) "%") := by
    intro x
    rw [key]
    simp only [fmtV, parseFloat_fmtG]
  have hfloat : ∀ x : Float64, x.IsCanonical → renderValue unit (Value.float x) =
      Except.ok (sprintfFixed 2 (x.mul (Float64.ofInt 100)) "%") := by
    intro x hx
    rw [hcanon, canon_of_canonical x hx]
  have hint : ∀ n : Int, renderValue unit (Value.int n) =
      Except.ok (sprintfFixed 2 ((Float64.ofInt n).mul (Float64.ofInt 100)) "%") := by
    intro n
    rw [key]
    simp only [fmtV, parseFloat_fmtInt]
  refine ⟨hfloat, hcanon, hint, ?_, ?_⟩
  · intro v q hvq neg m e hq
    refine ⟨?_, by simp [lastDigits], ?_⟩
    · rcases hvq with ⟨x, hx, rfl, rfl⟩ | ⟨n, rfl, rfl⟩
      · rw [hfloat x hx, hq]
        rfl
      · rw [hint n, hq]
        rfl
    · intro num den hden hval
      have := fixedDigits_of_val 2 m e num den hden hval
      simpa using this
  · intro n hn
    rw [key]
    simp only [fmtV]
    rw [percent_text_of_int n hn]

theorem percentage_value_field_witness :
    stringsContains "percentage" "percentage" = true ∧ ¬ isDurationUnit "percentage" ∧
    stringsContains "percentage" "bytes" = false ∧
    parseFloat "0.4567".data = Float64.finite false 8227175799280422 (-54) ∧
    (Float64.finite false 8227175799280422 (-54)).IsCanonical ∧
    renderValue "percentage" (Value.float (Float64.finite false 8227175799280422 (-54))) =
      Except.ok "45.67%" ∧
    renderValue "percentage" (Value.int (-7)) = Except.ok "-700.00%" :=
  ⟨by decide, by decide, by decide, by decide, by decide,
    ((percentage_value_field "percentage" (by decide) (by decide) (by decide)).1
      (Float64.finite false 8227175799280422 (-54)) (by decide)).trans (by decide),
    ((percentage_value_field "percentage" (by decide) (by decide) (by decide)).2.2.2.2
      (-7) (by decide)).trans (by decide)⟩

end ConsulDebug
